import Mathlib

/-!
# Subquery decorrelation core (`pkg/sql/opt/norm/decorrelate.go`)

A shallow embedding of the subquery hoister and its helper transformations.

* The memo is a hash-consing store of expression nodes; a group identifier is
  modelled by the expression tree itself, so that structurally identical
  subtrees are the same group.
* Every node carries the logical properties the memo stores for its group.
  The properties of nodes that are given as input are arbitrary; the
  properties of nodes constructed by the functions below come from
  `buildProps`, a model of the logical property builder.
* The factory, the metadata and the per-group rule cache are explicit state.
* A Go `panic` is the `Result.panic` outcome.
-/

namespace Decorrelate

/-! ## Column identifiers and column sets -/

/-- Column identifier (`opt.ColumnID`). -/
abbrev ColumnID := Int

/-- Ordered insertion of a member into a strictly increasing list. -/
def insertElem (c : Int) : List Int → List Int
  | [] => [c]
  | x :: xs => if c < x then c :: x :: xs else if c = x then x :: xs else x :: insertElem c xs

/-- Column set (`opt.ColSet`, a `util.FastIntSet`): a finite set of integers,
kept as its strictly increasing list of members. -/
structure ColSet where
  elems : List Int
  sorted : elems.Sorted (· < ·)

instance : DecidableEq ColSet := fun a b =>
  decidable_of_iff (a.elems = b.elems) (by cases a; cases b; simp)

namespace ColSet

/-- The empty set (the zero value of `opt.ColSet`). -/
def empty : ColSet := ⟨[], List.sorted_nil⟩

instance : EmptyCollection ColSet := ⟨empty⟩

instance : Inhabited ColSet := ⟨empty⟩

instance : Membership Int ColSet := ⟨fun s c => c ∈ s.elems⟩

instance (c : Int) (s : ColSet) : Decidable (c ∈ s) :=
  inferInstanceAs (Decidable (c ∈ s.elems))

/-- Method `Add`: the set with one more member. -/
def Add (s : ColSet) (c : Int) : ColSet :=
  ⟨insertElem c s.elems, by
    have hmem : ∀ (l : List Int) (a : Int), a ∈ insertElem c l → a = c ∨ a ∈ l := by
      intro l
      induction l with
      | nil => intro a ha; simpa [insertElem] using ha
      | cons x xs ih =>
        intro a ha
        unfold insertElem at ha
        split_ifs at ha with h1 h2
        · simpa using ha
        · exact Or.inr ha
        · rcases List.mem_cons.mp ha with ha | ha
          · exact Or.inr (by rw [ha]; exact List.mem_cons_self _ _)
          · rcases ih a ha with h | h
            · exact Or.inl h
            · exact Or.inr (List.mem_cons_of_mem _ h)
    have hs : ∀ l : List Int, l.Sorted (· < ·) → (insertElem c l).Sorted (· < ·) := by
      intro l
      induction l with
      | nil => intro _; simp [insertElem]
      | cons x xs ih =>
        intro h
        unfold insertElem
        rw [List.sorted_cons] at h
        split_ifs with h1 h2
        · rw [List.sorted_cons]
          refine ⟨?_, List.sorted_cons.mpr h⟩
          intro b hb
          rcases List.mem_cons.mp hb with hb | hb
          · rw [hb]; exact h1
          · exact lt_trans h1 (h.1 b hb)
        · exact List.sorted_cons.mpr h
        · rw [List.sorted_cons]
          refine ⟨?_, ih h.2⟩
          intro b hb
          rcases hmem xs b hb with hb | hb
          · rw [hb]; omega
          · exact h.1 b hb
    exact hs _ s.sorted⟩

/-- Set of the members of a list (`opt.ColListToSet`). -/
def ofList (l : List Int) : ColSet := l.foldr (fun c s => s.Add c) empty

/-- Method `Empty`: true when the set has no member. -/
def Empty (s : ColSet) : Bool := s.elems.isEmpty

/-- Method `Len`: the number of members. -/
def Len (s : ColSet) : Nat := s.elems.length

/-- Method `Contains`. -/
def Contains (s : ColSet) (c : Int) : Bool := decide (c ∈ s.elems)

/-- Method `Union`. -/
def Union (s t : ColSet) : ColSet := s.elems.foldr (fun c u => u.Add c) t

/-- Method `Difference`: the members of `s` that are not in `t`. -/
def Difference (s t : ColSet) : ColSet :=
  ⟨s.elems.filter (fun c => !t.Contains c), s.sorted.filter _⟩

/-- Method `Intersection`. -/
def Intersection (s t : ColSet) : ColSet :=
  ⟨s.elems.filter (fun c => t.Contains c), s.sorted.filter _⟩

/-- Method `SubsetOf`. -/
def SubsetOf (s t : ColSet) : Bool := s.elems.all (fun c => t.Contains c)

/-- Method `Next`: the first member that is at least `startVal`, with `true`;
when there is none the second component is `false`. The integer returned in
that case is not used by any caller that checks the flag; it is `-1` here. -/
def Next (s : ColSet) (startVal : Int) : Int × Bool :=
  match s.elems.find? (fun c => decide (startVal ≤ c)) with
  | some c => (c, true)
  | none => (-1, false)

end ColSet

/-- Ordered list of columns (`opt.ColList`). -/
abbrev ColList := List ColumnID

/-! ## Operators, private payloads and logical properties -/

/-- Column and scalar types (`types.T`), as far as the code names them. -/
inductive Typ where
  | Bool
  | Int
  | Unknown
  | EmptyTuple
  | Other (n : Nat)
deriving DecidableEq, Repr

/-- Operator tags (`opt.Operator`): the operators the code names, and
`OtherScalarOp n` / `OtherRelOp n` for the rest of the closed enumeration. -/
inductive Operator where
  | SubqueryOp | ExistsOp | AnyOp
  | VariableOp | ConstOp | NullOp | TrueOp | FalseOp
  | AndOp | IsOp | IsNotOp | CaseOp | WhenOp | TupleOp
  | ProjectionsOp | AggregationsOp
  | ConstAggOp | ConstNotNullAggOp | CountRowsOp | CountOp | BoolOrOp
  | OtherScalarOp (n : Nat)
  | SelectOp | ProjectOp | ValuesOp | ZipOp | ScalarGroupByOp | RowNumberOp
  | InnerJoinOp | LeftJoinOp | RightJoinOp | FullJoinOp | SemiJoinOp | AntiJoinOp
  | InnerJoinApplyOp | LeftJoinApplyOp | RightJoinApplyOp | FullJoinApplyOp
  | SemiJoinApplyOp | AntiJoinApplyOp
  | OtherRelOp (n : Nat)
deriving DecidableEq, Repr

/-- Private payload of a node (`memo.PrivateID` after lookup). -/
inductive Private where
  | none
  | colID (c : ColumnID)
  | colList (l : ColList)
  | operator (op : Operator)
  | typ (t : Typ)
  | projectionsOpDef (SynthesizedCols : ColList) (PassthroughCols : ColSet)
  | groupByDef (GroupingCols : ColSet)
  | rowNumberDef (ColID : ColumnID)
  | other (n : Nat)
deriving DecidableEq

/-- Cardinality bounds (`props.Cardinality`); `Max = maxCard` is "no bound". -/
structure Cardinality where
  Min : Nat
  Max : Nat
deriving DecidableEq, Repr

/-- The largest `uint32`, the unbounded maximum. -/
def maxCard : Nat := 4294967295

namespace Cardinality

/-- Method `CanBeZero`. -/
def CanBeZero (c : Cardinality) : Bool := c.Min == 0

/-- Method `IsZeroOrOne`. -/
def IsZeroOrOne (c : Cardinality) : Bool := decide (c.Max ≤ 1)

/-- Any number of rows (`props.AnyCardinality`). -/
def any : Cardinality := ⟨0, maxCard⟩

/-- Exactly one row (`props.OneCardinality`). -/
def one : Cardinality := ⟨1, 1⟩

end Cardinality

/-- Logical properties of a group (`props.Logical`), relational and scalar
fields side by side. -/
structure Logical where
  OutputCols : ColSet
  OuterCols : ColSet
  NotNullCols : ColSet
  Cardinality : Cardinality
  CandidateKey : Option ColSet
  CanHaveSideEffects : Bool
  Typ : Decorrelate.Typ
deriving DecidableEq

/-- Expression node: operator, ordered children, private payload, and the
logical properties of its group. -/
inductive Expr where
  | mk (op : Operator) (children : List Expr) (priv : Private) (logical : Logical)

namespace Expr

/-- Method `Operator` of an expression view. -/
def Operator : Expr → Decorrelate.Operator
  | mk op _ _ _ => op

/-- Ordered child groups of a node. -/
def children : Expr → List Expr
  | mk _ cs _ _ => cs

/-- Method `Private` of an expression view. -/
def Private : Expr → Decorrelate.Private
  | mk _ _ p _ => p

/-- Method `Logical` of an expression view (`GroupProperties`). -/
def Logical : Expr → Decorrelate.Logical
  | mk _ _ _ l => l

/-- Method `ChildCount`. -/
def ChildCount (e : Expr) : Nat := e.children.length

end Expr

mutual
/-- Equality of two nodes is decidable (group identity in the memo). -/
def Expr.decEq : (x y : Expr) → Decidable (x = y)
  | .mk o1 c1 p1 l1, .mk o2 c2 p2 l2 =>
    if ho : o1 = o2 then
      match Expr.decEqList c1 c2 with
      | isTrue hc =>
        if hp : p1 = p2 then
          if hl : l1 = l2 then isTrue (by rw [ho, hc, hp, hl])
          else isFalse (by intro h; cases h; exact hl rfl)
        else isFalse (by intro h; cases h; exact hp rfl)
      | isFalse hc => isFalse (by intro h; cases h; exact hc rfl)
    else isFalse (by intro h; cases h; exact ho rfl)
/-- Equality of two child lists is decidable. -/
def Expr.decEqList : (x y : List Expr) → Decidable (x = y)
  | [], [] => isTrue rfl
  | [], _ :: _ => isFalse (by intro h; cases h)
  | _ :: _, [] => isFalse (by intro h; cases h)
  | a :: as, b :: bs =>
    match Expr.decEq a b with
    | isTrue h1 =>
      match Expr.decEqList as bs with
      | isTrue h2 => isTrue (by rw [h1, h2])
      | isFalse h2 => isFalse (by intro h; cases h; exact h2 rfl)
    | isFalse h1 => isFalse (by intro h; cases h; exact h1 rfl)
end

instance : DecidableEq Expr := Expr.decEq

/-- Result of a call that may end in a Go panic. -/
inductive Result (α : Type) where
  | ok (v : α)
  | panic (msg : String)

/-! ## Logical property builder and node constructors

The logical property builder, the factory and the metadata are external
collaborators of the file under study. -/

/-- Whether an operator is relational (`opt.Operator`, tag `Relational`). -/
def Operator.IsRelational : Operator → Bool
  | .SelectOp | .ProjectOp | .ValuesOp | .ZipOp | .ScalarGroupByOp | .RowNumberOp
  | .InnerJoinOp | .LeftJoinOp | .RightJoinOp | .FullJoinOp | .SemiJoinOp | .AntiJoinOp
  | .InnerJoinApplyOp | .LeftJoinApplyOp | .RightJoinApplyOp | .FullJoinApplyOp
  | .SemiJoinApplyOp | .AntiJoinApplyOp | .OtherRelOp _ => true
  | _ => false

/-- Modelled from the spec: constant-value operators (`IsConstValue`, in the
memo package): "If `scalar` is neither a `Variable` nor a constant". -/
def Operator.IsConstValue : Operator → Bool
  | .ConstOp | .NullOp | .TrueOp | .FalseOp => true
  | _ => false

/-- Union of the outer columns of a list of children. -/
def unionOuterCols (cs : List Expr) : ColSet :=
  cs.foldr (fun c s => c.Logical.OuterCols.Union s) ∅

/-- Union of the output columns of a list of children (empty for scalars). -/
def unionOutputCols (cs : List Expr) : ColSet :=
  cs.foldr (fun c s => c.Logical.OutputCols.Union s) ∅

/-- Whether some child can have side effects. -/
def anySideEffects (cs : List Expr) : Bool :=
  cs.any (fun c => c.Logical.CanHaveSideEffects)

/-- Synthesized columns whose defining expression is a non-null constant. -/
def constNotNullCols : ColList → List Expr → ColSet
  | c :: cols, e :: es =>
    if e.Operator = .TrueOp ∨ e.Operator = .FalseOp ∨ e.Operator = .ConstOp then
      (constNotNullCols cols es).Add c
    else constNotNullCols cols es
  | _, _ => ∅

/-- Modelled from the spec: the logical property builder (memo package, not
part of this file). It states what sections 3 and 4 of the specification say
about the groups this file constructs: a `Project` produces its passthrough and
synthesized columns and as many rows as its input, a synthesized constant
column is not null, a scalar group-by produces its aggregate columns and
exactly one row, a `Values` produces its column list and one row per tuple, a
`RowNumber` adds its column as a key, a `Select` keeps the columns of its
input, a join produces the columns of both sides (of the left side only for
semi and anti joins), and a `Variable` refers to its column. Where the
specification states nothing the weakest value stands (any cardinality, no
key, no not-null column). -/
def buildProps (op : Operator) (cs : List Expr) (priv : Private) : Logical :=
  let outer := if op.IsRelational then (unionOuterCols cs).Difference (unionOutputCols cs)
               else unionOuterCols cs
  let side := anySideEffects cs
  let weakest : Logical :=
    { OutputCols := ∅, OuterCols := outer, NotNullCols := ∅, Cardinality := Cardinality.any,
      CandidateKey := none, CanHaveSideEffects := side, Typ := Typ.Unknown }
  match op, cs, priv with
  | .VariableOp, _, .colID c => { weakest with OuterCols := ColSet.ofList [c] }
  | .NullOp, _, .typ t => { weakest with Typ := t }
  | .TrueOp, _, _ | .FalseOp, _, _ | .AndOp, _, _ | .IsOp, _, _ | .IsNotOp, _, _
  | .BoolOrOp, _, _ | .ExistsOp, _, _ | .AnyOp, _, _ => { weakest with Typ := Typ.Bool }
  | .CountOp, _, _ | .CountRowsOp, _, _ => { weakest with Typ := Typ.Int }
  | .SelectOp, input :: _, _ =>
    { weakest with
      OutputCols := input.Logical.OutputCols
      NotNullCols := input.Logical.NotNullCols
      Cardinality := ⟨0, input.Logical.Cardinality.Max⟩
      CandidateKey := input.Logical.CandidateKey }
  | .ProjectOp, [input, projections], _ =>
    match projections.Private with
    | .projectionsOpDef synth pass =>
      let out := pass.Union (ColSet.ofList synth)
      { weakest with
        OutputCols := out
        NotNullCols := (input.Logical.NotNullCols.Intersection out).Union
          (constNotNullCols synth projections.children)
        Cardinality := input.Logical.Cardinality
        CandidateKey := match input.Logical.CandidateKey with
          | some k => if k.SubsetOf out then some k else none
          | none => none }
    | _ => weakest
  | .ScalarGroupByOp, [_, aggs], _ =>
    match aggs.Private with
    | .colList cols =>
      { weakest with
        OutputCols := ColSet.ofList cols
        Cardinality := Cardinality.one
        CandidateKey := some ∅ }
    | _ => { weakest with Cardinality := Cardinality.one, CandidateKey := some ∅ }
  | .ValuesOp, rows, .colList cols =>
    { weakest with
      OutputCols := ColSet.ofList cols
      Cardinality := ⟨rows.length, rows.length⟩ }
  | .ZipOp, _, .colList cols => { weakest with OutputCols := ColSet.ofList cols }
  | .RowNumberOp, [input], .rowNumberDef colID =>
    { weakest with
      OutputCols := input.Logical.OutputCols.Add colID
      NotNullCols := input.Logical.NotNullCols.Add colID
      Cardinality := input.Logical.Cardinality
      CandidateKey := some (ColSet.ofList [colID]) }
  | .SemiJoinOp, left :: _, _ | .AntiJoinOp, left :: _, _
  | .SemiJoinApplyOp, left :: _, _ | .AntiJoinApplyOp, left :: _, _ =>
    { weakest with OutputCols := left.Logical.OutputCols }
  | .InnerJoinOp, left :: right :: _, _ | .LeftJoinOp, left :: right :: _, _
  | .RightJoinOp, left :: right :: _, _ | .FullJoinOp, left :: right :: _, _
  | .InnerJoinApplyOp, left :: right :: _, _ | .LeftJoinApplyOp, left :: right :: _, _
  | .RightJoinApplyOp, left :: right :: _, _ | .FullJoinApplyOp, left :: right :: _, _ =>
    { weakest with OutputCols := left.Logical.OutputCols.Union right.Logical.OutputCols }
  | _, _, _ => weakest

/-- Memoize a new normalized expression: the node with the properties the
builder derives for it. -/
def memoize (op : Operator) (cs : List Expr) (priv : Private) : Expr :=
  .mk op cs priv (buildProps op cs priv)

/-- Method `Replace` of an expression view: the node with the same operator
and private payload over the children the callback returned. When no child
changed the fingerprint is that of the node itself and its own group comes
back. -/
def Replace (ev : Expr) (cs : List Expr) : Expr :=
  if cs = ev.children then ev else memoize ev.Operator cs ev.Private

/-- Metadata of the query: the columns registered so far (label and type). -/
structure Metadata where
  cols : List (String × Typ)

/-- Modelled from the spec: "Metadata column addition (name, type) returning a
fresh column identifier"; identifiers count the registered columns from 1. -/
def Metadata.AddColumn (md : Metadata) (label : String) (typ : Typ) : Metadata × ColumnID :=
  (⟨md.cols ++ [(label, typ)]⟩, (md.cols.length : Int) + 1)

/-- Factory constructor of a `Variable`. -/
def ConstructVariable (col : ColumnID) : Expr := memoize .VariableOp [] (.colID col)

/-- Factory constructor of `True`. -/
def ConstructTrue : Expr := memoize .TrueOp [] .none

/-- Factory constructor of `False`. -/
def ConstructFalse : Expr := memoize .FalseOp [] .none

/-- Factory constructor of a typed `Null`. -/
def ConstructNull (typ : Typ) : Expr := memoize .NullOp [] (.typ typ)

/-- Factory constructor of `Is`. -/
def ConstructIs (left right : Expr) : Expr := memoize .IsOp [left, right] .none

/-- Factory constructor of `IsNot`. -/
def ConstructIsNot (left right : Expr) : Expr := memoize .IsNotOp [left, right] .none

/-- Factory constructor of `And` over a list of conditions. -/
def ConstructAnd (conditions : List Expr) : Expr := memoize .AndOp conditions .none

/-- Factory constructor of `When`. -/
def ConstructWhen (condition value : Expr) : Expr := memoize .WhenOp [condition, value] .none

/-- Factory constructor of `Case`: the input, then the list of whens, whose
last item is the else value. -/
def ConstructCase (input : Expr) (whens : List Expr) : Expr :=
  memoize .CaseOp (input :: whens) .none

/-- Factory constructor of `Tuple`. -/
def ConstructTuple (elems : List Expr) (typ : Typ) : Expr := memoize .TupleOp elems (.typ typ)

/-- Factory constructor of `Projections`. -/
def ConstructProjections (elems : List Expr) (synth : ColList) (pass : ColSet) : Expr :=
  memoize .ProjectionsOp elems (.projectionsOpDef synth pass)

/-- Factory constructor of `Aggregations`. -/
def ConstructAggregations (aggs : List Expr) (cols : ColList) : Expr :=
  memoize .AggregationsOp aggs (.colList cols)

/-- Factory constructor of `ConstAgg`. -/
def ConstructConstAgg (input : Expr) : Expr := memoize .ConstAggOp [input] .none

/-- Factory constructor of `ConstNotNullAgg`. -/
def ConstructConstNotNullAgg (input : Expr) : Expr := memoize .ConstNotNullAggOp [input] .none

/-- Factory constructor of `Count`. -/
def ConstructCount (input : Expr) : Expr := memoize .CountOp [input] .none

/-- Factory constructor of `BoolOr`. -/
def ConstructBoolOr (input : Expr) : Expr := memoize .BoolOrOp [input] .none

/-- Factory constructor of `Select`. -/
def ConstructSelect (input filter : Expr) : Expr := memoize .SelectOp [input, filter] .none

/-- Factory constructor of `Project`. -/
def ConstructProject (input projections : Expr) : Expr :=
  memoize .ProjectOp [input, projections] .none

/-- Factory constructor of `ScalarGroupBy`. -/
def ConstructScalarGroupBy (input aggs : Expr) (groupingCols : ColSet) : Expr :=
  memoize .ScalarGroupByOp [input, aggs] (.groupByDef groupingCols)

/-- Factory constructor of `Values`. -/
def ConstructValues (rows : List Expr) (cols : ColList) : Expr :=
  memoize .ValuesOp rows (.colList cols)

/-- Factory constructor of `Zip`. -/
def ConstructZip (funcs : List Expr) (cols : ColList) : Expr :=
  memoize .ZipOp funcs (.colList cols)

/-- Factory constructor of `RowNumber`. -/
def ConstructRowNumber (input : Expr) (colID : ColumnID) : Expr :=
  memoize .RowNumberOp [input] (.rowNumberDef colID)

/-- Factory constructor of a join of the given operator. -/
def ConstructJoin (op : Operator) (left right on_ : Expr) : Expr :=
  memoize op [left, right, on_] .none

/-- Factory constructor of `InnerJoinApply`. -/
def ConstructInnerJoinApply (left right on_ : Expr) : Expr :=
  ConstructJoin .InnerJoinApplyOp left right on_

/-- Factory constructor of `LeftJoinApply`. -/
def ConstructLeftJoinApply (left right on_ : Expr) : Expr :=
  ConstructJoin .LeftJoinApplyOp left right on_

/-- Modelled from the spec: `ConstructSimpleProject` (factory): "a projection
restricted to" the given columns, with no synthesized column. -/
def ConstructSimpleProject (input : Expr) (passthroughCols : ColSet) : Expr :=
  ConstructProject input (ConstructProjections [] [] passthroughCols)

/-- Modelled from the spec: `projectExtraCol` (factory): "wrap `input` in a
`Project` that adds a synthesized" column to the columns of the input. -/
def projectExtraCol (input extra : Expr) (extraID : ColumnID) : Expr :=
  ConstructProject input (ConstructProjections [extra] [extraID] input.Logical.OutputCols)

/-! ## Hoistability analysis -/

/-- Rule properties cached per scalar group: `none` while the availability bit
of `HasHoistableSubquery` is clear, `some v` once it is set, `v` being the
stored flag. -/
abbrev RuleCache := Expr → Option Bool

/-- No availability bit set. -/
def RuleCache.empty : RuleCache := fun _ => none

/-- Write the flag of a group (its availability bit is set from then on). -/
def RuleCache.set (rule : RuleCache) (group : Expr) (v : Bool) : RuleCache :=
  fun g => if g = group then some v else rule g

/-- Whether an operator is `Subquery`, `Exists` or `Any`. -/
def Operator.IsSubquery (op : Operator) : Bool :=
  decide (op = .SubqueryOp ∨ op = .ExistsOp ∨ op = .AnyOp)

/-- The flag the loop of `HasHoistableSubquery` stores once it found child
`i` to have a hoistable subquery: true, except for the else child of a `Case`
and the branch value of a `When`, where it is the negated side-effect flag of
the child. -/
def branchFlag (op : Operator) (i : Nat) (child : Expr) : Bool :=
  match op with
  | .CaseOp =>
    if 0 < i ∧ child.Operator ≠ .WhenOp then !child.Logical.CanHaveSideEffects else true
  | .WhenOp =>
    if i = 1 then !child.Logical.CanHaveSideEffects else true
  | _ => true

mutual
/-- Function `HasHoistableSubquery`: whether the scalar group contains a
correlated subquery that is to be hoisted; the value is computed once and
stored in the rule properties of the group. -/
def HasHoistableSubquery (rule : RuleCache) : Expr → Bool × RuleCache
  | .mk op cs priv l =>
    match rule (.mk op cs priv l) with
    | some v => (v, rule)
    | none =>
      let rule1 := rule.set (.mk op cs priv l) false
      if op.IsSubquery then
        (!l.OuterCols.Empty, rule1.set (.mk op cs priv l) (!l.OuterCols.Empty))
      else HasHoistableSubquery.loop (.mk op cs priv l) op 0 rule1 cs
/-- The loop of `HasHoistableSubquery` over the children from index `i` on. -/
def HasHoistableSubquery.loop (ev : Expr) (op : Operator) (i : Nat) (rule : RuleCache) :
    List Expr → Bool × RuleCache
  | [] => (false, rule)
  | child :: rest =>
    match HasHoistableSubquery rule child with
    | (true, rule1) =>
      if branchFlag op i child then (true, rule1.set ev true)
      else HasHoistableSubquery.loop ev op (i + 1) (rule1.set ev false) rest
    | (false, rule1) => HasHoistableSubquery.loop ev op (i + 1) rule1 rest
end

/-! ## The subquery hoister -/

/-- State reachable from `*CustomFuncs`: the metadata of the factory and the
rule properties stored in the memo. -/
structure CustomFuncs where
  md : Metadata
  rule : RuleCache

/-- Struct `subqueryHoister`: the custom functions and the hoisted input. -/
structure subqueryHoister where
  c : CustomFuncs
  hoisted : Expr

/-- Method `init` of the hoister. -/
def subqueryHoister.init (c : CustomFuncs) (input : Expr) : subqueryHoister :=
  { c := c, hoisted := input }

/-- Method `input` of the hoister. -/
def subqueryHoister.input (r : subqueryHoister) : Expr := r.hoisted

/-- Register a column in the metadata of the factory. -/
def subqueryHoister.AddColumn (r : subqueryHoister) (label : String) (typ : Typ) :
    subqueryHoister × ColumnID :=
  ({ r with c := { r.c with md := (r.c.md.AddColumn label typ).1 } },
    (r.c.md.AddColumn label typ).2)

/-- Function `referenceSingleColumn`: a `Variable` for the only column of the
group; panics when the group does not have exactly one column. -/
def referenceSingleColumn (group : Expr) : Result Expr :=
  if group.Logical.OutputCols.Len ≠ 1 then
    .panic "expression does not have exactly one column"
  else .ok (ConstructVariable (group.Logical.OutputCols.Next 0).1)

/-- Function `ConstructBinary`: the dynamically constructed binary node. -/
def ConstructBinary (op : Operator) (left right : Expr) : Expr :=
  memoize op [left, right] .none

/-- Function `constructGroupByExists`. The projections builder is reset by
`buildProjections`, so the second projection holds the exists column only. -/
def constructGroupByExists (r : subqueryHoister) (subquery : Expr) :
    Expr × subqueryHoister :=
  let (r1, trueColID) := r.AddColumn "true" Typ.Bool
  let trueProjection := ConstructProjections [ConstructTrue] [trueColID] ∅
  let (r2, aggColID) := r1.AddColumn "true_agg" Typ.Bool
  let aggCols : ColList := [aggColID]
  let aggVar := ConstructVariable aggColID
  let (r3, existsColID) := r2.AddColumn "exists" Typ.Bool
  let nullVal := ConstructNull Typ.Unknown
  let existsProjection := ConstructProjections [ConstructIsNot aggVar nullVal] [existsColID] ∅
  (ConstructProject
    (ConstructScalarGroupBy
      (ConstructProject subquery trueProjection)
      (ConstructAggregations [ConstructConstAgg (ConstructVariable trueColID)] aggCols)
      ∅)
    existsProjection, r3)

/-- First step of `constructGroupByAny`: a scalar that is neither a variable
nor a constant is cached in a column projected on the hoisted input. -/
def cacheAnyScalar (r : subqueryHoister) (scalar : Expr) : Expr × subqueryHoister :=
  if scalar.Operator ≠ .VariableOp ∧ scalar.Operator.IsConstValue = false then
    let (r1, scalarColID) := r.AddColumn "scalar" scalar.Logical.Typ
    (ConstructVariable scalarColID,
      { r1 with hoisted := projectExtraCol r1.hoisted scalar scalarColID })
  else (scalar, r)

/-- Function `constructGroupByAny`. -/
def constructGroupByAny (r : subqueryHoister) (scalar : Expr) (cmp : Operator) (input : Expr) :
    Result (Expr × subqueryHoister) :=
  let (scalar, r0) := cacheAnyScalar r scalar
  match referenceSingleColumn input with
  | .panic msg => .panic msg
  | .ok inputVar =>
    let (r1, notNullColID) := r0.AddColumn "notnull" Typ.Bool
    let notNullVar := ConstructVariable notNullColID
    let (r2, aggColID) := r1.AddColumn "bool_or" Typ.Bool
    let aggVar := ConstructVariable aggColID
    let (r3, caseColID) := r2.AddColumn "case" Typ.Bool
    let nullVal := ConstructNull Typ.Unknown
    .ok (ConstructProject
      (ConstructScalarGroupBy
        (ConstructProject
          (ConstructSelect input
            (ConstructIsNot (ConstructBinary cmp scalar inputVar) ConstructFalse))
          (ConstructProjections [ConstructIsNot inputVar nullVal] [notNullColID] ∅))
        (ConstructAggregations [ConstructBoolOr notNullVar] [aggColID])
        ∅)
      (ConstructProjections
        [ConstructCase ConstructTrue
          [ConstructWhen (ConstructAnd [aggVar, ConstructIsNot scalar nullVal]) ConstructTrue,
           ConstructWhen (ConstructIs aggVar nullVal) ConstructFalse,
           nullVal]]
        [caseColID] ∅), r3)

/-- The inner switch of `hoistAll` on a correlated root: the relation to join,
which is the relational child for `Subquery`, the scalar group-by built by
`constructGroupByExists` for `Exists`, and the one built by
`constructGroupByAny` from the scalar, the comparison and the input for `Any`. -/
def liftedRelation (r : subqueryHoister) (ev child0 : Expr) (others : List Expr) :
    Result (Expr × subqueryHoister) :=
  match ev.Operator with
  | .ExistsOp => .ok (constructGroupByExists r child0)
  | .AnyOp =>
    match others, ev.Private with
    | scalar :: _, .operator cmp => constructGroupByAny r scalar cmp child0
    | _, _ => .panic "malformed Any operator"
  | _ => .ok (child0, r)

/-- The case of `hoistAll` for a correlated `Subquery`, `Exists` or `Any`
root: the subquery is joined to the hoisted input and a `Variable` for the
first column of the joined relation is returned. -/
def hoistCorrelated (r : subqueryHoister) (ev : Expr) : Result (Expr × subqueryHoister) :=
  match ev.children with
  | [] => .panic "index out of range"
  | child0 :: others =>
    match liftedRelation r ev child0 others with
    | .panic msg => .panic msg
    | .ok (subquery, r1) =>
      let subqueryProps := subquery.Logical
      let hoisted :=
        if subqueryProps.Cardinality.CanBeZero then
          ConstructLeftJoinApply r1.hoisted subquery ConstructTrue
        else ConstructInnerJoinApply r1.hoisted subquery ConstructTrue
      .ok (ConstructVariable (subqueryProps.OutputCols.Next 0).1, { r1 with hoisted := hoisted })

mutual
/-- Function `hoistAll`: the root with every correlated subquery it reaches
replaced by a `Variable`, and the hoister after the subqueries were joined to
its input. -/
def hoistAll (r : subqueryHoister) : Expr → Result (Expr × subqueryHoister)
  | .mk op cs priv l =>
    if op.IsSubquery ∧ l.OuterCols.Empty = false then
      hoistCorrelated r (.mk op cs priv l)
    else
      match hoistAll.children r cs with
      | .ok (cs1, r1) => .ok (Replace (.mk op cs priv l) cs1, r1)
      | .panic msg => .panic msg
/-- The callback of `Replace` in `hoistAll`, over the children in order. -/
def hoistAll.children (r : subqueryHoister) : List Expr → Result (List Expr × subqueryHoister)
  | [] => .ok ([], r)
  | child :: rest =>
    match HasHoistableSubquery r.c.rule child with
    | (true, rule1) =>
      match hoistAll { r with c := { r.c with rule := rule1 } } child with
      | .ok (child1, r1) =>
        match hoistAll.children r1 rest with
        | .ok (rest1, r2) => .ok (child1 :: rest1, r2)
        | .panic msg => .panic msg
      | .panic msg => .panic msg
    | (false, rule1) =>
      match hoistAll.children { r with c := { r.c with rule := rule1 } } rest with
      | .ok (rest1, r2) => .ok (child :: rest1, r2)
      | .panic msg => .panic msg
end

/-! ## Entry points and join constructors -/

/-- Function `ConstructNonApplyJoin`. -/
def ConstructNonApplyJoin (joinOp : Operator) (left right on_ : Expr) : Result Expr :=
  match joinOp with
  | .InnerJoinOp | .InnerJoinApplyOp => .ok (ConstructJoin .InnerJoinOp left right on_)
  | .LeftJoinOp | .LeftJoinApplyOp => .ok (ConstructJoin .LeftJoinOp left right on_)
  | .RightJoinOp | .RightJoinApplyOp => .ok (ConstructJoin .RightJoinOp left right on_)
  | .FullJoinOp | .FullJoinApplyOp => .ok (ConstructJoin .FullJoinOp left right on_)
  | .SemiJoinOp | .SemiJoinApplyOp => .ok (ConstructJoin .SemiJoinOp left right on_)
  | .AntiJoinOp | .AntiJoinApplyOp => .ok (ConstructJoin .AntiJoinOp left right on_)
  | _ => .panic "unexpected join operator"

/-- Function `ConstructApplyJoin`. -/
def ConstructApplyJoin (joinOp : Operator) (left right on_ : Expr) : Result Expr :=
  match joinOp with
  | .InnerJoinOp | .InnerJoinApplyOp => .ok (ConstructJoin .InnerJoinApplyOp left right on_)
  | .LeftJoinOp | .LeftJoinApplyOp => .ok (ConstructJoin .LeftJoinApplyOp left right on_)
  | .RightJoinOp | .RightJoinApplyOp => .ok (ConstructJoin .RightJoinApplyOp left right on_)
  | .FullJoinOp | .FullJoinApplyOp => .ok (ConstructJoin .FullJoinApplyOp left right on_)
  | .SemiJoinOp | .SemiJoinApplyOp => .ok (ConstructJoin .SemiJoinApplyOp left right on_)
  | .AntiJoinOp | .AntiJoinApplyOp => .ok (ConstructJoin .AntiJoinApplyOp left right on_)
  | _ => .panic "unexpected join operator"

/-- Function `HoistSelectSubquery`. -/
def HoistSelectSubquery (c : CustomFuncs) (input filter : Expr) : Result (Expr × CustomFuncs) :=
  match hoistAll (subqueryHoister.init c input) filter with
  | .panic msg => .panic msg
  | .ok (replaced, hoister) =>
    let sel := ConstructSelect hoister.input replaced
    .ok (ConstructSimpleProject sel input.Logical.OutputCols, hoister.c)

/-- Function `HoistProjectSubquery`. -/
def HoistProjectSubquery (c : CustomFuncs) (input projections : Expr) :
    Result (Expr × CustomFuncs) :=
  match hoistAll (subqueryHoister.init c input) projections with
  | .panic msg => .panic msg
  | .ok (replaced, hoister) => .ok (ConstructProject hoister.input replaced, hoister.c)

/-- Function `HoistJoinSubquery`. -/
def HoistJoinSubquery (c : CustomFuncs) (op : Operator) (left right on_ : Expr) :
    Result (Expr × CustomFuncs) :=
  match hoistAll (subqueryHoister.init c right) on_ with
  | .panic msg => .panic msg
  | .ok (replaced, hoister) =>
    match ConstructApplyJoin op left hoister.input replaced with
    | .panic msg => .panic msg
    | .ok join =>
      .ok (ConstructSimpleProject join
        (left.Logical.OutputCols.Union right.Logical.OutputCols), hoister.c)

/-! ## Hoisting out of `Values` and `Zip` -/

/-- Function `constructNoColsRow`: a `Values` operator having a single row with
zero columns. -/
def constructNoColsRow : Expr :=
  ConstructValues [ConstructTuple [] Typ.EmptyTuple] []

/-- The loop of `HoistValuesSubquery` and of `HoistZipSubquery`: `hoistAll` on
every item in list order, the hoister going from one item to the next. -/
def hoistItems (r : subqueryHoister) : List Expr → Result (List Expr × subqueryHoister)
  | [] => .ok ([], r)
  | item :: rest =>
    match hoistAll r item with
    | .panic msg => .panic msg
    | .ok (item1, r1) =>
      match hoistItems r1 rest with
      | .panic msg => .panic msg
      | .ok (rest1, r2) => .ok (item1 :: rest1, r2)

/-- Function `HoistValuesSubquery`. -/
def HoistValuesSubquery (c : CustomFuncs) (rows : List Expr) (cols : ColList) :
    Result (Expr × CustomFuncs) :=
  match hoistItems (subqueryHoister.init c constructNoColsRow) rows with
  | .panic msg => .panic msg
  | .ok (items, hoister) =>
    let values := ConstructValues items cols
    let projCols := values.Logical.OutputCols
    let join := ConstructInnerJoinApply hoister.input values ConstructTrue
    .ok (ConstructSimpleProject join projCols, hoister.c)

/-- Function `HoistZipSubquery`. -/
def HoistZipSubquery (c : CustomFuncs) (funcs : List Expr) (cols : ColList) :
    Result (Expr × CustomFuncs) :=
  match hoistItems (subqueryHoister.init c constructNoColsRow) funcs with
  | .panic msg => .panic msg
  | .ok (items, hoister) =>
    let zip := ConstructZip items cols
    let projCols := zip.Logical.OutputCols
    let join := ConstructInnerJoinApply hoister.input zip ConstructTrue
    .ok (ConstructSimpleProject join projCols, hoister.c)

/-! ## Aggregates that ignore nulls

The function `opt.AggregateIgnoresNulls` is not part of the file; the functions
below take it as the parameter `ignoresNulls`. -/

/-- The loop of `CanAggsIgnoreNulls` over the aggregates of the list. -/
def CanAggsIgnoreNulls.loop (ignoresNulls : Operator → Bool) : List Expr → Bool
  | [] => true
  | elem :: rest =>
    if elem.Operator ≠ .CountRowsOp ∧ elem.Operator ≠ .ConstAggOp ∧
        ignoresNulls elem.Operator = false then false
    else CanAggsIgnoreNulls.loop ignoresNulls rest

/-- Function `CanAggsIgnoreNulls`, over an `Aggregations` node. -/
def CanAggsIgnoreNulls (ignoresNulls : Operator → Bool) (aggs : Expr) : Bool :=
  CanAggsIgnoreNulls.loop ignoresNulls aggs.children

/-- The switch of `EnsureAggsIgnoreNulls` on one aggregate: `ConstAgg` becomes
`ConstNotNullAgg` over the same operand, `CountRows` becomes `Count` over a
variable for the first not-null column of the input, and panics when there is
none; any other aggregate is kept. A `ConstAgg` has one operand; the lookup of
the operand of a node without children is out of range. -/
def EnsureAggsIgnoreNulls.remap (in_ elem : Expr) : Result Expr :=
  match elem.Operator with
  | .ConstAggOp =>
    match elem.children with
    | x :: _ => .ok (ConstructConstNotNullAgg x)
    | [] => .panic "child index out of range"
  | .CountRowsOp =>
    if (in_.Logical.NotNullCols.Next 0).2 = false then
      .panic "expected input expression to have not-null column"
    else .ok (ConstructCount (ConstructVariable (in_.Logical.NotNullCols.Next 0).1))
  | _ => .ok elem

/-- The loop of `EnsureAggsIgnoreNulls` from index `i` on: `outElems` is `none`
until an aggregate changes, then it holds the aggregates up to the current
index. -/
def EnsureAggsIgnoreNulls.loop (in_ : Expr) (aggsElems : List Expr) (i : Nat)
    (outElems : Option (List Expr)) : List Expr → Result (Option (List Expr))
  | [] => .ok outElems
  | elem :: rest =>
    match EnsureAggsIgnoreNulls.remap in_ elem with
    | .panic msg => .panic msg
    | .ok newElem =>
      let out1 := if newElem ≠ elem ∧ outElems = none then some (aggsElems.take i) else outElems
      let out2 := out1.map (fun l => l ++ [newElem])
      EnsureAggsIgnoreNulls.loop in_ aggsElems (i + 1) out2 rest

/-- Function `EnsureAggsIgnoreNulls`, over an input relation and an
`Aggregations` node. -/
def EnsureAggsIgnoreNulls (in_ aggs : Expr) : Result Expr :=
  match EnsureAggsIgnoreNulls.loop in_ aggs.children 0 none aggs.children with
  | .panic msg => .panic msg
  | .ok none => .ok aggs
  | .ok (some outElems) => .ok (memoize .AggregationsOp outElems aggs.Private)

/-! ## Keys and not-null columns -/

/-- Modelled from the spec: the property lookup `CandidateKey` of the custom
functions ("candidate key ... for any group"): the candidate key stored for the
group and whether there is one. -/
def CandidateKey (group : Expr) : ColSet × Bool :=
  match group.Logical.CandidateKey with
  | some key => (key, true)
  | none => (∅, false)

/-- Function `EnsureKey`. -/
def EnsureKey (c : CustomFuncs) (in_ : Expr) : Expr × CustomFuncs :=
  if (CandidateKey in_).2 then (in_, c)
  else
    (ConstructRowNumber in_ (c.md.AddColumn "rownum" Typ.Int).2,
      { c with md := (c.md.AddColumn "rownum" Typ.Int).1 })

/-- Function `KeyCols`. -/
def KeyCols (group : Expr) : Result ColSet :=
  if (CandidateKey group).2 = false then .panic "expected group to have key"
  else .ok (CandidateKey group).1

/-- Function `NonKeyCols`. -/
def NonKeyCols (group : Expr) : Result ColSet :=
  if (CandidateKey group).2 = false then .panic "expected group to have key"
  else .ok (group.Logical.OutputCols.Difference (CandidateKey group).1)

/-- The loop of `EnsureNotNullIfCountRows` over the aggregates of the list. -/
def EnsureNotNullIfCountRows.loop (c : CustomFuncs) (in_ : Expr) : List Expr → Expr × CustomFuncs
  | [] => (in_, c)
  | elem :: rest =>
    if elem.Operator = .CountRowsOp then
      (projectExtraCol in_ ConstructTrue (c.md.AddColumn "notnull" Typ.Bool).2,
        { c with md := (c.md.AddColumn "notnull" Typ.Bool).1 })
    else EnsureNotNullIfCountRows.loop c in_ rest

/-- Function `EnsureNotNullIfCountRows`, over an input relation and an
`Aggregations` node. -/
def EnsureNotNullIfCountRows (c : CustomFuncs) (in_ aggs : Expr) : Expr × CustomFuncs :=
  if (in_.Logical.NotNullCols.Next 0).2 then (in_, c)
  else EnsureNotNullIfCountRows.loop c in_ aggs.children
/-! ## Specification-side definitions -/

mutual
/-- Number of nodes of a tree. -/
def Expr.size : Expr → Nat
  | .mk _ cs _ _ => 1 + Expr.sizeList cs
/-- Number of nodes of a list of trees. -/
def Expr.sizeList : List Expr → Nat
  | [] => 0
  | c :: cs => c.size + Expr.sizeList cs
end

/-- Eligibility of child `i` of a node with operator `op`, in the words of the
specification: every child is eligible, except the else child of a `Case` (a
child at index above 0 that is not a `When`) and the branch value of a `When`
(child 1), which are eligible only when they cannot have side effects. -/
def eligible (op : Operator) (i : Nat) (c : Expr) : Bool :=
  if (op = .CaseOp ∧ 0 < i ∧ c.Operator ≠ .WhenOp) ∨ (op = .WhenOp ∧ i = 1) then
    !c.Logical.CanHaveSideEffects
  else true

mutual
/-- Hoistability as the specification defines it, without the cache. -/
def hoistableSpec : Expr → Bool
  | .mk op cs _ l => if op.IsSubquery then !l.OuterCols.Empty else hoistableSpec.any op 0 cs
/-- Some child from index `i` on is hoistable and eligible. -/
def hoistableSpec.any (op : Operator) (i : Nat) : List Expr → Bool
  | [] => false
  | c :: rest => (hoistableSpec c && eligible op i c) || hoistableSpec.any op (i + 1) rest
end

/-- Every stored flag of a group of at most `n` nodes is the hoistability of
the group. -/
def RuleCache.ConsistentUpTo (n : Nat) (rule : RuleCache) : Prop :=
  ∀ k v, rule k = some v → k.size ≤ n → v = hoistableSpec k

/-- Every stored flag is the hoistability of its group. -/
def RuleCache.Consistent (rule : RuleCache) : Prop :=
  ∀ k v, rule k = some v → v = hoistableSpec k

/-- The apply join the specification prescribes for a lifted relation: a left
apply join when the relation can have no row, an inner apply join otherwise,
on the condition `True`. -/
def applyJoin (prev sub : Expr) : Expr :=
  if sub.Logical.Cardinality.CanBeZero then ConstructLeftJoinApply prev sub ConstructTrue
  else ConstructInnerJoinApply prev sub ConstructTrue

/-- The tree a call of `hoistAll` returned, if it returned. -/
def Result.root : Result (Expr × subqueryHoister) → Option Expr
  | .ok (e, _) => some e
  | .panic _ => none

/-- The input of the hoister after a call of `hoistAll`, if it returned. -/
def Result.hoistedInput : Result (Expr × subqueryHoister) → Option Expr
  | .ok (_, r) => some r.hoisted
  | .panic _ => none

/-- The output columns of the relation an entry point returned. -/
def Result.outputCols : Result (Expr × CustomFuncs) → Option ColSet
  | .ok (e, _) => some e.Logical.OutputCols
  | .panic _ => none

mutual
/-- The correlated subqueries `hoistAll` lifts out of a tree, in left-to-right
pre-order: the root when it is a correlated `Subquery`, `Exists` or `Any`,
otherwise those of its hoistable children, from the first child to the last. -/
def liftList : Expr → List Expr
  | .mk op cs priv l =>
    if op.IsSubquery ∧ l.OuterCols.Empty = false then [.mk op cs priv l]
    else liftList.children cs
/-- The correlated subqueries lifted out of a list of children. -/
def liftList.children : List Expr → List Expr
  | [] => []
  | c :: rest => (if hoistableSpec c then liftList c else []) ++ liftList.children rest
end

/-- Lift a list of correlated subqueries one after the other, each one joined
to the input the previous one left. -/
def liftAll (r : subqueryHoister) : List Expr → Result subqueryHoister
  | [] => .ok r
  | s :: rest =>
    match hoistCorrelated r s with
    | .ok (_, r1) => liftAll r1 rest
    | .panic msg => .panic msg

/-- The hoister with another rule cache. -/
def subqueryHoister.withRule (r : subqueryHoister) (rule0 : RuleCache) : subqueryHoister :=
  { r with c := { r.c with rule := rule0 } }

/-- The input of a hoister and the columns registered in its metadata: the
part of its state that the lifting of a subquery reads and writes. -/
def subqueryHoister.inputAndMetadata (r : subqueryHoister) : Expr × List (String × Typ) :=
  (r.hoisted, r.c.md.cols)

/-- The input and metadata of the hoister a call left, or its panic. -/
def Result.inputAndMetadata {α : Type} :
    Result (α × subqueryHoister) → Result (Expr × List (String × Typ))
  | .ok (_, r) => .ok r.inputAndMetadata
  | .panic msg => .panic msg

/-- The input and metadata of the hoister a sequence of liftings left, or its
panic. -/
def Result.liftedInputAndMetadata :
    Result subqueryHoister → Result (Expr × List (String × Typ))
  | .ok r => .ok r.inputAndMetadata
  | .panic msg => .panic msg

/-- The relation `sub` is the one the inner switch of `hoistAll` yields for the
correlated subquery `s`: its relational child for `Subquery`, the relation
`constructGroupByExists` builds for `Exists`, the one `constructGroupByAny`
builds for `Any`. -/
def LiftedFrom (s sub : Expr) : Prop :=
  ∃ r r1 child0 others, s.children = child0 :: others ∧
    liftedRelation r s child0 others = .ok (sub, r1)

/-- Left-deep chain over `base`: `LeftDeep base subs e` holds when `e` is
`base` wrapped, from the inside out, by apply joins whose right sides are the
relations `subs` in list order (each on the condition `True`, left or inner by
the cardinality of its right side), with projections of an extra column
allowed between two joins. -/
inductive LeftDeep (base : Expr) : List Expr → Expr → Prop where
  | base : LeftDeep base [] base
  | project {subs : List Expr} {e : Expr} (scalar : Expr) (col : ColumnID) :
      LeftDeep base subs e → LeftDeep base subs (projectExtraCol e scalar col)
  | join {subs : List Expr} {e : Expr} (sub : Expr) :
      LeftDeep base subs e → LeftDeep base (subs ++ [sub]) (applyJoin e sub)

/-! ## Evaluation of expressions over a database -/

/-- SQL values: null, booleans and integers; the value of a `When` node is the
pair of the values of its condition and of its branch. -/
inductive Datum where
  | null
  | bool (b : Bool)
  | int (n : Int)
  | when (cond val : Datum)
deriving DecidableEq, Repr

/-- A row binds columns to values; the first binding of a column counts. -/
abbrev Row := List (ColumnID × Datum)

/-- Value of a column in a row; an unbound column reads as null. -/
def Row.get (row : Row) (c : ColumnID) : Datum := (row.lookup c).getD .null

/-- Row of nulls over a column set (padding of a left join). -/
def nullRow (cols : ColSet) : Row := cols.elems.map (fun c => (c, Datum.null))

/-- A database: the rows of the relational operators the model leaves opaque
(given the bindings of the outer columns), and the functions computed by the
scalar and aggregate operators it leaves opaque. -/
structure Database where
  rel : Expr → Row → List Row
  scalar : Operator → Private → List Datum → Datum
  agg : Operator → List (List Datum) → Datum

/-- Three-valued conjunction. -/
def Datum.and3 : Datum → Datum → Datum
  | .bool false, _ => .bool false
  | _, .bool false => .bool false
  | .bool true, .bool true => .bool true
  | _, _ => .null

/-- Comparison of the input of a `Case` with the condition of a `When`: the
branch is taken when the equality is true. -/
def Datum.matches (v w : Datum) : Bool := v != .null && v == w

/-- Modelled from the spec: "`ConstAgg` returns the first input value, or null
if no input rows". -/
def constAgg (vals : List Datum) : Datum := vals.head?.getD .null

/-- Modelled from the spec: "`BoolOr` over `{true, false}` yields: `true` if any
true, `false` if all false, `null` if empty"; nulls are ignored. -/
def boolOrAgg (vals : List Datum) : Datum :=
  if vals.contains (.bool true) then .bool true
  else if vals.contains (.bool false) then .bool false
  else .null

/-- SQL three-valued `z cmp ANY(xs)`: true if some comparison is true,
otherwise null if some comparison is null, otherwise false. -/
def anyValue (cmp : Datum → Datum → Datum) (z : Datum) (xs : List Datum) : Datum :=
  if xs.any (fun x => cmp z x == .bool true) then .bool true
  else if xs.any (fun x => cmp z x == .null) then .null
  else .bool false

/-- Value of an aggregate over the argument lists of the input rows. -/
def aggregate (db : Database) (op : Operator) (inputs : List (List Datum)) : Datum :=
  match op with
  | .ConstAggOp => constAgg (inputs.map (fun args => args.head?.getD .null))
  | .BoolOrOp => boolOrAgg (inputs.map (fun args => args.head?.getD .null))
  | _ => db.agg op inputs

/-- Value of a `Case` with input value `v` over the values of its whens and
of its else. -/
def caseValue (v : Datum) : List Datum → Datum
  | [] => .null
  | .when c x :: rest => if v.matches c then x else caseValue v rest
  | d :: _ => d

/-- Value of a scalar operator over the values of its children. -/
def scalarOp (db : Database) (op : Operator) (priv : Private) (vals : List Datum) : Datum :=
  match op, vals with
  | .NullOp, _ => .null
  | .TrueOp, _ => .bool true
  | .FalseOp, _ => .bool false
  | .AndOp, vals => vals.foldr Datum.and3 (.bool true)
  | .IsOp, [a, b] => .bool (a == b)
  | .IsNotOp, [a, b] => .bool (a != b)
  | .WhenOp, [c, x] => .when c x
  | .CaseOp, v :: whens => caseValue v whens
  | op, vals => db.scalar op priv vals

mutual
/-- Value of a scalar expression under the bindings `env`. -/
def evalScalar (db : Database) : Expr → Row → Datum
  | .mk op cs priv _, env =>
    match op, cs, priv with
    | .VariableOp, [], .colID c => env.get c
    | .SubqueryOp, input :: _, _ =>
      match evalRel db input env with
      | [] => .null
      | row :: _ => row.get (input.Logical.OutputCols.Next 0).1
    | .ExistsOp, input :: _, _ => .bool (!(evalRel db input env).isEmpty)
    | .AnyOp, input :: scalar :: _, .operator cmp =>
      anyValue (fun z x => db.scalar cmp .none [z, x]) (evalScalar db scalar env)
        ((evalRel db input env).map (fun row => row.get (input.Logical.OutputCols.Next 0).1))
    | op, cs, priv => scalarOp db op priv (evalScalars db cs env)
/-- Values of a list of scalar expressions. -/
def evalScalars (db : Database) : List Expr → Row → List Datum
  | [], _ => []
  | e :: es, env => evalScalar db e env :: evalScalars db es env
/-- Rows of a relational expression under the bindings `env` of its outer
columns. -/
def evalRel (db : Database) : Expr → Row → List Row
  | .mk op cs priv l, env =>
    match op, cs with
    | .SelectOp, [input, filter] =>
      (evalRel db input env).filter (fun row => evalScalar db filter (row ++ env) == .bool true)
    | .ProjectOp, [input, .mk .ProjectionsOp elems (.projectionsOpDef synth pass) _] =>
      (evalRel db input env).map (fun row =>
        row.filter (fun p => pass.Contains p.1) ++ synth.zip (evalScalars db elems (row ++ env)))
    | .ScalarGroupByOp, [input, .mk .AggregationsOp aggs (.colList cols) _] =>
      [cols.zip (evalAggs db aggs (evalRel db input env) env)]
    | .InnerJoinApplyOp, [left, right, on_] =>
      (evalRel db left env).flatMap (fun lrow =>
        ((evalRel db right (lrow ++ env)).filter
          (fun rrow => evalScalar db on_ (lrow ++ rrow ++ env) == .bool true)).map
          (fun rrow => lrow ++ rrow))
    | .LeftJoinApplyOp, [left, right, on_] =>
      (evalRel db left env).flatMap (fun lrow =>
        let joined := ((evalRel db right (lrow ++ env)).filter
          (fun rrow => evalScalar db on_ (lrow ++ rrow ++ env) == .bool true)).map
          (fun rrow => lrow ++ rrow)
        if joined.isEmpty then [lrow ++ nullRow right.Logical.OutputCols] else joined)
    | op, cs => db.rel (.mk op cs priv l) env
/-- Values of a list of aggregates over the rows of the input. -/
def evalAggs (db : Database) : List Expr → List Row → Row → List Datum
  | [], _, _ => []
  | .mk op args _ _ :: rest, rows, env =>
    aggregate db op (rows.map (fun row => evalScalars db args (row ++ env)))
      :: evalAggs db rest rows env
end

/-- The value the final `Case` of `constructGroupByAny` gives for the result
`b` of `BoolOr` and the left value `z`. -/
def anyCase (z b : Datum) : Datum :=
  if (Datum.bool true).matches (Datum.and3 b (Datum.and3 (Datum.bool (z != Datum.null)) (Datum.bool true)))
  then Datum.bool true
  else if (Datum.bool true).matches (Datum.bool (b == Datum.null)) then Datum.bool false
  else Datum.null

/-- The rows of a relation bind columns of its output columns only. -/
def Conforms (db : Database) (e : Expr) : Prop :=
  ∀ env, ∀ row ∈ evalRel db e env, ∀ p ∈ row, p.1 ∈ e.Logical.OutputCols

/-- A relation has at most one row, whatever the bindings of its outer
columns. -/
def AtMostOneRow (db : Database) (e : Expr) : Prop :=
  ∀ env, (evalRel db e env).length ≤ 1

/-- The lower cardinality bound of a relation is sound: a relation whose
cardinality cannot be zero has a row, whatever the bindings of its outer
columns. -/
def CardinalitySound (db : Database) (e : Expr) : Prop :=
  e.Logical.Cardinality.CanBeZero = false → ∀ env, evalRel db e env ≠ []

/-- A plain subquery whose relational child has at most one row, a sound
cardinality and rows within its output columns; nothing is asked of an
`Exists` or an `Any`. -/
def GoodSubquery (db : Database) (s : Expr) : Prop :=
  s.Operator ≠ .ExistsOp → s.Operator ≠ .AnyOp →
    ∀ child0 others, s.children = child0 :: others →
      AtMostOneRow db child0 ∧ CardinalitySound db child0 ∧ Conforms db child0

/-- A relation with exactly one row, within its output columns, whatever the
bindings of its outer columns. -/
def OneRow (db : Database) (sub : Expr) : Prop :=
  ∀ env, ∃ x, evalRel db sub env = [x] ∧ ∀ p ∈ x, p.1 ∈ sub.Logical.OutputCols

/-- The columns a lifted relation adds to a row `h` of the input: its row
under the bindings of `h`, or nulls when it has none. -/
def liftedRow (db : Database) (sub : Expr) (env h : Row) : Row :=
  (evalRel db sub (h ++ env)).headD (nullRow sub.Logical.OutputCols)

/-! ## Inputs of the examples -/

/-- Logical properties of an example node. -/
def exampleProps (out outer : List Int) (card : Cardinality) (side : Bool) : Logical :=
  { OutputCols := ColSet.ofList out, OuterCols := ColSet.ofList outer, NotNullCols := ∅,
    Cardinality := card, CandidateKey := none, CanHaveSideEffects := side, Typ := Typ.Unknown }

/-- An opaque relation with the given output columns, outer columns and
cardinality. -/
def exampleRel (n : Nat) (out outer : List Int) (card : Cardinality) : Expr :=
  .mk (.OtherRelOp n) [] .none (exampleProps out outer card false)

/-- A scalar subquery over a relation, with the outer columns of the relation. -/
def exampleSubquery (rel : Expr) (side : Bool) : Expr :=
  .mk .SubqueryOp [rel] .none (exampleProps [] rel.Logical.OuterCols.elems Cardinality.any side)

/-- The input relation of the examples: columns 1 and 2. -/
def exampleInput : Expr := exampleRel 0 [1, 2] [] Cardinality.any

/-- Custom functions with two registered columns and an empty rule cache. -/
def exampleFuncs : CustomFuncs := ⟨⟨[("x", Typ.Int), ("y", Typ.Int)]⟩, RuleCache.empty⟩

/-- The hoister of the examples, initialised with the example input. -/
def exampleHoister : subqueryHoister := subqueryHoister.init exampleFuncs exampleInput

/-- A relation correlated on column 1 with one output column and at most one
row. -/
def exampleRel1 : Expr := exampleRel 1 [10] [1] ⟨0, 1⟩

/-- A relation correlated on column 1 with one output column and exactly one
row. -/
def exampleRel2 : Expr := exampleRel 2 [20] [1] ⟨1, 1⟩

/-- A relation correlated on column 1 with two output columns and any number
of rows. -/
def exampleWide : Expr := exampleRel 3 [30, 31] [1] Cardinality.any

/-- A `When` whose condition is a correlated subquery and whose branch value
is a correlated subquery that can have side effects. -/
def exampleWhen : Expr :=
  .mk .WhenOp [exampleSubquery exampleRel1 false, exampleSubquery exampleRel2 true] .none
    (exampleProps [] [1] Cardinality.any true)

/-- A `Case` over `exampleWhen` with a null else value. -/
def exampleCase : Expr :=
  .mk .CaseOp [ConstructTrue, exampleWhen, ConstructNull Typ.Unknown] .none
    (exampleProps [] [1] Cardinality.any true)

/-- The left input of the example join: columns 1 and 2. -/
def exampleLeft : Expr := exampleRel 4 [1, 2] [] Cardinality.any

/-- The right input of the example join: columns 3 and 4. -/
def exampleRight : Expr := exampleRel 5 [3, 4] [] Cardinality.any

/-- SQL equality: null when an operand is null. -/
def sqlEq : Datum → Datum → Datum
  | .null, _ => .null
  | _, .null => .null
  | a, b => .bool (a == b)

/-- The database of the truth table: every opaque relation holds the values
`xs` in column 10, operator `OtherScalarOp 0` is SQL equality, and a constant
holds the integer of its payload. -/
def tableDb (xs : List Datum) : Database :=
  { rel := fun _ _ => xs.map (fun x => [(10, x)]),
    scalar := fun op priv args =>
      match op, priv, args with
      | .ConstOp, .other n, _ => .int n
      | .OtherScalarOp 0, _, [a, b] => sqlEq a b
      | _, _, _ => .null,
    agg := fun _ _ => .null }

/-- The subquery relation of the truth table: one output column, 10. -/
def tableRel : Expr := exampleRel 6 [10] [] Cardinality.any

/-- The integer constant `n`. -/
def tableConst (n : Nat) : Expr := memoize .ConstOp [] (.other n)

/-- Rows of the relation `constructGroupByAny` builds for `z = ANY(xs)`. -/
def tableAny (z : Expr) (xs : List Datum) : Option (List Row) :=
  match constructGroupByAny (subqueryHoister.init exampleFuncs exampleInput) z
      (.OtherScalarOp 0) tableRel with
  | .ok (sub, _) => some (evalRel (tableDb xs) sub [])
  | .panic _ => none

/-- The database of the examples: the input holds two rows over columns 1 and
2, the relation `exampleRel1` holds one row over column 10 when the outer column
1 is `1` and none otherwise, and `exampleRel2` holds one row over column 20. -/
def exampleDb : Database :=
  { rel := fun e env =>
      match e.Operator with
      | .OtherRelOp 0 => [[(1, .int 1), (2, .int 2)], [(1, .int 5), (2, .int 6)]]
      | .OtherRelOp 1 => if env.get 1 = .int 1 then [[(10, .int 7)]] else []
      | .OtherRelOp 2 => [[(20, .int 9)]]
      | _ => [],
    scalar := fun _ _ _ => .null,
    agg := fun _ _ => .null }

/-! ## Well-formedness of a scalar tree over a database -/

/-- A scalar expression does not depend on the columns of `C`: bindings of
columns of `C` put anywhere among the bindings do not change its value. -/
def IndepScalar (db : Database) (C : ColumnID → Prop) (e : Expr) : Prop :=
  ∀ a x b : Row, (∀ p ∈ x, C p.1) → evalScalar db e (a ++ x ++ b) = evalScalar db e (a ++ b)

/-- A relation does not depend on the columns of `C`. -/
def IndepRel (db : Database) (C : ColumnID → Prop) (e : Expr) : Prop :=
  ∀ a x b : Row, (∀ p ∈ x, C p.1) → evalRel db e (a ++ x ++ b) = evalRel db e (a ++ b)

/-- The first output column of a relation, the one a hoisted subquery is
referred to by. -/
def firstCol (e : Expr) : ColumnID := (e.Logical.OutputCols.Next 0).1

/-- Every row of a relation binds its first output column. -/
def BindsFirst (db : Database) (e : Expr) : Prop :=
  ∀ env, ∀ row ∈ evalRel db e env, (row.lookup (firstCol e)).isSome = true

/-- The operator `OtherScalarOp n` is a comparison that yields null exactly
when one of its operands is null, and a boolean otherwise. -/
def NullPropagating (db : Database) (n : Nat) : Prop :=
  (∀ a b, db.scalar (.OtherScalarOp n) .none [a, b] = Datum.null ↔
    a = Datum.null ∨ b = Datum.null) ∧
  (∀ a b, db.scalar (.OtherScalarOp n) .none [a, b] = Datum.null ∨
    db.scalar (.OtherScalarOp n) .none [a, b] = Datum.bool true ∨
    db.scalar (.OtherScalarOp n) .none [a, b] = Datum.bool false)

/-- What the equivalence asks of a correlated subquery that is lifted, over a
database, the set `C` of the columns hoisting adds to a row, and the number
`md0` of columns registered at the start. A plain `Subquery` has a relation
with at most one row, a sound cardinality, rows within its output columns that
bind its first output column, and its output columns are in `C`. An `Any` has
a null-propagating comparison and an input with one output column, registered
and in `C`, bound by every row, and neither its input nor its scalar depends on
`C`. Nothing is asked of an `Exists`. -/
def GoodLifted (db : Database) (C : ColumnID → Prop) (md0 : Int) (s : Expr) : Prop :=
  ∃ child0 others, s.children = child0 :: others ∧
    match s.Operator with
    | .ExistsOp => True
    | .AnyOp =>
      ∃ scalar rest n, others = scalar :: rest ∧ s.Private = .operator (.OtherScalarOp n) ∧
        child0.Logical.OutputCols.Len = 1 ∧ NullPropagating db n ∧
        BindsFirst db child0 ∧ Conforms db child0 ∧
        (∀ c ∈ child0.Logical.OutputCols, C c ∧ c ≤ md0) ∧
        IndepRel db C child0 ∧ IndepScalar db C scalar
    | _ =>
      AtMostOneRow db child0 ∧ CardinalitySound db child0 ∧ Conforms db child0 ∧
        BindsFirst db child0 ∧ (child0.Logical.OutputCols.Next 0).2 = true ∧
        (∀ c ∈ child0.Logical.OutputCols, C c)

mutual
/-- Well-formedness of the part of a scalar tree that `hoistAll` walks: a
correlated subquery satisfies `GoodLifted`; any other node is neither a
subquery nor a variable, its children do not depend on `C`, and its hoistable
children are well-formed. -/
def WellScoped (db : Database) (C : ColumnID → Prop) (md0 : Int) : Expr → Prop
  | .mk op cs priv l =>
    if op.IsSubquery ∧ l.OuterCols.Empty = false then GoodLifted db C md0 (.mk op cs priv l)
    else op.IsSubquery = false ∧ op ≠ .VariableOp ∧ WellScoped.children db C md0 cs
/-- Well-formedness of a list of children. -/
def WellScoped.children (db : Database) (C : ColumnID → Prop) (md0 : Int) : List Expr → Prop
  | [] => True
  | c :: rest =>
    IndepScalar db C c ∧ (hoistableSpec c = true → WellScoped db C md0 c) ∧
      WellScoped.children db C md0 rest
end

/-- The columns lifting a correlated subquery adds to the input out of the
columns of the tree: the output columns of the relation of a plain subquery. -/
def liftedOut (s : Expr) : List ColumnID :=
  match s.Operator with
  | .ExistsOp => []
  | .AnyOp => []
  | _ => (s.children.head?.map (fun c => c.Logical.OutputCols.elems)).getD []

/-- The columns of the tree that `hoistAll` adds to the input. -/
def liftedOuts (e : Expr) : List ColumnID := (liftList e).flatMap liftedOut

/-- The number of columns registered in the metadata of a hoister. -/
def subqueryHoister.mdLen (r : subqueryHoister) : Int := (r.c.md.cols.length : Int)

/-- What a step of the hoister, from `r` to `r1`, does to the rows of the
input: it keeps their number and extends each row `h` with bindings of columns
of `C`, such that `P env h x` holds of the extension followed by any further
bindings `x` of columns of `C`; the rows stay within the output columns, which
grow by the columns `outs` of the tree and by newly registered columns. -/
def Extends (db : Database) (C : ColumnID → Prop) (r r1 : subqueryHoister)
    (outs : List ColumnID) (P : Row → Row → Row → Prop) : Prop :=
  Conforms db r1.hoisted ∧
  (∀ c ∈ r1.hoisted.Logical.OutputCols, c ≤ r1.mdLen) ∧
  (∀ c ∈ r1.hoisted.Logical.OutputCols,
    c ∈ r.hoisted.Logical.OutputCols ∨ c ∈ outs ∨ r.mdLen < c) ∧
  r.mdLen ≤ r1.mdLen ∧
  ∀ env, ∃ ext : Row → Row,
    (∀ h ∈ evalRel db r.hoisted env, ∀ p ∈ ext h, C p.1) ∧
    evalRel db r1.hoisted env = (evalRel db r.hoisted env).map (fun h => h ++ ext h) ∧
    (∀ h ∈ evalRel db r.hoisted env, ∀ y : Row, (∀ p ∈ y, C p.1) → P env h (ext h ++ y))

/-- What the steps ask of the hoister they start from: rows within the output
columns, output columns that are registered, and the columns `outs` the step
adds registered and not among the output columns. -/
def Ready (db : Database) (r : subqueryHoister) (outs : List ColumnID) : Prop :=
  Conforms db r.hoisted ∧
  (∀ c ∈ r.hoisted.Logical.OutputCols, c ≤ r.mdLen) ∧
  (∀ u ∈ outs, u ∉ r.hoisted.Logical.OutputCols ∧ u ≤ r.mdLen) ∧
  outs.Nodup

/-- What the equivalence asks of the input `R` of the rule and of the state
`c`, over a database and the set `C` of the columns hoisting adds to a row: the
rule cache is consistent, the rows of `R` are within its output columns, which
are registered in the metadata and are not in `C`, and every column that is not
registered yet is in `C`. -/
def GoodInput (db : Database) (C : ColumnID → Prop) (c : CustomFuncs) (R : Expr) : Prop :=
  c.rule.Consistent ∧ Conforms db R ∧
    (∀ col ∈ R.Logical.OutputCols, col ≤ (c.md.cols.length : Int) ∧ ¬ C col) ∧
    (∀ col : ColumnID, (c.md.cols.length : Int) < col → C col)

/-- What the equivalence asks of the scalar tree `S` given to `hoistAll`: it is
well-formed over the database, and the output columns of the relations of its
plain correlated subqueries are registered, are not output columns of `R`,
and are pairwise distinct. -/
def GoodTree (db : Database) (C : ColumnID → Prop) (c : CustomFuncs) (R S : Expr) : Prop :=
  WellScoped db C (c.md.cols.length : Int) S ∧
    (∀ u ∈ liftedOuts S, u ∉ R.Logical.OutputCols ∧ u ≤ (c.md.cols.length : Int)) ∧
    (liftedOuts S).Nodup

/-! ## Inputs of the equivalence example -/

/-- Custom functions with twenty registered columns and an empty rule cache. -/
def wideFuncs : CustomFuncs := ⟨⟨List.replicate 20 ("c", Typ.Int)⟩, RuleCache.empty⟩

/-- The database of the equivalence example: the input holds two rows over
columns 1 and 2, `exampleRel1` holds one row over column 10 when the outer
column 1 is `1`, relation 7 holds the outer column 2 and a null in column 12,
relation 8 holds a row over column 13 when the outer column 1 is `5`, and
operator `OtherScalarOp 0` is SQL equality. -/
def equivDb : Database :=
  { rel := fun e env =>
      match e.Operator with
      | .OtherRelOp 0 => [[(1, .int 1), (2, .int 2)], [(1, .int 5), (2, .int 6)]]
      | .OtherRelOp 1 => if env.get 1 = .int 1 then [[(10, .int 7)]] else []
      | .OtherRelOp 7 => [[(12, env.get 2)], [(12, .null)]]
      | .OtherRelOp 8 => if env.get 1 = .int 5 then [[(13, .int 0)]] else []
      | _ => [],
    scalar := fun op _ args =>
      match op, args with
      | .OtherScalarOp 0, [a, b] => sqlEq a b
      | _, _ => .null,
    agg := fun _ _ => .null }

/-- The input of the `Any` of the example: column 12, correlated on column 2. -/
def equivAnyRel : Expr := exampleRel 7 [12] [2] Cardinality.any

/-- The relation of the `Exists` of the example: column 13, correlated on
column 1. -/
def equivExistsRel : Expr := exampleRel 8 [13] [1] Cardinality.any

/-- The correlated `Any` of the example: column 2 equals some row of
`equivAnyRel`. -/
def equivAny : Expr :=
  .mk .AnyOp [equivAnyRel, ConstructVariable 2] (.operator (.OtherScalarOp 0))
    (exampleProps [] [2] Cardinality.any false)

/-- The correlated `Exists` of the example. -/
def equivExists : Expr :=
  .mk .ExistsOp [equivExistsRel] .none (exampleProps [] [1] Cardinality.any false)

/-- The filter of the example: the conjunction of a correlated `Exists` and a
correlated `Any`. -/
def equivFilter : Expr :=
  .mk .AndOp [equivExists, equivAny] .none (exampleProps [] [1, 2] Cardinality.any false)

/-- The projections of the example: column 1 passed through and a correlated
plain subquery synthesized as column 11. -/
def equivProjections : Expr :=
  .mk .ProjectionsOp [exampleSubquery exampleRel1 false]
    (.projectionsOpDef [11] (ColSet.ofList [1])) (exampleProps [] [1] Cardinality.any false)

/-! ## Trees without hoistable subqueries -/

mutual
/-- The nodes of a tree, the root first. -/
def Expr.nodes : Expr → List Expr
  | .mk op cs priv l => .mk op cs priv l :: Expr.nodesList cs
/-- The nodes of a list of trees. -/
def Expr.nodesList : List Expr → List Expr
  | [] => []
  | c :: cs => c.nodes ++ Expr.nodesList cs
end

mutual
/-- The walk of `hoistAll` over the tree stays among scalars: a `Subquery`,
`Exists` or `Any` that is reached and not lifted (its outer columns are empty)
has no hoistable child, so that its relation is not entered. -/
def ScalarWalk : Expr → Prop
  | .mk op cs _ l =>
    if op.IsSubquery ∧ l.OuterCols.Empty = false then True
    else (op.IsSubquery = true → ∀ c ∈ cs, hoistableSpec c = false) ∧ ScalarWalk.children cs
/-- The walk stays among scalars in the hoistable children of a list. -/
def ScalarWalk.children : List Expr → Prop
  | [] => True
  | c :: rest => (hoistableSpec c = true → ScalarWalk c) ∧ ScalarWalk.children rest
end

/-- The relation an entry point returned, if it returned. -/
def Result.relation : Result (Expr × CustomFuncs) → Option Expr
  | .ok (e, _) => some e
  | .panic _ => none

/-! ## Join kinds -/

/-- The six kinds of joins. -/
inductive JoinKind where
  | Inner | Left | Right | Full | Semi | Anti
deriving DecidableEq, Repr

/-- The operator of the join of a kind that is not an apply join. -/
def JoinKind.joinOp : JoinKind → Operator
  | .Inner => .InnerJoinOp
  | .Left => .LeftJoinOp
  | .Right => .RightJoinOp
  | .Full => .FullJoinOp
  | .Semi => .SemiJoinOp
  | .Anti => .AntiJoinOp

/-- The operator of the apply join of a kind. -/
def JoinKind.applyOp : JoinKind → Operator
  | .Inner => .InnerJoinApplyOp
  | .Left => .LeftJoinApplyOp
  | .Right => .RightJoinApplyOp
  | .Full => .FullJoinApplyOp
  | .Semi => .SemiJoinApplyOp
  | .Anti => .AntiJoinApplyOp

/-- The twelve join operators: the join and the apply join of every kind. -/
def Operator.IsJoin (op : Operator) : Prop :=
  ∃ K : JoinKind, op = K.joinOp ∨ op = K.applyOp

/-! ## Items hoisted one after the other -/

/-- The list `items1` holds, position by position, the trees `hoistAll`
returns for the trees of `items`, computed in list order: the hoister `r` is
given to the first call, every call leaves the hoister the next call starts
from, and the last call leaves `r1`. -/
inductive Threaded : subqueryHoister → List Expr → List Expr → subqueryHoister → Prop where
  | nil (r : subqueryHoister) : Threaded r [] [] r
  | cons {r r1 r2 : subqueryHoister} {item item1 : Expr} {rest rest1 : List Expr} :
      hoistAll r item = .ok (item1, r1) → Threaded r1 rest rest1 r2 →
      Threaded r (item :: rest) (item1 :: rest1) r2

/-! ## Aggregates remapped to ignore nulls -/

/-- The aggregate the specification puts in place of `elem`: `ConstNotNullAgg`
over the operand of a `ConstAgg`, `Count` over a variable for the first
not-null column of the input in place of `CountRows`, and `elem` itself
otherwise. -/
def ignoringNulls (in_ elem : Expr) : Expr :=
  if elem.Operator = .ConstAggOp then
    match elem.children with
    | x :: _ => ConstructConstNotNullAgg x
    | [] => elem
  else if elem.Operator = .CountRowsOp then
    ConstructCount (ConstructVariable (in_.Logical.NotNullCols.Next 0).1)
  else elem

/-- An `Aggregations` node of the examples: `CountRows`, `ConstAgg` over
column 1 and `BoolOr` over column 2, with the output columns 5, 6 and 7. -/
def exampleAggs : Expr :=
  ConstructAggregations
    [memoize .CountRowsOp [] .none, ConstructConstAgg (ConstructVariable 1),
      ConstructBoolOr (ConstructVariable 2)] [5, 6, 7]

/-- An input relation of the examples whose column 2 is not null. -/
def exampleNotNull : Expr :=
  .mk (.OtherRelOp 10) [] .none
    { exampleProps [1, 2] [] Cardinality.any false with NotNullCols := ColSet.ofList [2] }

/-! ## Inputs of the examples for uncorrelated subqueries -/

/-- An `Exists` with no outer column over a relation that holds no subquery. -/
def exampleOpaque : Expr :=
  .mk .ExistsOp [exampleRight] .none (exampleProps [] [] Cardinality.any false)

/-! ## The values fed to `BoolOr` -/

/-- The values fed to the `BoolOr` aggregate of a relation of the shape
`Project(ScalarGroupBy(inner, Aggregations [BoolOr(arg)]), ...)`: the values of
`arg` over the rows of `inner`. -/
def boolOrInputs (db : Database) (sub : Expr) (env : Row) : List Datum :=
  match sub.children with
  | groupBy :: _ =>
    match groupBy.children with
    | [inner, aggs] =>
      match aggs.children with
      | [agg] =>
        match agg.Operator, agg.children with
        | .BoolOrOp, [arg] =>
          (evalRel db inner env).map (fun row => evalScalar db arg (row ++ env))
        | _, _ => []
      | _ => []
    | _ => []
  | [] => []

/-- The relation under the final projection of a relation built by
`constructGroupByAny`: its scalar group-by. -/
def groupByOf (sub : Expr) : Option Expr := sub.children.head?

/-! ## Counting substitutions and joins -/

mutual
/-- The number of variables in the tree `e1` that stand in the place of a
correlated `Subquery`, `Exists` or `Any` of the tree `e`, the two trees
compared position by position from their roots. -/
def substitutions : Expr → Expr → Nat
  | .mk op cs _ l, e1 =>
    if op.IsSubquery ∧ l.OuterCols.Empty = false then
      if e1.Operator = .VariableOp then 1 else 0
    else substitutions.list cs e1.children
/-- The substitutions in a list of trees. -/
def substitutions.list : List Expr → List Expr → Nat
  | c :: cs, c1 :: cs1 => substitutions c c1 + substitutions.list cs cs1
  | _, _ => 0
end

mutual
/-- The number of left and inner apply joins on the path from the root of a
relation down its first children to the relation `base`. -/
def joinsAbove (base : Expr) : Expr → Nat
  | .mk op cs priv l =>
    if .mk op cs priv l = base then 0
    else (if op = .LeftJoinApplyOp ∨ op = .InnerJoinApplyOp then 1 else 0) +
      joinsAbove.first base cs
/-- The joins above `base` in the first tree of a list. -/
def joinsAbove.first (base : Expr) : List Expr → Nat
  | [] => 0
  | c :: _ => joinsAbove base c
end

/-! ## Aggregates that ignore nulls, over a database -/

/-- An aggregate operator ignores nulls over a database: rows whose arguments
are all null, appended to its input, leave its value as it is. -/
def NullIgnoring (db : Database) (op : Operator) : Prop :=
  ∀ (inputs pad : List (List Datum)), (∀ p ∈ pad, ∀ d ∈ p, d = Datum.null) →
    aggregate db op (inputs ++ pad) = aggregate db op inputs

/-- The aggregates of the examples that ignore nulls: `BoolOr`, `Count` and
`ConstNotNullAgg`. -/
def exampleIgnoresNulls (op : Operator) : Bool :=
  decide (op = .BoolOrOp) || decide (op = .CountOp) || decide (op = .ConstNotNullAggOp)

/-- A database of the examples for aggregates: `Count` counts the rows whose
argument is not null, and `ConstNotNullAgg` returns the first argument that is
not null, or null when there is none. -/
def aggDb : Database :=
  { rel := fun _ _ => [],
    scalar := fun _ _ _ => .null,
    agg := fun op inputs =>
      match op with
      | .CountOp =>
        .int ((inputs.filter (fun args => args.head?.getD Datum.null != Datum.null)).length)
      | .ConstNotNullAggOp =>
        ((inputs.map (fun args => args.head?.getD Datum.null)).find?
          (fun d => d != Datum.null)).getD Datum.null
      | _ => .null }

/-! ## The relations of the examples built for `Exists` and `Any` -/

/-- The relation `constructGroupByAny` builds for the `Any` of the example. -/
def equivAnyLifted : Expr :=
  match constructGroupByAny exampleHoister (ConstructVariable 2) (.OtherScalarOp 0)
      equivAnyRel with
  | .ok (sub, _) => sub
  | .panic _ => ConstructTrue

/-! ## The columns the hoister adds to a row of its input -/

/-- The bindings one operator of the hoisted input adds to a row `h` of the
base that was extended with `x` so far: an apply join adds the row of its right
side under these bindings, or nulls over the output columns of the right side
when it has no row; a projection adds its synthesized columns with the values
of their scalars. -/
def stepColumns (db : Database) (env : Row) (op : Operator) (cs : List Expr) (h x : Row) :
    Row :=
  match op, cs with
  | .LeftJoinApplyOp, [_, sub, _] => liftedRow db sub env (h ++ x)
  | .InnerJoinApplyOp, [_, sub, _] => liftedRow db sub env (h ++ x)
  | .ProjectOp, [_, projections] =>
    match projections.Private with
    | .projectionsOpDef synth _ =>
      synth.zip (evalScalars db projections.children (h ++ x ++ env))
    | _ => []
  | _, _ => []

mutual
/-- The bindings the relation `e`, built over `base` by the hoister, adds to a
row `h` of `base`: those of the operators on the path from `base` up to `e`,
from the inside out. -/
def hoistedColumns (db : Database) (base : Expr) (env : Row) : Expr → Row → Row
  | .mk op cs priv l, h =>
    if .mk op cs priv l = base then []
    else
      hoistedColumns.first db base env cs h ++
        stepColumns db env op cs h (hoistedColumns.first db base env cs h)
/-- The bindings added by the first relation of a list. -/
def hoistedColumns.first (db : Database) (base : Expr) (env : Row) : List Expr → Row → Row
  | [], _ => []
  | c :: _, h => hoistedColumns db base env c h
end

/-- The relation `constructGroupByExists` builds for the `Exists` of the
example. -/
def equivExistsLifted : Expr := (constructGroupByExists exampleHoister equivExistsRel).1

/-- The relation `constructGroupByAny` builds for the `Any` of the example
after the `Exists` of the example was lifted. -/
def equivAnyAfterExists : Expr :=
  match constructGroupByAny (constructGroupByExists exampleHoister equivExistsRel).2
      (ConstructVariable 2) (.OtherScalarOp 0) equivAnyRel with
  | .ok (sub, _) => sub
  | .panic _ => ConstructTrue

/-! ## Lemmas -/

theorem mem_insertElem (c a : Int) (l : List Int) :
    a ∈ insertElem c l ↔ a = c ∨ a ∈ l := by
  induction l with
  | nil => simp [insertElem]
  | cons x xs ih =>
    unfold insertElem
    split_ifs with h1 h2
    · simp
    · subst h2; simp
    · simp only [List.mem_cons, ih]; tauto

theorem sorted_insertElem (c : Int) (l : List Int) (h : l.Sorted (· < ·)) :
    (insertElem c l).Sorted (· < ·) := by
  induction l with
  | nil => simp [insertElem]
  | cons x xs ih =>
    unfold insertElem
    rw [List.sorted_cons] at h
    split_ifs with h1 h2
    · rw [List.sorted_cons]
      refine ⟨?_, List.sorted_cons.mpr h⟩
      intro b hb
      rcases List.mem_cons.mp hb with hb | hb
      · rw [hb]; exact h1
      · exact lt_trans h1 (h.1 b hb)
    · exact List.sorted_cons.mpr h
    · rw [List.sorted_cons]
      refine ⟨?_, ih h.2⟩
      intro b hb
      rcases (mem_insertElem c b xs).mp hb with hb | hb
      · rw [hb]; omega
      · exact h.1 b hb

theorem branchFlag_eq_eligible (op : Operator) (i : Nat) (c : Expr) :
    branchFlag op i c = eligible op i c := by
  unfold branchFlag eligible
  cases op <;> simp

theorem Expr.size_pos (e : Expr) : 0 < e.size := by
  cases e; simp [Expr.size]

theorem Expr.size_le_sizeList {c : Expr} {cs : List Expr} (h : c ∈ cs) :
    c.size ≤ Expr.sizeList cs := by
  induction cs with
  | nil => cases h
  | cons x xs ih =>
    simp only [Expr.sizeList]
    rcases List.mem_cons.mp h with h | h
    · subst h; omega
    · have := ih h; omega

theorem RuleCache.set_same (rule : RuleCache) (g : Expr) (v : Bool) : rule.set g v g = some v := by
  simp [RuleCache.set]

theorem RuleCache.set_other (rule : RuleCache) (g k : Expr) (v : Bool) (h : k ≠ g) :
    rule.set g v k = rule k := by
  simp [RuleCache.set, h]

mutual
theorem HasHoistableSubquery_frame (rule : RuleCache) (e k : Expr) (hk : e.size < k.size) :
    (HasHoistableSubquery rule e).2 k = rule k := by
  match e with
  | .mk op cs priv l =>
    have hne : k ≠ .mk op cs priv l := by
      intro h; rw [h] at hk; exact lt_irrefl _ hk
    unfold HasHoistableSubquery
    split
    · rfl
    · simp only
      split
      · simp [RuleCache.set_other _ _ _ _ hne]
      · rw [HasHoistableSubquery.loop_frame (.mk op cs priv l) op 0 _ cs k hne
          (by simp only [Expr.size] at hk; omega)]
        exact RuleCache.set_other _ _ _ _ hne
theorem HasHoistableSubquery.loop_frame (ev : Expr) (op : Operator) (i : Nat) (rule : RuleCache)
    (cs : List Expr) (k : Expr) (hne : k ≠ ev) (hk : Expr.sizeList cs < k.size) :
    (HasHoistableSubquery.loop ev op i rule cs).2 k = rule k := by
  match cs with
  | [] => simp [HasHoistableSubquery.loop]
  | child :: rest =>
    simp only [Expr.sizeList] at hk
    have h1 := HasHoistableSubquery_frame rule child k (by omega)
    unfold HasHoistableSubquery.loop
    split
    · rename_i rule1 heq
      rw [heq] at h1
      split
      · simp only [RuleCache.set_other _ _ _ _ hne]; exact h1
      · rw [HasHoistableSubquery.loop_frame ev op (i + 1) _ rest k hne (by omega)]
        simp only [RuleCache.set_other _ _ _ _ hne]; exact h1
    · rename_i rule1 heq
      rw [heq] at h1
      rw [HasHoistableSubquery.loop_frame ev op (i + 1) _ rest k hne (by omega)]
      exact h1
end

theorem hoistableSpec_mk (op : Operator) (cs : List Expr) (priv : Private) (l : Logical) :
    hoistableSpec (.mk op cs priv l) =
      if op.IsSubquery then !l.OuterCols.Empty else hoistableSpec.any op 0 cs := by
  rw [hoistableSpec]

mutual
theorem HasHoistableSubquery_upTo (n : Nat) (rule : RuleCache) (e : Expr) (hn : e.size ≤ n)
    (hc : rule.ConsistentUpTo n) :
    (HasHoistableSubquery rule e).1 = hoistableSpec e ∧
      (HasHoistableSubquery rule e).2.ConsistentUpTo n ∧
      (HasHoistableSubquery rule e).2 e = some (hoistableSpec e) := by
  match e with
  | .mk op cs priv l =>
    unfold HasHoistableSubquery
    split
    · rename_i v hv
      have := hc _ v hv hn
      subst this
      exact ⟨rfl, hc, hv⟩
    · rename_i hnone
      simp only
      split
      · rename_i hsub
        have hs : hoistableSpec (.mk op cs priv l) = !l.OuterCols.Empty := by
          rw [hoistableSpec_mk, if_pos hsub]
        refine ⟨hs.symm, ?_, ?_⟩
        · intro k v hk hsz
          dsimp only at hk
          by_cases hke : k = .mk op cs priv l
          · subst hke
            rw [RuleCache.set_same] at hk
            rw [hs]; exact (Option.some.inj hk).symm
          · rw [RuleCache.set_other _ _ _ _ hke, RuleCache.set_other _ _ _ _ hke] at hk
            exact hc k v hk hsz
        · dsimp only
          rw [RuleCache.set_same, hs]
      · rename_i hsub
        have hs : hoistableSpec (.mk op cs priv l) = hoistableSpec.any op 0 cs := by
          rw [hoistableSpec_mk, if_neg hsub]
        have hsize : (Expr.mk op cs priv l).size = 1 + Expr.sizeList cs := by
          rw [Expr.size]
        have hc1 : (rule.set (.mk op cs priv l) false).ConsistentUpTo (Expr.sizeList cs) := by
          intro k v hk hsz
          have hke : k ≠ .mk op cs priv l := by
            intro h; rw [h, hsize] at hsz; omega
          rw [RuleCache.set_other _ _ _ _ hke] at hk
          exact hc k v hk (by omega)
        obtain ⟨h1, h2, h3⟩ := HasHoistableSubquery.loop_upTo (Expr.sizeList cs)
          (.mk op cs priv l) op 0 (rule.set (.mk op cs priv l) false) cs (le_refl _)
          (by omega) hc1 (RuleCache.set_same _ _ _)
        refine ⟨by rw [hs]; exact h1, ?_, by rw [hs, ← h1]; exact h3⟩
        intro k v hk hsz
        by_cases hke : k = .mk op cs priv l
        · subst hke
          rw [h3] at hk
          rw [hs, ← h1]; exact (Option.some.inj hk).symm
        · by_cases hsm : k.size ≤ Expr.sizeList cs
          · exact h2 k v hk hsm
          · rw [HasHoistableSubquery.loop_frame _ _ _ _ _ k hke (by omega),
              RuleCache.set_other _ _ _ _ hke] at hk
            exact hc k v hk hsz
theorem HasHoistableSubquery.loop_upTo (n : Nat) (ev : Expr) (op : Operator) (i : Nat)
    (rule : RuleCache) (cs : List Expr) (hsz : Expr.sizeList cs ≤ n) (hev : n < ev.size)
    (hc : rule.ConsistentUpTo n) (hv : rule ev = some false) :
    (HasHoistableSubquery.loop ev op i rule cs).1 = hoistableSpec.any op i cs ∧
      (HasHoistableSubquery.loop ev op i rule cs).2.ConsistentUpTo n ∧
      (HasHoistableSubquery.loop ev op i rule cs).2 ev =
        some (HasHoistableSubquery.loop ev op i rule cs).1 := by
  match cs with
  | [] =>
    simp only [HasHoistableSubquery.loop, hoistableSpec.any]
    exact ⟨trivial, hc, hv⟩
  | child :: rest =>
    simp only [Expr.sizeList] at hsz
    obtain ⟨h1, h2, _⟩ := HasHoistableSubquery_upTo n rule child (by omega) hc
    have hfr := HasHoistableSubquery_frame rule child ev (by omega)
    have hset : ∀ (r1 : RuleCache) (v : Bool), r1.ConsistentUpTo n →
        (r1.set ev v).ConsistentUpTo n := by
      intro r1 v hr k w hk hks
      have hke : k ≠ ev := by intro h; rw [h] at hks; omega
      rw [RuleCache.set_other _ _ _ _ hke] at hk
      exact hr k w hk hks
    unfold HasHoistableSubquery.loop
    rw [hoistableSpec.any]
    split
    · rename_i rule1 heq
      rw [heq] at h1 h2 hfr
      simp only at h1 h2 hfr
      rw [← h1, ← branchFlag_eq_eligible]
      split
      · rename_i hb
        simp only [hb, Bool.and_self, Bool.true_or]
        exact ⟨trivial, hset _ _ h2, RuleCache.set_same _ _ _⟩
      · rename_i hb
        simp only [hb, Bool.and_false, Bool.false_or]
        exact HasHoistableSubquery.loop_upTo n ev op (i + 1) _ rest (by omega) hev
          (hset _ _ h2) (RuleCache.set_same _ _ _)
    · rename_i rule1 heq
      rw [heq] at h1 h2 hfr
      simp only at h1 h2 hfr
      rw [← h1]
      simp only [Bool.false_and, Bool.false_or]
      exact HasHoistableSubquery.loop_upTo n ev op (i + 1) _ rest (by omega) hev h2
        (by rw [hfr]; exact hv)
end

theorem RuleCache.Consistent.upTo {rule : RuleCache} (h : rule.Consistent) (n : Nat) :
    rule.ConsistentUpTo n := fun k v hk _ => h k v hk

theorem RuleCache.empty_consistent : RuleCache.empty.Consistent := by
  intro k v hk; simp [RuleCache.empty] at hk

/-- With a consistent cache the cached function computes the specified
hoistability, stores it, and leaves the cache consistent. -/
theorem HasHoistableSubquery_consistent (rule : RuleCache) (e : Expr) (hc : rule.Consistent) :
    (HasHoistableSubquery rule e).1 = hoistableSpec e ∧
      (HasHoistableSubquery rule e).2.Consistent ∧
      (HasHoistableSubquery rule e).2 e = some (hoistableSpec e) := by
  obtain ⟨h1, _, h3⟩ := HasHoistableSubquery_upTo e.size rule e (le_refl _) (hc.upTo _)
  refine ⟨h1, ?_, h3⟩
  intro k v hk
  obtain ⟨_, h2, _⟩ := HasHoistableSubquery_upTo (max e.size k.size) rule e (le_max_left _ _)
    (hc.upTo _)
  exact h2 k v hk (le_max_right _ _)

theorem ColSet.contains_empty (c : Int) : (∅ : ColSet).Contains c = false := by
  simp [ColSet.Contains, EmptyCollection.emptyCollection, ColSet.empty]

theorem filter_contains_empty (row : Row) :
    row.filter (fun p => (∅ : ColSet).Contains p.1) = [] := by
  simp [ColSet.contains_empty]

theorem Row.get_cons_self (c : ColumnID) (d : Datum) (row : Row) :
    Row.get ((c, d) :: row) c = d := by
  simp [Row.get, List.lookup]

theorem Row.get_cons_ne (c k : ColumnID) (d : Datum) (row : Row) (h : c ≠ k) :
    Row.get ((k, d) :: row) c = Row.get row c := by
  have : (c == k) = false := by simpa using h
  simp [Row.get, List.lookup, this]

theorem evalRel_Select (db : Database) (input filter : Expr) (env : Row) :
    evalRel db (ConstructSelect input filter) env =
      (evalRel db input env).filter
        (fun row => evalScalar db filter (row ++ env) == Datum.bool true) := by
  simp only [ConstructSelect, memoize]; rw [evalRel]

theorem evalRel_Project (db : Database) (input : Expr) (elems : List Expr) (synth : ColList)
    (pass : ColSet) (env : Row) :
    evalRel db (ConstructProject input (ConstructProjections elems synth pass)) env =
      (evalRel db input env).map (fun row =>
        row.filter (fun p => pass.Contains p.1) ++ synth.zip (evalScalars db elems (row ++ env))) := by
  simp only [ConstructProject, ConstructProjections, memoize]; rw [evalRel]

theorem evalRel_ScalarGroupBy (db : Database) (input : Expr) (aggs : List Expr) (cols : ColList)
    (grouping : ColSet) (env : Row) :
    evalRel db (ConstructScalarGroupBy input (ConstructAggregations aggs cols) grouping) env =
      [cols.zip (evalAggs db aggs (evalRel db input env) env)] := by
  simp only [ConstructScalarGroupBy, ConstructAggregations, memoize]; rw [evalRel]

theorem evalRel_InnerJoinApply (db : Database) (left right on_ : Expr) (env : Row) :
    evalRel db (ConstructInnerJoinApply left right on_) env =
      (evalRel db left env).flatMap (fun lrow =>
        ((evalRel db right (lrow ++ env)).filter
          (fun rrow => evalScalar db on_ (lrow ++ rrow ++ env) == Datum.bool true)).map
          (fun rrow => lrow ++ rrow)) := by
  simp only [ConstructInnerJoinApply, ConstructJoin, memoize]; rw [evalRel]

theorem evalRel_LeftJoinApply (db : Database) (left right on_ : Expr) (env : Row) :
    evalRel db (ConstructLeftJoinApply left right on_) env =
      (evalRel db left env).flatMap (fun lrow =>
        if (((evalRel db right (lrow ++ env)).filter
          (fun rrow => evalScalar db on_ (lrow ++ rrow ++ env) == Datum.bool true)).map
          (fun rrow => lrow ++ rrow)).isEmpty then [lrow ++ nullRow right.Logical.OutputCols]
        else ((evalRel db right (lrow ++ env)).filter
          (fun rrow => evalScalar db on_ (lrow ++ rrow ++ env) == Datum.bool true)).map
          (fun rrow => lrow ++ rrow)) := by
  simp only [ConstructLeftJoinApply, ConstructJoin, memoize]; rw [evalRel]

theorem evalScalar_Variable (db : Database) (c : ColumnID) (env : Row) :
    evalScalar db (ConstructVariable c) env = env.get c := by
  simp only [ConstructVariable, memoize]; rw [evalScalar]

theorem evalScalar_op (db : Database) (op : Operator) (cs : List Expr) (priv : Private)
    (l : Logical) (env : Row) (h1 : op.IsSubquery = false) (h2 : op ≠ .VariableOp) :
    evalScalar db (.mk op cs priv l) env = scalarOp db op priv (evalScalars db cs env) := by
  rw [evalScalar]
  all_goals (intros; simp_all [Operator.IsSubquery])

theorem evalScalar_True (db : Database) (env : Row) :
    evalScalar db ConstructTrue env = Datum.bool true := by
  simp only [ConstructTrue, memoize]
  rw [evalScalar_op _ _ _ _ _ _ (by decide) (by decide)]; rfl

theorem evalScalar_False (db : Database) (env : Row) :
    evalScalar db ConstructFalse env = Datum.bool false := by
  simp only [ConstructFalse, memoize]
  rw [evalScalar_op _ _ _ _ _ _ (by decide) (by decide)]; rfl

theorem evalScalar_Null (db : Database) (t : Typ) (env : Row) :
    evalScalar db (ConstructNull t) env = Datum.null := by
  simp only [ConstructNull, memoize]
  rw [evalScalar_op _ _ _ _ _ _ (by decide) (by decide)]; rfl

theorem evalScalar_Is (db : Database) (a b : Expr) (env : Row) :
    evalScalar db (ConstructIs a b) env =
      Datum.bool (evalScalar db a env == evalScalar db b env) := by
  simp only [ConstructIs, memoize]
  rw [evalScalar_op _ _ _ _ _ _ (by decide) (by decide)]; simp [evalScalars, scalarOp]

theorem evalScalar_IsNot (db : Database) (a b : Expr) (env : Row) :
    evalScalar db (ConstructIsNot a b) env =
      Datum.bool (evalScalar db a env != evalScalar db b env) := by
  simp only [ConstructIsNot, memoize]
  rw [evalScalar_op _ _ _ _ _ _ (by decide) (by decide)]; simp [evalScalars, scalarOp]

theorem evalScalar_And (db : Database) (cs : List Expr) (env : Row) :
    evalScalar db (ConstructAnd cs) env =
      (evalScalars db cs env).foldr Datum.and3 (Datum.bool true) := by
  simp only [ConstructAnd, memoize]
  rw [evalScalar_op _ _ _ _ _ _ (by decide) (by decide)]; rfl

theorem evalScalar_Case (db : Database) (input : Expr) (whens : List Expr) (env : Row) :
    evalScalar db (ConstructCase input whens) env =
      caseValue (evalScalar db input env) (evalScalars db whens env) := by
  simp only [ConstructCase, memoize]
  rw [evalScalar_op _ _ _ _ _ _ (by decide) (by decide)]; simp [evalScalars, scalarOp]

theorem evalScalar_When (db : Database) (cond val : Expr) (env : Row) :
    evalScalar db (ConstructWhen cond val) env =
      Datum.when (evalScalar db cond env) (evalScalar db val env) := by
  simp only [ConstructWhen, memoize]
  rw [evalScalar_op _ _ _ _ _ _ (by decide) (by decide)]; simp [evalScalars, scalarOp]

theorem evalAggs_ConstAgg (db : Database) (arg : Expr) (rows : List Row) (env : Row) :
    evalAggs db [ConstructConstAgg arg] rows env =
      [constAgg (rows.map (fun row => evalScalar db arg (row ++ env)))] := by
  simp only [ConstructConstAgg, memoize]
  rw [evalAggs, evalAggs]
  simp [aggregate, evalScalars, Function.comp_def]

theorem evalAggs_BoolOr (db : Database) (arg : Expr) (rows : List Row) (env : Row) :
    evalAggs db [ConstructBoolOr arg] rows env =
      [boolOrAgg (rows.map (fun row => evalScalar db arg (row ++ env)))] := by
  simp only [ConstructBoolOr, memoize]
  rw [evalAggs, evalAggs]
  simp [aggregate, evalScalars, Function.comp_def]

theorem evalScalars_singleton (db : Database) (e : Expr) (env : Row) :
    evalScalars db [e] env = [evalScalar db e env] := by
  rw [evalScalars, evalScalars]

theorem evalScalar_Binary (db : Database) (n : Nat) (a b : Expr) (env : Row) :
    evalScalar db (ConstructBinary (.OtherScalarOp n) a b) env =
      db.scalar (.OtherScalarOp n) .none [evalScalar db a env, evalScalar db b env] := by
  simp only [ConstructBinary, memoize]
  rw [evalScalar_op _ _ _ _ _ _ (by simp [Operator.IsSubquery]) (by simp)]
  simp [evalScalars, scalarOp]

theorem anyCase_boolOr (f : Datum → Datum → Datum) (z : Datum) (xs : List Datum)
    (hnull : ∀ a b, f a b = Datum.null ↔ a = Datum.null ∨ b = Datum.null)
    (hbool : ∀ a b, f a b = Datum.null ∨ f a b = Datum.bool true ∨ f a b = Datum.bool false) :
    anyCase z (boolOrAgg ((xs.filter (fun x => f z x != Datum.bool false)).map
      (fun x => Datum.bool (x != Datum.null)))) = anyValue f z xs := by
  have hT : ((xs.filter (fun x => f z x != Datum.bool false)).map
      (fun x => Datum.bool (x != Datum.null))).contains (Datum.bool true) =
      decide (∃ x ∈ xs, f z x ≠ Datum.bool false ∧ x ≠ Datum.null) := by
    rw [Bool.eq_iff_iff]; simp [and_assoc]
  have hF : ((xs.filter (fun x => f z x != Datum.bool false)).map
      (fun x => Datum.bool (x != Datum.null))).contains (Datum.bool false) =
      decide (∃ x ∈ xs, f z x ≠ Datum.bool false ∧ x = Datum.null) := by
    rw [Bool.eq_iff_iff]; simp [and_assoc]
  have hA : xs.any (fun x => f z x == Datum.bool true) =
      decide (∃ x ∈ xs, f z x = Datum.bool true) := by
    rw [Bool.eq_iff_iff]; simp [and_assoc]
  have hB : xs.any (fun x => f z x == Datum.null) =
      decide (∃ x ∈ xs, f z x = Datum.null) := by
    rw [Bool.eq_iff_iff]; simp [and_assoc]
  unfold boolOrAgg anyValue
  rw [hT, hF, hA, hB]
  by_cases hz : z = Datum.null
  · subst hz
    have hall : ∀ x, f Datum.null x = Datum.null := fun x => (hnull _ _).mpr (Or.inl rfl)
    have hA0 : decide (∃ x ∈ xs, f Datum.null x = Datum.bool true) = false := by
      rw [decide_eq_false_iff_not]
      rintro ⟨x, _, h⟩
      rw [hall] at h; cases h
    have hB0 : decide (∃ x ∈ xs, f Datum.null x = Datum.null) =
        (decide (∃ x ∈ xs, f Datum.null x ≠ Datum.bool false ∧ x ≠ Datum.null) ||
          decide (∃ x ∈ xs, f Datum.null x ≠ Datum.bool false ∧ x = Datum.null)) := by
      rw [Bool.eq_iff_iff]
      simp only [decide_eq_true_eq, Bool.or_eq_true]
      constructor
      · rintro ⟨x, hx, _⟩
        by_cases hxn : x = Datum.null
        · exact Or.inr ⟨x, hx, by rw [hall]; simp, hxn⟩
        · exact Or.inl ⟨x, hx, by rw [hall]; simp, hxn⟩
      · rintro (⟨x, hx, _⟩ | ⟨x, hx, _⟩) <;> exact ⟨x, hx, hall x⟩
    rw [hA0, hB0]
    generalize decide (∃ x ∈ xs, f Datum.null x ≠ Datum.bool false ∧ x ≠ Datum.null) = pt
    generalize decide (∃ x ∈ xs, f Datum.null x ≠ Datum.bool false ∧ x = Datum.null) = pf
    cases pt <;> cases pf <;> simp [anyCase, Datum.matches, Datum.and3]
  · have hTrue : decide (∃ x ∈ xs, f z x ≠ Datum.bool false ∧ x ≠ Datum.null) =
        decide (∃ x ∈ xs, f z x = Datum.bool true) := by
      rw [decide_eq_decide]
      constructor
      · rintro ⟨x, hx, h1, h2⟩
        refine ⟨x, hx, ?_⟩
        rcases hbool z x with h | h | h
        · rcases (hnull z x).mp h with h | h
          · exact absurd h hz
          · exact absurd h h2
        · exact h
        · exact absurd h h1
      · rintro ⟨x, hx, h⟩
        refine ⟨x, hx, by rw [h]; simp, ?_⟩
        intro hxn
        have := (hnull z x).mpr (Or.inr hxn)
        rw [h] at this; cases this
    have hNull : decide (∃ x ∈ xs, f z x ≠ Datum.bool false ∧ x = Datum.null) =
        decide (∃ x ∈ xs, f z x = Datum.null) := by
      rw [decide_eq_decide]
      constructor
      · rintro ⟨x, hx, _, h2⟩
        exact ⟨x, hx, (hnull z x).mpr (Or.inr h2)⟩
      · rintro ⟨x, hx, h⟩
        refine ⟨x, hx, by rw [h]; simp, ?_⟩
        rcases (hnull z x).mp h with h | h
        · exact absurd h hz
        · exact h
    rw [hTrue, hNull]
    generalize decide (∃ x ∈ xs, f z x = Datum.bool true) = a
    generalize decide (∃ x ∈ xs, f z x = Datum.null) = b
    have hzb : (z != Datum.null) = true := by simpa using hz
    cases a <;> cases b <;> simp [anyCase, Datum.matches, Datum.and3, hzb]

theorem referenceSingleColumn_ok (group : Expr) (h : group.Logical.OutputCols.Len = 1) :
    referenceSingleColumn group = .ok (ConstructVariable (group.Logical.OutputCols.Next 0).1) := by
  simp [referenceSingleColumn, h]

theorem Row.get_append_singleton (c : ColumnID) (d : Datum) (env : Row) :
    Row.get ([(c, d)] ++ env) c = d := by
  simp [Row.get, List.lookup]

theorem constructGroupByAny_rows (db : Database) (r : subqueryHoister) (scalar : Expr) (n : Nat)
    (input : Expr) (env : Row) (z : Datum)
    (hlen : input.Logical.OutputCols.Len = 1)
    (hbind : ∀ row ∈ evalRel db input env,
      (row.lookup (input.Logical.OutputCols.Next 0).1).isSome = true)
    (hnull : ∀ a b, db.scalar (.OtherScalarOp n) .none [a, b] = Datum.null ↔
      a = Datum.null ∨ b = Datum.null)
    (hbool : ∀ a b, db.scalar (.OtherScalarOp n) .none [a, b] = Datum.null ∨
      db.scalar (.OtherScalarOp n) .none [a, b] = Datum.bool true ∨
      db.scalar (.OtherScalarOp n) .none [a, b] = Datum.bool false)
    (hz : ∀ row : Row, (row ∈ evalRel db input env ∨
        ∃ b, row = [(((cacheAnyScalar r scalar).2.c.md.cols.length : Int) + 2, b)]) →
      evalScalar db (cacheAnyScalar r scalar).1 (row ++ env) = z) :
    ∃ sub r1, constructGroupByAny r scalar (.OtherScalarOp n) input = .ok (sub, r1) ∧
      evalRel db sub env =
        [[(((cacheAnyScalar r scalar).2.c.md.cols.length : Int) + 3,
          anyValue (fun a b => db.scalar (.OtherScalarOp n) .none [a, b]) z
            ((evalRel db input env).map
              (fun row => row.get (input.Logical.OutputCols.Next 0).1)))]] := by
  unfold constructGroupByAny
  generalize cacheAnyScalar r scalar = cached at hz ⊢
  obtain ⟨scalar1, r0⟩ := cached
  simp only [referenceSingleColumn_ok input hlen, subqueryHoister.AddColumn, Metadata.AddColumn]
  refine ⟨_, _, rfl, ?_⟩
  simp only at hz
  rw [evalRel_Project, evalRel_ScalarGroupBy, evalRel_Project, evalRel_Select, evalAggs_BoolOr]
  simp only [filter_contains_empty, List.nil_append, evalScalars_singleton, List.map_map,
    Function.comp_def, List.zip_cons_cons, List.zip_nil_right, List.map_cons, List.map_nil,
    List.length_append, List.length_cons, List.length_nil, evalScalar_Case, evalScalar_True,
    evalScalar_When, caseValue, evalScalar_And, evalScalars, evalScalar_Is, evalScalar_IsNot,
    evalScalar_Variable, evalScalar_Null, evalScalar_False,
    evalScalar_Binary, List.foldr_cons, List.foldr_nil, List.singleton_append,
    Row.get_cons_self]
  have hcol2 : ((r0.c.md.cols.length + (0 + 1) : Nat) : Int) + 1 =
      (r0.c.md.cols.length : Int) + 2 := by push_cast; ring
  have hcol3 : ((r0.c.md.cols.length + (0 + 1) + (0 + 1) : Nat) : Int) + 1 =
      (r0.c.md.cols.length : Int) + 3 := by push_cast; ring
  rw [hcol2, hcol3]
  have hget : ∀ row ∈ evalRel db input env,
      (row ++ env).get (input.Logical.OutputCols.Next 0).1 =
        row.get (input.Logical.OutputCols.Next 0).1 := by
    intro row hrow
    have := hbind row hrow
    rw [Option.isSome_iff_exists] at this
    obtain ⟨d, hd⟩ := this
    simp [Row.get, List.lookup_append, hd]
  have hL : List.map
      (fun x => Datum.bool ((x ++ env).get (input.Logical.OutputCols.Next 0).1 != Datum.null))
      (List.filter
        (fun row => Datum.bool (db.scalar (.OtherScalarOp n) .none
          [evalScalar db scalar1 (row ++ env),
            (row ++ env).get (input.Logical.OutputCols.Next 0).1] != Datum.bool false) ==
          Datum.bool true)
        (evalRel db input env)) =
      (((evalRel db input env).map (fun row => row.get (input.Logical.OutputCols.Next 0).1)).filter
        (fun x => db.scalar (.OtherScalarOp n) .none [z, x] != Datum.bool false)).map
        (fun x => Datum.bool (x != Datum.null)) := by
    rw [List.filter_map, List.map_map]
    have hf : List.filter
        (fun row => Datum.bool (db.scalar (.OtherScalarOp n) .none
          [evalScalar db scalar1 (row ++ env),
            (row ++ env).get (input.Logical.OutputCols.Next 0).1] != Datum.bool false) ==
          Datum.bool true)
        (evalRel db input env) =
        List.filter ((fun x => db.scalar (.OtherScalarOp n) .none [z, x] != Datum.bool false) ∘
          fun row => row.get (input.Logical.OutputCols.Next 0).1) (evalRel db input env) := by
      apply List.filter_congr
      intro row hrow
      rw [hget row hrow, hz row (Or.inl hrow)]
      simp only [Function.comp]
      generalize (db.scalar (.OtherScalarOp n) .none
        [z, row.get (input.Logical.OutputCols.Next 0).1] != Datum.bool false) = c
      cases c <;> decide
    rw [hf]
    apply List.map_congr_left
    intro row hrow
    have hrow1 := (List.mem_filter.mp hrow).1
    simp [hget row hrow1]
  rw [hL]
  have hzagg : ∀ b, evalScalar db scalar1 (((r0.c.md.cols.length : Int) + 2, b) :: env) = z :=
    fun b => hz [(((r0.c.md.cols.length : Int) + 2), b)] (Or.inr ⟨b, rfl⟩)
  simp only [hzagg]
  rw [← anyCase_boolOr _ z _ hnull hbool]
  rfl

theorem hoistableSpec.any_iff (op : Operator) (cs : List Expr) (j : Nat) :
    hoistableSpec.any op j cs = true ↔
      ∃ i c, cs[i]? = some c ∧ hoistableSpec c = true ∧ eligible op (j + i) c = true := by
  induction cs generalizing j with
  | nil => simp [hoistableSpec.any]
  | cons x xs ih =>
    rw [hoistableSpec.any, Bool.or_eq_true, Bool.and_eq_true, ih]
    constructor
    · rintro (⟨h1, h2⟩ | ⟨i, c, h1, h2, h3⟩)
      · exact ⟨0, x, by simp, h1, by simpa using h2⟩
      · exact ⟨i + 1, c, by simpa using h1, h2, by rw [← h3]; congr 1; omega⟩
    · rintro ⟨i, c, h1, h2, h3⟩
      cases i with
      | zero =>
        simp only [List.getElem?_cons_zero, Option.some.injEq] at h1
        subst h1
        exact Or.inl ⟨h2, by simpa using h3⟩
      | succ i =>
        simp only [List.getElem?_cons_succ] at h1
        exact Or.inr ⟨i, c, h1, h2, by rw [← h3]; congr 1; omega⟩

theorem project_groupBy_props (input : Expr) (aggs : List Expr) (cols : ColList)
    (grouping : ColSet) (elems : List Expr) (c : ColumnID) :
    (ConstructProject (ConstructScalarGroupBy input (ConstructAggregations aggs cols) grouping)
        (ConstructProjections elems [c] ∅)).Logical.OutputCols = ColSet.ofList [c] ∧
      (ConstructProject (ConstructScalarGroupBy input (ConstructAggregations aggs cols) grouping)
        (ConstructProjections elems [c] ∅)).Logical.Cardinality = Cardinality.one := by
  constructor <;> rfl

theorem constructGroupByExists_props (r : subqueryHoister) (subquery : Expr) :
    (constructGroupByExists r subquery).1.Logical.OutputCols =
        ColSet.ofList [(r.c.md.cols.length : Int) + 1 + 1 + 1] ∧
      (constructGroupByExists r subquery).1.Logical.Cardinality = Cardinality.one ∧
      (constructGroupByExists r subquery).2.hoisted = r.hoisted := by
  refine ⟨?_, ?_, ?_⟩
  · simp only [constructGroupByExists, subqueryHoister.AddColumn, Metadata.AddColumn]
    rw [(project_groupBy_props _ _ _ _ _ _).1]
    simp only [List.length_append, List.length_cons, List.length_nil]
    congr 2
  · simp only [constructGroupByExists]
    exact (project_groupBy_props _ _ _ _ _ _).2
  · rfl

theorem constructGroupByAny_props (r : subqueryHoister) (scalar : Expr) (cmp : Operator)
    (input sub : Expr) (r1 : subqueryHoister)
    (h : constructGroupByAny r scalar cmp input = .ok (sub, r1)) :
    sub.Logical.OutputCols.Len = 1 ∧ sub.Logical.Cardinality = Cardinality.one := by
  unfold constructGroupByAny at h
  simp only at h
  split at h
  · cases h
  · simp only [Result.ok.injEq, Prod.mk.injEq] at h
    rw [← h.1]
    exact ⟨by rw [(project_groupBy_props _ _ _ _ _ _).1]; rfl, (project_groupBy_props _ _ _ _ _ _).2⟩

theorem hoistAll_of_correlated (r : subqueryHoister) (ev : Expr)
    (hop : ev.Operator.IsSubquery = true) (hout : ev.Logical.OuterCols.Empty = false) :
    hoistAll r ev = hoistCorrelated r ev := by
  cases ev with
  | mk op cs priv l =>
    simp only [Expr.Operator, Expr.Logical] at hop hout
    rw [hoistAll, if_pos ⟨hop, hout⟩]

theorem constructGroupByAny_rule (r : subqueryHoister) (rule0 : RuleCache) (scalar : Expr)
    (cmp : Operator) (input : Expr) :
    constructGroupByAny (r.withRule rule0) scalar cmp input =
      match constructGroupByAny r scalar cmp input with
      | .ok (e, r1) => .ok (e, r1.withRule rule0)
      | .panic msg => .panic msg := by
  unfold constructGroupByAny
  simp only [cacheAnyScalar, subqueryHoister.AddColumn, subqueryHoister.withRule]
  by_cases hs : scalar.Operator ≠ .VariableOp ∧ scalar.Operator.IsConstValue = false
  · simp only [if_pos hs]
    cases referenceSingleColumn input <;> rfl
  · simp only [if_neg hs]
    cases referenceSingleColumn input <;> rfl

theorem liftedRelation_rule (r : subqueryHoister) (rule0 : RuleCache) (s child0 : Expr)
    (others : List Expr) :
    liftedRelation (r.withRule rule0) s child0 others =
      match liftedRelation r s child0 others with
      | .ok (e, r1) => .ok (e, r1.withRule rule0)
      | .panic msg => .panic msg := by
  unfold liftedRelation
  cases s.Operator <;> try rfl
  cases others with
  | nil => rfl
  | cons scalar rest =>
    cases s.Private <;> try rfl
    exact constructGroupByAny_rule r rule0 scalar _ child0

theorem hoistCorrelated_rule (r : subqueryHoister) (rule0 : RuleCache) (s : Expr) :
    hoistCorrelated (r.withRule rule0) s =
      match hoistCorrelated r s with
      | .ok (e, r1) => .ok (e, r1.withRule rule0)
      | .panic msg => .panic msg := by
  unfold hoistCorrelated
  cases s.children with
  | nil => rfl
  | cons child0 others =>
    simp only [liftedRelation_rule]
    cases liftedRelation r s child0 others with
    | panic msg => rfl
    | ok p => rfl

theorem subqueryHoister.withRule_withRule (r : subqueryHoister) (x y : RuleCache) :
    (r.withRule x).withRule y = r.withRule y := rfl

theorem subqueryHoister.withRule_self (r : subqueryHoister) : r.withRule r.c.rule = r := rfl

theorem hoistCorrelated_keeps_rule (r r1 : subqueryHoister) (s e : Expr)
    (h : hoistCorrelated r s = .ok (e, r1)) : r1.c.rule = r.c.rule := by
  have h2 := hoistCorrelated_rule r r.c.rule s
  rw [subqueryHoister.withRule_self, h] at h2
  simp only [Result.ok.injEq, Prod.mk.injEq, true_and] at h2
  rw [h2]
  rfl

theorem liftAll_rule (r : subqueryHoister) (x : RuleCache) (l : List Expr) :
    liftAll (r.withRule x) l =
      match liftAll r l with
      | .ok r1 => .ok (r1.withRule x)
      | .panic msg => .panic msg := by
  induction l generalizing r with
  | nil => rfl
  | cons s rest ih =>
    rw [liftAll, liftAll, hoistCorrelated_rule]
    cases hoistCorrelated r s with
    | panic msg => rfl
    | ok p =>
      obtain ⟨e, r1⟩ := p
      exact ih r1

theorem liftAll_append (r : subqueryHoister) (l1 l2 : List Expr) :
    liftAll r (l1 ++ l2) =
      match liftAll r l1 with
      | .ok r1 => liftAll r1 l2
      | .panic msg => .panic msg := by
  induction l1 generalizing r with
  | nil => rfl
  | cons s rest ih =>
    rw [List.cons_append, liftAll, liftAll]
    cases hoistCorrelated r s with
    | panic msg => rfl
    | ok p =>
      obtain ⟨e, r1⟩ := p
      exact ih r1

mutual
theorem hoistAll_liftAll (r : subqueryHoister) (e : Expr) (x : RuleCache)
    (hc : r.c.rule.Consistent) :
    (∀ e1 r1, hoistAll r e = .ok (e1, r1) →
      liftAll (r.withRule x) (liftList e) = .ok (r1.withRule x) ∧ r1.c.rule.Consistent) ∧
    (∀ msg, hoistAll r e = .panic msg → liftAll (r.withRule x) (liftList e) = .panic msg) := by
  match e with
  | .mk op cs priv l =>
    rw [hoistAll, liftList]
    by_cases hcor : op.IsSubquery = true ∧ l.OuterCols.Empty = false
    · rw [if_pos hcor, if_pos hcor, liftAll, hoistCorrelated_rule]
      constructor
      · intro e1 r1 h
        rw [h]
        exact ⟨rfl, by rw [hoistCorrelated_keeps_rule _ _ _ _ h]; exact hc⟩
      · intro msg h
        rw [h]
    · rw [if_neg hcor, if_neg hcor]
      obtain ⟨h1, h2⟩ := hoistAll.children_liftAll r cs x hc
      constructor
      · intro e1 r1 h
        cases hch : hoistAll.children r cs with
        | panic msg => rw [hch] at h; cases h
        | ok p =>
          obtain ⟨cs1, r2⟩ := p
          rw [hch] at h
          simp only [Result.ok.injEq, Prod.mk.injEq] at h
          rw [← h.2]
          exact h1 cs1 r2 hch
      · intro msg h
        cases hch : hoistAll.children r cs with
        | panic msg2 =>
          rw [hch] at h
          simp only [Result.panic.injEq] at h
          rw [← h]
          exact h2 msg2 hch
        | ok p => rw [hch] at h; cases h
theorem hoistAll.children_liftAll (r : subqueryHoister) (cs : List Expr) (x : RuleCache)
    (hc : r.c.rule.Consistent) :
    (∀ cs1 r1, hoistAll.children r cs = .ok (cs1, r1) →
      liftAll (r.withRule x) (liftList.children cs) = .ok (r1.withRule x) ∧
        r1.c.rule.Consistent) ∧
    (∀ msg, hoistAll.children r cs = .panic msg →
      liftAll (r.withRule x) (liftList.children cs) = .panic msg) := by
  match cs with
  | [] =>
    rw [hoistAll.children, liftList.children]
    constructor
    · intro cs1 r1 h
      simp only [Result.ok.injEq, Prod.mk.injEq] at h
      rw [← h.2]
      exact ⟨rfl, hc⟩
    · intro msg h; cases h
  | child :: rest =>
    obtain ⟨hb, hcons1, _⟩ := HasHoistableSubquery_consistent r.c.rule child hc
    rw [hoistAll.children, liftList.children, liftAll_append]
    cases hh : HasHoistableSubquery r.c.rule child with
    | mk b rule1 =>
      rw [hh] at hb hcons1
      simp only at hb hcons1
      cases b with
      | true =>
        rw [← hb]
        simp only [if_true]
        obtain ⟨h1, h2⟩ := hoistAll_liftAll (r.withRule rule1) child x hcons1
        rw [subqueryHoister.withRule_withRule] at h1 h2
        have hr : ({ r with c := { r.c with rule := rule1 } } : subqueryHoister) =
            r.withRule rule1 := rfl
        rw [hr]
        cases hch : hoistAll (r.withRule rule1) child with
        | panic msg =>
          simp only
          rw [h2 msg hch]
          exact ⟨(fun _ _ h => nomatch h), fun m h => by rw [← Result.panic.inj h]⟩
        | ok p =>
          obtain ⟨child1, r1⟩ := p
          obtain ⟨h3, h4⟩ := h1 child1 r1 hch
          simp only
          rw [h3]
          simp only
          obtain ⟨h5, h6⟩ := hoistAll.children_liftAll r1 rest x h4
          cases hrest : hoistAll.children r1 rest with
          | panic msg =>
            simp only
            exact ⟨(fun _ _ h => nomatch h),
              fun m h => by rw [← Result.panic.inj h]; exact h6 msg hrest⟩
          | ok q =>
            obtain ⟨rest1, r2⟩ := q
            simp only
            refine ⟨fun _ _ h => ?_, fun m h => nomatch h⟩
            simp only [Result.ok.injEq, Prod.mk.injEq] at h
            rw [← h.2]; exact h5 rest1 r2 hrest
      | false =>
        rw [← hb]
        simp only [Bool.false_eq_true, if_false, liftAll]
        have hr : ({ r with c := { r.c with rule := rule1 } } : subqueryHoister) =
            r.withRule rule1 := rfl
        rw [hr]
        obtain ⟨h5, h6⟩ := hoistAll.children_liftAll (r.withRule rule1) rest x hcons1
        rw [subqueryHoister.withRule_withRule] at h5 h6
        cases hrest : hoistAll.children (r.withRule rule1) rest with
        | panic msg =>
          simp only
          exact ⟨(fun _ _ h => nomatch h),
            fun m h => by rw [← Result.panic.inj h]; exact h6 msg hrest⟩
        | ok q =>
          obtain ⟨rest1, r2⟩ := q
          simp only
          refine ⟨fun _ _ h => ?_, fun m h => nomatch h⟩
          simp only [Result.ok.injEq, Prod.mk.injEq] at h
          rw [← h.2]; exact h5 rest1 r2 hrest
end

theorem LeftDeep.trans {base mid top : Expr} {s1 s2 : List Expr}
    (h1 : LeftDeep base s1 mid) (h2 : LeftDeep mid s2 top) : LeftDeep base (s1 ++ s2) top := by
  induction h2 with
  | base => simpa using h1
  | project scalar col _ ih => exact LeftDeep.project scalar col ih
  | join sub _ ih =>
    rw [← List.append_assoc]
    exact LeftDeep.join sub ih

theorem constructGroupByAny_hoisted (r r1 : subqueryHoister) (scalar : Expr) (cmp : Operator)
    (input sub : Expr) (h : constructGroupByAny r scalar cmp input = .ok (sub, r1)) :
    r1.hoisted = r.hoisted ∨ ∃ sc col, r1.hoisted = projectExtraCol r.hoisted sc col := by
  unfold constructGroupByAny at h
  simp only [cacheAnyScalar, subqueryHoister.AddColumn] at h
  by_cases hs : scalar.Operator ≠ .VariableOp ∧ scalar.Operator.IsConstValue = false
  · simp only [if_pos hs] at h
    split at h
    · cases h
    · simp only [Result.ok.injEq, Prod.mk.injEq] at h
      rw [← h.2]
      exact Or.inr ⟨_, _, rfl⟩
  · simp only [if_neg hs] at h
    split at h
    · cases h
    · simp only [Result.ok.injEq, Prod.mk.injEq] at h
      rw [← h.2]
      exact Or.inl rfl

theorem liftedRelation_hoisted (r r1 : subqueryHoister) (s child0 sub : Expr)
    (others : List Expr) (h : liftedRelation r s child0 others = .ok (sub, r1)) :
    r1.hoisted = r.hoisted ∨ ∃ sc col, r1.hoisted = projectExtraCol r.hoisted sc col := by
  unfold liftedRelation at h
  split at h
  · simp only [Result.ok.injEq] at h
    rw [← (constructGroupByExists_props r child0).2.2, h]
    exact Or.inl rfl
  · split at h
    · exact constructGroupByAny_hoisted _ _ _ _ _ _ h
    · cases h
  · simp only [Result.ok.injEq, Prod.mk.injEq] at h
    rw [← h.2]
    exact Or.inl rfl

theorem hoistCorrelated_chain (r r1 : subqueryHoister) (s e : Expr)
    (h : hoistCorrelated r s = .ok (e, r1)) :
    ∃ sub, LiftedFrom s sub ∧ LeftDeep r.hoisted [sub] r1.hoisted := by
  unfold hoistCorrelated at h
  split at h
  · cases h
  · rename_i child0 others hch
    split at h
    · cases h
    · rename_i sub r2 hbuilt
      simp only [Result.ok.injEq, Prod.mk.injEq] at h
      refine ⟨sub, ⟨r, r2, child0, others, hch, hbuilt⟩, ?_⟩
      rw [← h.2]
      have hj : ∀ prev, LeftDeep r.hoisted [] prev → LeftDeep r.hoisted ([] ++ [sub])
          (applyJoin prev sub) := fun prev hp => LeftDeep.join sub hp
      show LeftDeep r.hoisted ([] ++ [sub]) (applyJoin r2.hoisted sub)
      rcases liftedRelation_hoisted _ _ _ _ _ _ hbuilt with h2 | ⟨sc, col, h2⟩
      · rw [h2]
        exact hj r.hoisted LeftDeep.base
      · rw [h2]
        exact hj _ (LeftDeep.project sc col LeftDeep.base)

theorem liftAll_chain (r r1 : subqueryHoister) (l : List Expr) (h : liftAll r l = .ok r1) :
    ∃ subs, List.Forall₂ LiftedFrom l subs ∧ LeftDeep r.hoisted subs r1.hoisted := by
  induction l generalizing r with
  | nil =>
    simp only [liftAll, Result.ok.injEq] at h
    rw [← h]
    exact ⟨[], List.Forall₂.nil, LeftDeep.base⟩
  | cons s rest ih =>
    rw [liftAll] at h
    split at h
    · rename_i e ra hs
      obtain ⟨sub, h1, h2⟩ := hoistCorrelated_chain _ _ _ _ hs
      obtain ⟨subs, h3, h4⟩ := ih ra h
      exact ⟨sub :: subs, List.Forall₂.cons h1 h3, LeftDeep.trans h2 h4⟩
    · cases h

theorem ColSet.mem_Add (s : ColSet) (c a : Int) : a ∈ s.Add c ↔ a = c ∨ a ∈ s :=
  mem_insertElem c a s.elems

theorem ColSet.mem_foldr_Add (l : List Int) (t : ColSet) (a : Int) :
    a ∈ l.foldr (fun c u => u.Add c) t ↔ a ∈ l ∨ a ∈ t := by
  induction l with
  | nil =>
    simp only [List.foldr_nil]
    constructor
    · exact Or.inr
    · rintro (h | h)
      · cases h
      · exact h
  | cons x xs ih =>
    simp only [List.foldr_cons]
    rw [ColSet.mem_Add, ih]
    constructor
    · rintro (h | h | h)
      · exact Or.inl (by rw [h]; exact List.mem_cons_self _ _)
      · exact Or.inl (List.mem_cons_of_mem _ h)
      · exact Or.inr h
    · rintro (h | h)
      · rcases List.mem_cons.mp h with h | h
        · exact Or.inl h
        · exact Or.inr (Or.inl h)
      · exact Or.inr (Or.inr h)

theorem ColSet.mem_Union (s t : ColSet) (a : Int) : a ∈ s.Union t ↔ a ∈ s ∨ a ∈ t :=
  ColSet.mem_foldr_Add s.elems t a

theorem ColSet.mem_ofList (l : List Int) (a : Int) : a ∈ ColSet.ofList l ↔ a ∈ l := by
  unfold ColSet.ofList
  induction l with
  | nil =>
    simp only [List.foldr_nil, List.not_mem_nil, iff_false]
    intro h; cases h
  | cons x xs ih =>
    simp only [List.foldr_cons]
    rw [ColSet.mem_Add, ih, List.mem_cons]

theorem ColSet.contains_iff (s : ColSet) (a : Int) : s.Contains a = true ↔ a ∈ s := by
  simp [ColSet.Contains, Membership.mem]

theorem applyJoin_eval (db : Database) (prev sub : Expr) (env : Row)
    (h1 : AtMostOneRow db sub) (h2 : CardinalitySound db sub) :
    evalRel db (applyJoin prev sub) env =
      (evalRel db prev env).map (fun h => h ++ liftedRow db sub env h) := by
  have hstep : ∀ h : Row,
      (if (((evalRel db sub (h ++ env)).filter
          (fun rrow => evalScalar db ConstructTrue (h ++ rrow ++ env) == Datum.bool true)).map
          (fun rrow => h ++ rrow)).isEmpty then [h ++ nullRow sub.Logical.OutputCols]
        else ((evalRel db sub (h ++ env)).filter
          (fun rrow => evalScalar db ConstructTrue (h ++ rrow ++ env) == Datum.bool true)).map
          (fun rrow => h ++ rrow)) = [h ++ liftedRow db sub env h] := by
    intro h
    have hlen := h1 (h ++ env)
    simp only [evalScalar_True, beq_self_eq_true, List.filter_true, liftedRow]
    cases hr : evalRel db sub (h ++ env) with
    | nil => simp
    | cons x xs =>
      rw [hr] at hlen
      cases xs with
      | nil => simp
      | cons y ys => simp at hlen
  unfold applyJoin
  split
  · rw [evalRel_LeftJoinApply]
    simp only [hstep]
    induction evalRel db prev env with
    | nil => rfl
    | cons a as ih => simp [List.flatMap_cons, ih]
  · rename_i hz
    have hz2 : sub.Logical.Cardinality.CanBeZero = false := by simpa using hz
    rw [evalRel_InnerJoinApply]
    have hstep2 : ∀ h : Row,
        ((evalRel db sub (h ++ env)).filter
          (fun rrow => evalScalar db ConstructTrue (h ++ rrow ++ env) == Datum.bool true)).map
          (fun rrow => h ++ rrow) = [h ++ liftedRow db sub env h] := by
      intro h
      have := hstep h
      have hne := h2 hz2 (h ++ env)
      simp only [evalScalar_True, beq_self_eq_true, List.filter_true] at this ⊢
      cases hr : evalRel db sub (h ++ env) with
      | nil => exact absurd hr hne
      | cons x xs =>
        rw [hr] at this
        simpa using this
    simp only [hstep2]
    induction evalRel db prev env with
    | nil => rfl
    | cons a as ih => simp [List.flatMap_cons, ih]

theorem applyJoin_outputCols (prev sub : Expr) :
    (applyJoin prev sub).Logical.OutputCols =
      prev.Logical.OutputCols.Union sub.Logical.OutputCols := by
  unfold applyJoin
  split <;> rfl

theorem mem_nullRow (cols : ColSet) (p : ColumnID × Datum) (h : p ∈ nullRow cols) :
    p.1 ∈ cols := by
  simp only [nullRow, List.mem_map] at h
  obtain ⟨c, hc, rfl⟩ := h
  exact hc

theorem liftedRow_conforms (db : Database) (sub : Expr) (env h : Row) (hc : Conforms db sub)
    (p : ColumnID × Datum) (hp : p ∈ liftedRow db sub env h) : p.1 ∈ sub.Logical.OutputCols := by
  unfold liftedRow at hp
  cases hr : evalRel db sub (h ++ env) with
  | nil =>
    rw [hr] at hp
    exact mem_nullRow _ _ hp
  | cons x xs =>
    rw [hr] at hp
    exact hc (h ++ env) x (by rw [hr]; exact List.mem_cons_self _ _) p hp

theorem applyJoin_conforms (db : Database) (prev sub : Expr)
    (h1 : AtMostOneRow db sub) (h2 : CardinalitySound db sub) (h3 : Conforms db sub)
    (h4 : Conforms db prev) : Conforms db (applyJoin prev sub) := by
  intro env row hrow p hp
  rw [applyJoin_eval db prev sub env h1 h2, List.mem_map] at hrow
  obtain ⟨h, hh, rfl⟩ := hrow
  rw [applyJoin_outputCols, ColSet.mem_Union]
  rcases List.mem_append.mp hp with hp | hp
  · exact Or.inl (h4 env h hh p hp)
  · exact Or.inr (liftedRow_conforms db sub env h h3 p hp)

theorem projectExtraCol_eval (db : Database) (input extra : Expr) (col : ColumnID) (env : Row)
    (hc : Conforms db input) :
    evalRel db (projectExtraCol input extra col) env =
      (evalRel db input env).map (fun h => h ++ [(col, evalScalar db extra (h ++ env))]) := by
  unfold projectExtraCol
  rw [evalRel_Project]
  apply List.map_congr_left
  intro h hh
  have hf : h.filter (fun p => input.Logical.OutputCols.Contains p.1) = h := by
    rw [List.filter_eq_self]
    intro p hp
    exact (ColSet.contains_iff _ _).mpr (hc env h hh p hp)
  rw [hf, evalScalars_singleton]
  rfl

theorem projectExtraCol_conforms (db : Database) (input extra : Expr) (col : ColumnID)
    (hc : Conforms db input) : Conforms db (projectExtraCol input extra col) := by
  intro env row hrow p hp
  rw [projectExtraCol_eval db input extra col env hc, List.mem_map] at hrow
  obtain ⟨h, hh, rfl⟩ := hrow
  have hout : (projectExtraCol input extra col).Logical.OutputCols =
      input.Logical.OutputCols.Union (ColSet.ofList [col]) := rfl
  rw [hout, ColSet.mem_Union]
  rcases List.mem_append.mp hp with hp | hp
  · exact Or.inl (hc env h hh p hp)
  · right
    simp only [List.mem_singleton] at hp
    rw [hp, ColSet.mem_ofList]
    exact List.mem_singleton.mpr rfl

theorem OneRow.good {db : Database} {sub : Expr} (h : OneRow db sub) :
    AtMostOneRow db sub ∧ CardinalitySound db sub ∧ Conforms db sub := by
  refine ⟨?_, ?_, ?_⟩
  · intro env
    obtain ⟨x, hx, _⟩ := h env
    rw [hx]; exact le_refl _
  · intro _ env
    obtain ⟨x, hx, _⟩ := h env
    rw [hx]; exact List.cons_ne_nil _ _
  · intro env row hrow p hp
    obtain ⟨x, hx, hc⟩ := h env
    rw [hx, List.mem_singleton] at hrow
    rw [hrow] at hp
    exact hc p hp

theorem project_groupBy_oneRow (db : Database) (input : Expr) (aggs : List Expr)
    (cols : ColList) (grouping : ColSet) (elem : Expr) (c : ColumnID) :
    OneRow db (ConstructProject
      (ConstructScalarGroupBy input (ConstructAggregations aggs cols) grouping)
      (ConstructProjections [elem] [c] ∅)) := by
  intro env
  rw [evalRel_Project, evalRel_ScalarGroupBy]
  simp only [List.map_cons, List.map_nil, filter_contains_empty, List.nil_append,
    evalScalars_singleton, List.zip_cons_cons, List.zip_nil_right]
  refine ⟨_, rfl, ?_⟩
  intro p hp
  rw [List.mem_singleton] at hp
  rw [hp, (project_groupBy_props _ _ _ _ _ _).1, ColSet.mem_ofList]
  exact List.mem_singleton.mpr rfl

theorem constructGroupByExists_oneRow (db : Database) (r : subqueryHoister) (subquery : Expr) :
    OneRow db (constructGroupByExists r subquery).1 := by
  simp only [constructGroupByExists]
  exact project_groupBy_oneRow _ _ _ _ _ _ _

theorem constructGroupByAny_oneRow (db : Database) (r r1 : subqueryHoister) (scalar : Expr)
    (cmp : Operator) (input sub : Expr)
    (h : constructGroupByAny r scalar cmp input = .ok (sub, r1)) : OneRow db sub := by
  unfold constructGroupByAny at h
  simp only at h
  split at h
  · cases h
  · simp only [Result.ok.injEq, Prod.mk.injEq] at h
    rw [← h.1]
    exact project_groupBy_oneRow _ _ _ _ _ _ _

theorem hoistCorrelated_rows (db : Database) (r r1 : subqueryHoister) (s e : Expr)
    (h : hoistCorrelated r s = .ok (e, r1)) (hin : Conforms db r.hoisted)
    (hs : GoodSubquery db s) :
    Conforms db r1.hoisted ∧
      ∀ env, ∃ ext : Row → Row,
        evalRel db r1.hoisted env = (evalRel db r.hoisted env).map (fun h => h ++ ext h) := by
  unfold hoistCorrelated at h
  split at h
  · cases h
  · rename_i child0 others hch
    split at h
    · cases h
    · rename_i sub r2 hbuilt
      simp only [Result.ok.injEq, Prod.mk.injEq] at h
      have hr1 : r1.hoisted = applyJoin r2.hoisted sub := by rw [← h.2]; rfl
      have hgood : AtMostOneRow db sub ∧ CardinalitySound db sub ∧ Conforms db sub := by
        by_cases hE : s.Operator = .ExistsOp
        · simp only [liftedRelation, hE, Result.ok.injEq] at hbuilt
          have := constructGroupByExists_oneRow db r child0
          rw [hbuilt] at this
          exact this.good
        · by_cases hA : s.Operator = .AnyOp
          · simp only [liftedRelation, hA] at hbuilt
            split at hbuilt
            · exact (constructGroupByAny_oneRow db _ _ _ _ _ _ hbuilt).good
            · cases hbuilt
          · have hsub : sub = child0 := by
              unfold liftedRelation at hbuilt
              split at hbuilt
              · rename_i hop; exact absurd hop hE
              · rename_i hop; exact absurd hop hA
              · simp only [Result.ok.injEq, Prod.mk.injEq] at hbuilt
                exact hbuilt.1.symm
            rw [hsub]
            exact hs hE hA child0 others hch
      rw [hr1]
      rcases liftedRelation_hoisted _ _ _ _ _ _ hbuilt with h2 | ⟨sc, col, h2⟩
      · rw [h2]
        refine ⟨applyJoin_conforms db _ _ hgood.1 hgood.2.1 hgood.2.2 hin, fun env => ?_⟩
        exact ⟨_, applyJoin_eval db _ _ env hgood.1 hgood.2.1⟩
      · rw [h2]
        have hpc := projectExtraCol_conforms db r.hoisted sc col hin
        refine ⟨applyJoin_conforms db _ _ hgood.1 hgood.2.1 hgood.2.2 hpc, fun env => ?_⟩
        refine ⟨fun h => [(col, evalScalar db sc (h ++ env))] ++
          liftedRow db sub env (h ++ [(col, evalScalar db sc (h ++ env))]), ?_⟩
        rw [applyJoin_eval db _ _ env hgood.1 hgood.2.1,
          projectExtraCol_eval db r.hoisted sc col env hin, List.map_map]
        apply List.map_congr_left
        intro h _
        simp only [Function.comp, List.append_assoc]

theorem liftAll_rows (db : Database) (r r1 : subqueryHoister) (l : List Expr)
    (h : liftAll r l = .ok r1) (hin : Conforms db r.hoisted)
    (hs : ∀ s ∈ l, GoodSubquery db s) :
    Conforms db r1.hoisted ∧
      ∀ env, ∃ ext : Row → Row,
        evalRel db r1.hoisted env = (evalRel db r.hoisted env).map (fun h => h ++ ext h) := by
  induction l generalizing r with
  | nil =>
    simp only [liftAll, Result.ok.injEq] at h
    rw [← h]
    exact ⟨hin, fun env => ⟨fun _ => [], by simp⟩⟩
  | cons s rest ih =>
    rw [liftAll] at h
    split at h
    · rename_i e ra hsr
      obtain ⟨h1, h2⟩ := hoistCorrelated_rows db r ra s e hsr hin
        (hs s (List.mem_cons_self _ _))
      obtain ⟨h3, h4⟩ := ih ra h h1 (fun t ht => hs t (List.mem_cons_of_mem _ ht))
      refine ⟨h3, fun env => ?_⟩
      obtain ⟨ext1, he1⟩ := h2 env
      obtain ⟨ext2, he2⟩ := h4 env
      refine ⟨fun h => ext1 h ++ ext2 (h ++ ext1 h), ?_⟩
      rw [he2, he1, List.map_map]
      apply List.map_congr_left
      intro h _
      simp only [Function.comp, List.append_assoc]
    · cases h

theorem evalRel_exampleRel (db : Database) (n : Nat) (out outer : List Int)
    (card : Cardinality) (env : Row) :
    evalRel db (exampleRel n out outer card) env = db.rel (exampleRel n out outer card) env := by
  unfold exampleRel
  rw [evalRel]
  all_goals (intros; simp_all)

/-! ### Equivalence of the hoisted expression -/

/-! ### Lookups in concatenated rows -/

theorem Row.get_append_left (a b : Row) (u : ColumnID) (h : (a.lookup u).isSome = true) :
    Row.get (a ++ b) u = Row.get a u := by
  induction a with
  | nil => simp at h
  | cons p a ih =>
    obtain ⟨k, d⟩ := p
    by_cases hk : u = k
    · subst hk
      simp [Row.get, List.lookup]
    · have hb : (u == k) = false := by simpa using hk
      simp only [Row.get, List.cons_append, List.lookup, hb] at h ih ⊢
      exact ih h

theorem Row.get_append_right (a b : Row) (u : ColumnID) (h : ∀ p ∈ a, p.1 ≠ u) :
    Row.get (a ++ b) u = Row.get b u := by
  induction a with
  | nil => rfl
  | cons p a ih =>
    obtain ⟨k, d⟩ := p
    have hk : u ≠ k := fun e => h (k, d) (List.mem_cons_self _ _) e.symm
    have hb : (u == k) = false := by simpa using hk
    simp only [Row.get, List.cons_append, List.lookup, hb] at ih ⊢
    exact ih (fun p hp => h p (List.mem_cons_of_mem _ hp))

theorem Row.lookup_nullRow (cols : ColSet) (u : ColumnID) (h : u ∈ cols) :
    (nullRow cols).lookup u = some Datum.null := by
  have hm : u ∈ cols.elems := h
  unfold nullRow
  generalize cols.elems = l at hm
  induction l with
  | nil => simp at hm
  | cons x xs ih =>
    by_cases hx : u = x
    · subst hx; simp [List.lookup]
    · have hb : (u == x) = false := by simpa using hx
      simp only [List.map_cons, List.lookup, hb]
      exact ih (by simpa [hx] using hm)

theorem ColSet.Next_mem (s : ColSet) (k : Int) (h : (s.Next k).2 = true) : (s.Next k).1 ∈ s := by
  unfold ColSet.Next at h ⊢
  split at h
  · rename_i c hc
    simp only [hc]
    exact List.mem_of_find?_eq_some hc
  · simp at h

theorem ColSet.Next_singleton (c : Int) (h : 0 ≤ c) : (ColSet.ofList [c]).Next 0 = (c, true) := by
  have : (ColSet.ofList [c]).elems = [c] := rfl
  simp [ColSet.Next, this, h]

/-- The rows of a hoister that is ready do not bind a column that is not among
its output columns. -/
theorem not_bound_of_not_out (db : Database) (e : Expr) (hc : Conforms db e) (env h : Row)
    (hh : h ∈ evalRel db e env) (u : ColumnID) (hu : u ∉ e.Logical.OutputCols) :
    ∀ p ∈ h, p.1 ≠ u :=
  fun p hp e1 => hu (e1 ▸ hc env h hh p hp)

theorem constructGroupByExists_rows (db : Database) (r : subqueryHoister) (S : Expr) (env : Row) :
    evalRel db (constructGroupByExists r S).1 env =
      [[((r.c.md.cols.length : Int) + 3, Datum.bool (!(evalRel db S env).isEmpty))]] := by
  simp only [constructGroupByExists, subqueryHoister.AddColumn, Metadata.AddColumn]
  rw [evalRel_Project, evalRel_ScalarGroupBy, evalRel_Project, evalAggs_ConstAgg]
  simp only [filter_contains_empty, List.nil_append, evalScalars_singleton, evalScalar_True,
    evalScalar_IsNot, evalScalar_Variable, evalScalar_Null, List.map_map, Function.comp_def,
    List.zip_cons_cons, List.zip_nil_right, List.map_cons, List.map_nil, List.cons_append,
    Row.get_cons_self, List.length_append, List.length_cons, List.length_nil]
  generalize evalRel db S env = rows
  cases rows with
  | nil => simp [constAgg]; ring
  | cons row rest => simp [constAgg]; ring

theorem constructGroupByExists_md (r : subqueryHoister) (S : Expr) :
    (constructGroupByExists r S).2.mdLen = r.mdLen + 3 ∧
      (constructGroupByExists r S).2.c.rule = r.c.rule := by
  simp only [constructGroupByExists, subqueryHoister.AddColumn, Metadata.AddColumn,
    subqueryHoister.mdLen, List.length_append, List.length_cons, List.length_nil]
  refine ⟨?_, trivial⟩
  push_cast; ring

/-- After the apply join of a relation to the input, the variable of its first
column reads, in every extended row, the value a scalar subquery over the
relation has in the row. -/
theorem join_step (db : Database) (prev sub : Expr) (hprev : Conforms db prev)
    (hu : firstCol sub ∈ sub.Logical.OutputCols)
    (hnot : firstCol sub ∉ prev.Logical.OutputCols) (hbind : BindsFirst db sub)
    (env h : Row) (hh : h ∈ evalRel db prev env) (y : Row) :
    evalScalar db (ConstructVariable (firstCol sub)) (h ++ (liftedRow db sub env h ++ y) ++ env) =
      match evalRel db sub (h ++ env) with
      | [] => Datum.null
      | row :: _ => row.get (firstCol sub) := by
  rw [evalScalar_Variable, List.append_assoc,
    Row.get_append_right _ _ _ (not_bound_of_not_out db prev hprev env h hh _ hnot),
    List.append_assoc]
  unfold liftedRow
  cases hrows : evalRel db sub (h ++ env) with
  | nil =>
    simp only [List.headD_nil]
    rw [Row.get_append_left _ _ _ (by rw [Row.lookup_nullRow _ _ hu]; rfl)]
    simp [Row.get, Row.lookup_nullRow _ _ hu]
  | cons row rest =>
    simp only [List.headD_cons]
    exact Row.get_append_left _ _ _ (hbind (h ++ env) row (by rw [hrows]; exact List.mem_cons_self _ _))

theorem Extends.of_join (db : Database) (C : ColumnID → Prop) (r r0 : subqueryHoister)
    (sub : Expr) (outs : List ColumnID) (P : Row → Row → Row → Prop)
    (hr0 : Conforms db r0.hoisted)
    (hgood : AtMostOneRow db sub ∧ CardinalitySound db sub ∧ Conforms db sub)
    (hreg : ∀ c ∈ (applyJoin r0.hoisted sub).Logical.OutputCols, c ≤ r0.mdLen)
    (hnew : ∀ c ∈ (applyJoin r0.hoisted sub).Logical.OutputCols,
      c ∈ r.hoisted.Logical.OutputCols ∨ c ∈ outs ∨ r.mdLen < c)
    (hmd : r.mdLen ≤ r0.mdLen)
    (hC : ∀ c ∈ sub.Logical.OutputCols, C c)
    (pre : Row → Row → Row)
    (hpreC : ∀ env, ∀ h ∈ evalRel db r.hoisted env, ∀ p ∈ pre env h, C p.1)
    (hrows : ∀ env, evalRel db r0.hoisted env =
      (evalRel db r.hoisted env).map (fun h => h ++ pre env h))
    (hP : ∀ env, ∀ h ∈ evalRel db r.hoisted env, ∀ y : Row, (∀ p ∈ y, C p.1) →
      P env h ((pre env h ++ liftedRow db sub env (h ++ pre env h)) ++ y)) :
    Extends db C r { r0 with hoisted := applyJoin r0.hoisted sub } outs P := by
  refine ⟨applyJoin_conforms db _ _ hgood.1 hgood.2.1 hgood.2.2 hr0, hreg, hnew, hmd, fun env => ?_⟩
  refine ⟨fun h => pre env h ++ liftedRow db sub env (h ++ pre env h), ?_, ?_, ?_⟩
  · intro h hh p hp
    rcases List.mem_append.mp hp with hp | hp
    · exact hpreC env h hh p hp
    · exact hC _ (liftedRow_conforms db sub env _ hgood.2.2 p hp)
  · show evalRel db (applyJoin r0.hoisted sub) env = _
    rw [applyJoin_eval db _ _ env hgood.1 hgood.2.1, hrows env, List.map_map]
    apply List.map_congr_left
    intro h _
    simp only [Function.comp, List.append_assoc]
  · intro h hh y hy
    exact hP env h hh y hy

theorem cacheAnyScalar_spec (r : subqueryHoister) (scalar : Expr) :
    ((cacheAnyScalar r scalar).1 = scalar ∧ (cacheAnyScalar r scalar).2 = r) ∨
    ((cacheAnyScalar r scalar).1 = ConstructVariable (r.mdLen + 1) ∧
      (cacheAnyScalar r scalar).2.hoisted = projectExtraCol r.hoisted scalar (r.mdLen + 1) ∧
      (cacheAnyScalar r scalar).2.mdLen = r.mdLen + 1 ∧
      (cacheAnyScalar r scalar).2.c.rule = r.c.rule) := by
  unfold cacheAnyScalar
  by_cases hs : scalar.Operator ≠ .VariableOp ∧ scalar.Operator.IsConstValue = false
  · rw [if_pos hs]
    refine Or.inr ⟨rfl, rfl, ?_, rfl⟩
    simp only [subqueryHoister.AddColumn, Metadata.AddColumn, subqueryHoister.mdLen,
      List.length_append, List.length_cons, List.length_nil]
    push_cast; ring
  · rw [if_neg hs]
    exact Or.inl ⟨rfl, rfl⟩

theorem constructGroupByAny_out (r : subqueryHoister) (scalar : Expr) (cmp : Operator)
    (input sub : Expr) (r1 : subqueryHoister)
    (h : constructGroupByAny r scalar cmp input = .ok (sub, r1)) :
    sub.Logical.OutputCols = ColSet.ofList [(cacheAnyScalar r scalar).2.mdLen + 3] ∧
      r1.hoisted = (cacheAnyScalar r scalar).2.hoisted ∧
      r1.mdLen = (cacheAnyScalar r scalar).2.mdLen + 3 ∧
      r1.c.rule = (cacheAnyScalar r scalar).2.c.rule := by
  unfold constructGroupByAny at h
  generalize cacheAnyScalar r scalar = cached at h ⊢
  obtain ⟨scalar1, r0⟩ := cached
  simp only at h
  split at h
  · cases h
  · simp only [Result.ok.injEq, Prod.mk.injEq] at h
    have hcol : (((r0.AddColumn "notnull" Typ.Bool).1.AddColumn "bool_or" Typ.Bool).1.AddColumn
        "case" Typ.Bool).2 = r0.mdLen + 3 := by
      simp only [subqueryHoister.AddColumn, Metadata.AddColumn, subqueryHoister.mdLen,
        List.length_append, List.length_cons, List.length_nil]
      push_cast; ring
    rw [← h.1, ← h.2]
    refine ⟨?_, rfl, ?_, rfl⟩
    · rw [(project_groupBy_props _ _ _ _ _ _).1]
      rw [hcol]
    · simp only [subqueryHoister.AddColumn, Metadata.AddColumn, subqueryHoister.mdLen,
        List.length_append, List.length_cons, List.length_nil]
      push_cast; ring

theorem hoistCorrelated_plain (db : Database) (C : ColumnID → Prop)
    (r : subqueryHoister) (child0 : Expr) (others : List Expr) (priv : Private) (l : Logical)
    (h1 : AtMostOneRow db child0) (h2 : CardinalitySound db child0) (h3 : Conforms db child0)
    (h4 : BindsFirst db child0) (h5 : (child0.Logical.OutputCols.Next 0).2 = true)
    (h6 : ∀ c ∈ child0.Logical.OutputCols, C c)
    (hr : Ready db r child0.Logical.OutputCols.elems) :
    ∃ e1 r1, hoistCorrelated r (.mk .SubqueryOp (child0 :: others) priv l) = .ok (e1, r1) ∧
      r1.c.rule = r.c.rule ∧
      Extends db C r r1 child0.Logical.OutputCols.elems (fun env h x =>
        evalScalar db e1 (h ++ x ++ env) =
          evalScalar db (.mk .SubqueryOp (child0 :: others) priv l) (h ++ env)) := by
  obtain ⟨hconf, hreg, hout, _⟩ := hr
  have hu : firstCol child0 ∈ child0.Logical.OutputCols := ColSet.Next_mem _ _ h5
  refine ⟨ConstructVariable (firstCol child0),
    { r with hoisted := applyJoin r.hoisted child0 }, rfl, rfl, ?_⟩
  refine Extends.of_join db C r r child0 _ _ hconf ⟨h1, h2, h3⟩ ?_ ?_ le_rfl h6
    (fun _ _ => []) (fun _ _ _ p hp => by cases hp) (fun env => by simp) ?_
  · intro c hc
    rw [applyJoin_outputCols, ColSet.mem_Union] at hc
    rcases hc with hc | hc
    · exact hreg c hc
    · exact (hout c hc).2
  · intro c hc
    rw [applyJoin_outputCols, ColSet.mem_Union] at hc
    rcases hc with hc | hc
    · exact Or.inl hc
    · exact Or.inr (Or.inl hc)
  · intro env h hh y _
    simp only [List.nil_append, List.append_nil]
    rw [join_step db r.hoisted child0 hconf hu (hout _ hu).1 h4 env h hh y]
    rw [evalScalar]
    rfl

theorem hoistCorrelated_exists (db : Database) (C : ColumnID → Prop) (md0 : Int)
    (r : subqueryHoister) (child0 : Expr) (others : List Expr) (priv : Private) (l : Logical)
    (hfresh : ∀ c, md0 < c → C c) (hmd : md0 ≤ r.mdLen)
    (hr : Ready db r []) :
    ∃ e1 r1, hoistCorrelated r (.mk .ExistsOp (child0 :: others) priv l) = .ok (e1, r1) ∧
      r1.c.rule = r.c.rule ∧
      Extends db C r r1 [] (fun env h x =>
        evalScalar db e1 (h ++ x ++ env) =
          evalScalar db (.mk .ExistsOp (child0 :: others) priv l) (h ++ env)) := by
  obtain ⟨hconf, hreg, _, _⟩ := hr
  have hlen : (0 : Int) ≤ r.mdLen := by simp [subqueryHoister.mdLen]
  obtain ⟨hout, hcard, hhoist⟩ := constructGroupByExists_props r child0
  obtain ⟨hmdl, hrule⟩ := constructGroupByExists_md r child0
  have hout1 : (constructGroupByExists r child0).1.Logical.OutputCols =
      ColSet.ofList [r.mdLen + 3] := by
    have e : (r.c.md.cols.length : Int) + 1 + 1 + 1 = r.mdLen + 3 := by
      simp only [subqueryHoister.mdLen]; ring
    rw [hout, e]
  have hfirst : firstCol (constructGroupByExists r child0).1 = r.mdLen + 3 := by
    unfold firstCol
    rw [hout1, ColSet.Next_singleton _ (by omega)]
  have hone := constructGroupByExists_oneRow db r child0
  have hrows : ∀ env, evalRel db (constructGroupByExists r child0).1 env =
      [[(r.mdLen + 3, Datum.bool (!(evalRel db child0 env).isEmpty))]] :=
    fun env => constructGroupByExists_rows db r child0 env
  have hu : firstCol (constructGroupByExists r child0).1 ∈
      (constructGroupByExists r child0).1.Logical.OutputCols := by
    rw [hfirst, hout1, ColSet.mem_ofList]; exact List.mem_singleton.mpr rfl
  have hnot : firstCol (constructGroupByExists r child0).1 ∉
      (constructGroupByExists r child0).2.hoisted.Logical.OutputCols := by
    rw [hfirst, hhoist]
    intro hc
    have := hreg _ hc
    omega
  have hbind : BindsFirst db (constructGroupByExists r child0).1 := by
    intro env row hrow
    rw [hrows env, List.mem_singleton] at hrow
    rw [hrow, hfirst]
    simp [List.lookup]
  have hconf2 : Conforms db (constructGroupByExists r child0).2.hoisted := by rw [hhoist]; exact hconf
  refine ⟨ConstructVariable (firstCol (constructGroupByExists r child0).1),
    { (constructGroupByExists r child0).2 with
      hoisted := applyJoin (constructGroupByExists r child0).2.hoisted
        (constructGroupByExists r child0).1 }, rfl, hrule, ?_⟩
  refine Extends.of_join db C r _ _ _ _ hconf2 hone.good ?_ ?_ (by rw [hmdl]; omega) ?_
    (fun _ _ => []) (fun _ _ _ p hp => by cases hp) (fun env => by rw [hhoist]; simp) ?_
  · intro c hc
    rw [applyJoin_outputCols, ColSet.mem_Union, hhoist, hout1, ColSet.mem_ofList,
      List.mem_singleton] at hc
    rw [hmdl]
    rcases hc with hc | hc
    · have := hreg c hc; omega
    · omega
  · intro c hc
    rw [applyJoin_outputCols, ColSet.mem_Union, hhoist, hout1, ColSet.mem_ofList,
      List.mem_singleton] at hc
    rcases hc with hc | hc
    · exact Or.inl hc
    · exact Or.inr (Or.inr (by omega))
  · intro c hc
    rw [hout1, ColSet.mem_ofList, List.mem_singleton] at hc
    exact hfresh c (by omega)
  · intro env h hh y _
    simp only [List.nil_append, List.append_nil]
    have hh2 : h ∈ evalRel db (constructGroupByExists r child0).2.hoisted env := by
      rw [hhoist]; exact hh
    rw [join_step db _ _ hconf2 hu hnot hbind env h hh2 y, hrows (h ++ env)]
    simp only [hfirst, Row.get_cons_self]
    rw [evalScalar]

theorem constructGroupByAny_single (db : Database) (r r1 : subqueryHoister) (scalar : Expr)
    (cmp : Operator) (input sub : Expr)
    (h : constructGroupByAny r scalar cmp input = .ok (sub, r1)) (env : Row) :
    ∃ c v, evalRel db sub env = [[(c, v)]] := by
  unfold constructGroupByAny at h
  simp only at h
  split at h
  · cases h
  · simp only [Result.ok.injEq, Prod.mk.injEq] at h
    rw [← h.1, evalRel_Project, evalRel_ScalarGroupBy]
    simp only [List.map_cons, List.map_nil, filter_contains_empty, List.nil_append,
      evalScalars_singleton, List.zip_cons_cons, List.zip_nil_right]
    exact ⟨_, _, rfl⟩

theorem constructGroupByAny_value (db : Database) (r r1 : subqueryHoister) (scalar : Expr)
    (n : Nat) (child0 sub : Expr) (rest : List Expr) (l : Logical) (env1 env0 : Row)
    (hlen : child0.Logical.OutputCols.Len = 1) (hnp : NullPropagating db n)
    (hb : BindsFirst db child0)
    (hrel : evalRel db child0 env1 = evalRel db child0 env0)
    (hz : ∀ row : Row, (row ∈ evalRel db child0 env1 ∨
        ∃ b, row = [((cacheAnyScalar r scalar).2.mdLen + 2, b)]) →
      evalScalar db (cacheAnyScalar r scalar).1 (row ++ env1) = evalScalar db scalar env0)
    (hbuilt : constructGroupByAny r scalar (.OtherScalarOp n) child0 = .ok (sub, r1)) :
    evalRel db sub env1 =
      [[((cacheAnyScalar r scalar).2.mdLen + 3,
        evalScalar db (.mk .AnyOp (child0 :: scalar :: rest) (.operator (.OtherScalarOp n)) l)
          env0)]] := by
  obtain ⟨sub2, r2, hb2, hrows⟩ := constructGroupByAny_rows db r scalar n child0 env1
    (evalScalar db scalar env0) hlen (fun row hrow => hb env1 row hrow) hnp.1 hnp.2 hz
  rw [hbuilt] at hb2
  simp only [Result.ok.injEq, Prod.mk.injEq] at hb2
  rw [hb2.1, hrows, hrel]
  rw [evalScalar]
  rfl

theorem hoistCorrelated_any (db : Database) (C : ColumnID → Prop) (md0 : Int)
    (r : subqueryHoister) (child0 scalar : Expr) (rest : List Expr) (n : Nat) (l : Logical)
    (hfresh : ∀ c, md0 < c → C c) (hmd : md0 ≤ r.mdLen)
    (hlen : child0.Logical.OutputCols.Len = 1) (hnp : NullPropagating db n)
    (hb : BindsFirst db child0) (hc : Conforms db child0)
    (hcC : ∀ c ∈ child0.Logical.OutputCols, C c ∧ c ≤ md0)
    (hir : IndepRel db C child0) (his : IndepScalar db C scalar)
    (hr : Ready db r []) :
    ∃ e1 r1, hoistCorrelated r
        (.mk .AnyOp (child0 :: scalar :: rest) (.operator (.OtherScalarOp n)) l) = .ok (e1, r1) ∧
      r1.c.rule = r.c.rule ∧
      Extends db C r r1 [] (fun env h x =>
        evalScalar db e1 (h ++ x ++ env) =
          evalScalar db (.mk .AnyOp (child0 :: scalar :: rest) (.operator (.OtherScalarOp n)) l)
            (h ++ env)) := by
  obtain ⟨hconf, hreg, _, _⟩ := hr
  have hlen0 : (0 : Int) ≤ r.mdLen := by simp [subqueryHoister.mdLen]
  have hex : ∃ sub r1, constructGroupByAny r scalar (.OtherScalarOp n) child0 = .ok (sub, r1) := by
    unfold constructGroupByAny
    simp only [referenceSingleColumn_ok child0 hlen]
    exact ⟨_, _, rfl⟩
  obtain ⟨sub, r1, hbuilt⟩ := hex
  obtain ⟨hout, hhoist, hmdl, hrule⟩ := constructGroupByAny_out r scalar _ child0 sub r1 hbuilt
  have hone := constructGroupByAny_oneRow db r r1 scalar _ child0 sub hbuilt
  have hstep : hoistCorrelated r
      (.mk .AnyOp (child0 :: scalar :: rest) (.operator (.OtherScalarOp n)) l) =
      .ok (ConstructVariable (firstCol sub), { r1 with hoisted := applyJoin r1.hoisted sub }) := by
    simp only [hoistCorrelated, Expr.children, liftedRelation, Expr.Operator, Expr.Private, hbuilt]
    rfl
  have hcm : r.mdLen ≤ (cacheAnyScalar r scalar).2.mdLen ∧
      (cacheAnyScalar r scalar).2.c.rule = r.c.rule := by
    rcases cacheAnyScalar_spec r scalar with ⟨_, h2⟩ | ⟨_, _, h3, h4⟩
    · rw [h2]; exact ⟨le_rfl, rfl⟩
    · exact ⟨by omega, h4⟩
  have hfirst : firstCol sub = (cacheAnyScalar r scalar).2.mdLen + 3 := by
    unfold firstCol
    rw [hout, ColSet.Next_singleton _ (by omega)]
  have hu : firstCol sub ∈ sub.Logical.OutputCols := by
    rw [hfirst, hout, ColSet.mem_ofList]; exact List.mem_singleton.mpr rfl
  have hsubC : ∀ c ∈ sub.Logical.OutputCols, C c := by
    intro c hc
    rw [hout, ColSet.mem_ofList, List.mem_singleton] at hc
    exact hfresh c (by omega)
  have hbind : BindsFirst db sub := by
    intro env row hrow
    obtain ⟨x, hx, hxc⟩ := hone env
    obtain ⟨c, v, hcv⟩ := constructGroupByAny_single db r r1 scalar _ child0 sub hbuilt env
    rw [hcv, List.mem_singleton] at hrow
    rw [hcv] at hx
    have hx1 : x = [(c, v)] := by simpa using hx.symm
    have hcm := hxc (c, v) (by rw [hx1]; exact List.mem_singleton.mpr rfl)
    rw [hout, ColSet.mem_ofList, List.mem_singleton] at hcm
    simp only at hcm
    rw [hrow, hfirst, hcm]
    simp [List.lookup]
  refine ⟨_, _, hstep, by rw [hrule]; exact hcm.2, ?_⟩
  have hrowC : ∀ env1, ∀ row : Row, (row ∈ evalRel db child0 env1 ∨
      ∃ b, row = [((cacheAnyScalar r scalar).2.mdLen + 2, b)]) →
      ∀ p ∈ row, C p.1 ∧ (p.1 ≤ md0 ∨ p.1 = (cacheAnyScalar r scalar).2.mdLen + 2) := by
    intro env1 row hrow p hp
    rcases hrow with hrow | ⟨b, hrow⟩
    · have := hcC p.1 (hc env1 row hrow p hp)
      exact ⟨this.1, Or.inl this.2⟩
    · rw [hrow, List.mem_singleton] at hp
      rw [hp]
      exact ⟨hfresh _ (by simp only; omega), Or.inr rfl⟩
  rcases cacheAnyScalar_spec r scalar with ⟨h1, h2⟩ | ⟨h1, h2, h3, h4⟩
  · -- the scalar is a variable or a constant: nothing is cached
    have hh0 : r1.hoisted = r.hoisted := by rw [hhoist, h2]
    have hm0 : r1.mdLen = r.mdLen + 3 := by rw [hmdl, h2]
    have hconf1 : Conforms db r1.hoisted := by rw [hh0]; exact hconf
    have hnot : firstCol sub ∉ r1.hoisted.Logical.OutputCols := by
      rw [hfirst, hh0, h2]
      intro hcc
      have := hreg _ hcc
      omega
    refine Extends.of_join db C r r1 sub [] _ hconf1 hone.good ?_ ?_ (by omega) hsubC
      (fun _ _ => []) (fun _ _ _ p hp => by cases hp) (fun env => by rw [hh0]; simp) ?_
    · intro c hcc
      rw [applyJoin_outputCols, ColSet.mem_Union, hh0, hout, ColSet.mem_ofList,
        List.mem_singleton] at hcc
      rcases hcc with hcc | hcc
      · have := hreg c hcc; omega
      · omega
    · intro c hcc
      rw [applyJoin_outputCols, ColSet.mem_Union, hh0, hout, ColSet.mem_ofList,
        List.mem_singleton, h2] at hcc
      rcases hcc with hcc | hcc
      · exact Or.inl hcc
      · exact Or.inr (Or.inr (by omega))
    · intro env h hh y _
      simp only [List.nil_append, List.append_nil]
      have hh2 : h ∈ evalRel db r1.hoisted env := by rw [hh0]; exact hh
      rw [join_step db _ _ hconf1 hu hnot hbind env h hh2 y,
        constructGroupByAny_value db r r1 scalar n child0 sub rest l (h ++ env) (h ++ env)
          hlen hnp hb rfl ?_ hbuilt]
      · simp only [hfirst, Row.get_cons_self]
      · intro row hrow
        rw [h1]
        have := his [] row (h ++ env) (fun p hp => (hrowC _ row hrow p hp).1)
        simpa using this
  · -- the scalar is cached in a column projected on the input
    have hout0 : ∀ c, c ∈ (projectExtraCol r.hoisted scalar (r.mdLen + 1)).Logical.OutputCols ↔
        c ∈ r.hoisted.Logical.OutputCols ∨ c = r.mdLen + 1 := by
      intro c
      have hout1 : (projectExtraCol r.hoisted scalar (r.mdLen + 1)).Logical.OutputCols =
          r.hoisted.Logical.OutputCols.Union (ColSet.ofList [r.mdLen + 1]) := rfl
      rw [hout1, ColSet.mem_Union, ColSet.mem_ofList, List.mem_singleton]
    have hh0 : r1.hoisted = projectExtraCol r.hoisted scalar (r.mdLen + 1) := by rw [hhoist, h2]
    have hm0 : r1.mdLen = r.mdLen + 4 := by rw [hmdl, h3]; ring
    have hconf1 : Conforms db r1.hoisted := by
      rw [hh0]; exact projectExtraCol_conforms db _ _ _ hconf
    have hnot : firstCol sub ∉ r1.hoisted.Logical.OutputCols := by
      rw [hfirst, hh0, hout0, h3]
      rintro (hcc | hcc)
      · have := hreg _ hcc
        omega
      · omega
    have hk : C (r.mdLen + 1) := hfresh _ (by omega)
    have hrows : ∀ env, evalRel db r1.hoisted env = (evalRel db r.hoisted env).map
        (fun h => h ++ [(r.mdLen + 1, evalScalar db scalar (h ++ env))]) := by
      intro env
      rw [hh0, projectExtraCol_eval db _ _ _ env hconf]
    refine Extends.of_join db C r r1 sub [] _ hconf1 hone.good ?_ ?_ (by omega) hsubC
      (fun env h => [(r.mdLen + 1, evalScalar db scalar (h ++ env))]) ?_ hrows ?_
    · intro c hcc
      rw [applyJoin_outputCols, ColSet.mem_Union, hh0, hout0, hout, ColSet.mem_ofList,
        List.mem_singleton] at hcc
      rcases hcc with (hcc | hcc) | hcc
      · have := hreg c hcc; omega
      · omega
      · omega
    · intro c hcc
      rw [applyJoin_outputCols, ColSet.mem_Union, hh0, hout0, hout, ColSet.mem_ofList,
        List.mem_singleton] at hcc
      rcases hcc with (hcc | hcc) | hcc
      · exact Or.inl hcc
      · exact Or.inr (Or.inr (by omega))
      · exact Or.inr (Or.inr (by omega))
    · intro env h _ p hp
      rw [List.mem_singleton] at hp
      rw [hp]; exact hk
    · intro env h hh y _
      have hh2 : h ++ [(r.mdLen + 1, evalScalar db scalar (h ++ env))] ∈
          evalRel db r1.hoisted env := by
        rw [hrows env]; exact List.mem_map.mpr ⟨h, hh, rfl⟩
      have hassoc : h ++ (([(r.mdLen + 1, evalScalar db scalar (h ++ env))] ++
            liftedRow db sub env (h ++ [(r.mdLen + 1, evalScalar db scalar (h ++ env))])) ++ y) ++
            env =
          (h ++ [(r.mdLen + 1, evalScalar db scalar (h ++ env))]) ++
            (liftedRow db sub env (h ++ [(r.mdLen + 1, evalScalar db scalar (h ++ env))]) ++ y) ++
            env := by
        simp only [List.append_assoc]
      rw [hassoc, join_step db _ _ hconf1 hu hnot hbind env _ hh2 y,
        constructGroupByAny_value db r r1 scalar n child0 sub rest l _ (h ++ env)
          hlen hnp hb ?_ ?_ hbuilt]
      · simp only [hfirst, Row.get_cons_self]
      · have := hir h [(r.mdLen + 1, evalScalar db scalar (h ++ env))] env
          (fun p hp => by rw [List.mem_singleton] at hp; rw [hp]; exact hk)
        exact this
      · intro row hrow
        rw [h1, evalScalar_Variable]
        have hrow1 : ∀ p ∈ row, p.1 ≠ r.mdLen + 1 := by
          intro p hp hpe
          have hcase := (hrowC _ row hrow p hp).2
          rw [hpe] at hcase
          rcases hcase with hle | heq
          · have hle2 : (r.mdLen + 1 : Int) ≤ md0 := hle
            omega
          · have heq2 : (r.mdLen + 1 : Int) = (cacheAnyScalar r scalar).2.mdLen + 2 := heq
            omega
        have hh1 : ∀ p ∈ h, p.1 ≠ r.mdLen + 1 := by
          intro p hp hpe
          have := hreg _ (hconf env h hh p hp)
          rw [hpe] at this
          omega
        rw [Row.get_append_right _ _ _ hrow1, List.append_assoc,
          Row.get_append_right _ _ _ hh1]
        exact Row.get_append_singleton _ _ _
theorem hoistCorrelated_extends (db : Database) (C : ColumnID → Prop) (md0 : Int)
    (r : subqueryHoister) (s : Expr) (hfresh : ∀ c, md0 < c → C c) (hmd : md0 ≤ r.mdLen)
    (hop : s.Operator.IsSubquery = true) (hg : GoodLifted db C md0 s)
    (hr : Ready db r (liftedOut s)) :
    ∃ e1 r1, hoistCorrelated r s = .ok (e1, r1) ∧ r1.c.rule = r.c.rule ∧
      Extends db C r r1 (liftedOut s) (fun env h x =>
        evalScalar db e1 (h ++ x ++ env) = evalScalar db s (h ++ env)) := by
  obtain ⟨op, cs, priv, l⟩ := s
  obtain ⟨child0, others, hch, hm⟩ := hg
  simp only [Expr.children] at hch
  subst hch
  simp only [Expr.Operator, Operator.IsSubquery, decide_eq_true_eq] at hop
  rcases hop with rfl | rfl | rfl
  · simp only [Expr.Operator] at hm
    obtain ⟨h1, h2, h3, h4, h5, h6⟩ := hm
    exact hoistCorrelated_plain db C r child0 others priv l h1 h2 h3 h4 h5 h6 hr
  · exact hoistCorrelated_exists db C md0 r child0 others priv l hfresh hmd hr
  · simp only [Expr.Operator, Expr.Private] at hm
    obtain ⟨scalar, rest, n, ho, hp, h1, h2, h3, h4, h5, h6, h7⟩ := hm
    subst ho
    subst hp
    exact hoistCorrelated_any db C md0 r child0 scalar rest n l hfresh hmd h1 h2 h3 h4 h5 h6 h7 hr

theorem Extends.mono {db : Database} {C : ColumnID → Prop} {r r1 : subqueryHoister}
    {outs : List ColumnID} {P Q : Row → Row → Row → Prop} (h : Extends db C r r1 outs P)
    (hPQ : ∀ env, ∀ h ∈ evalRel db r.hoisted env, ∀ x : Row, (∀ p ∈ x, C p.1) →
      P env h x → Q env h x) :
    Extends db C r r1 outs Q := by
  obtain ⟨h1, h2, h3, h4, h5⟩ := h
  refine ⟨h1, h2, h3, h4, fun env => ?_⟩
  obtain ⟨ext, e1, e2, e3⟩ := h5 env
  refine ⟨ext, e1, e2, fun h hh y hy => hPQ env h hh _ ?_ (e3 h hh y hy)⟩
  intro p hp
  rcases List.mem_append.mp hp with hp | hp
  · exact e1 h hh p hp
  · exact hy p hp

theorem Extends.refl {db : Database} {C : ColumnID → Prop} {r : subqueryHoister}
    {P : Row → Row → Row → Prop} (hr : Ready db r [])
    (hP : ∀ env, ∀ h ∈ evalRel db r.hoisted env, ∀ y : Row, (∀ p ∈ y, C p.1) → P env h y) :
    Extends db C r r [] P := by
  refine ⟨hr.1, hr.2.1, fun c hc => Or.inl hc, le_rfl, fun env => ?_⟩
  refine ⟨fun _ => [], ?_, ?_, fun h hh y hy => hP env h hh y hy⟩
  · intro _ _ p hp
    cases hp
  · simp

theorem Extends.seq {db : Database} {C : ColumnID → Prop} {r r1 r2 : subqueryHoister}
    {l1 l2 : List ColumnID} {P1 P2 P12 : Row → Row → Row → Prop}
    (h1 : Extends db C r r1 l1 P1) (h2 : Extends db C r1 r2 l2 P2)
    (hP : ∀ env, ∀ h ∈ evalRel db r.hoisted env, ∀ x1 x2 : Row,
      (∀ p ∈ x1, C p.1) → (∀ p ∈ x2, C p.1) →
      P1 env h (x1 ++ x2) → P2 env (h ++ x1) x2 → P12 env h (x1 ++ x2)) :
    Extends db C r r2 (l1 ++ l2) P12 := by
  obtain ⟨_, _, a3, a4, a5⟩ := h1
  obtain ⟨b1, b2, b3, b4, b5⟩ := h2
  refine ⟨b1, b2, ?_, le_trans a4 b4, fun env => ?_⟩
  · intro c hc
    rcases b3 c hc with hc | hc | hc
    · rcases a3 c hc with hc | hc | hc
      · exact Or.inl hc
      · exact Or.inr (Or.inl (List.mem_append_left _ hc))
      · exact Or.inr (Or.inr hc)
    · exact Or.inr (Or.inl (List.mem_append_right _ hc))
    · exact Or.inr (Or.inr (lt_of_le_of_lt a4 hc))
  · obtain ⟨ext1, e1, e2, e3⟩ := a5 env
    obtain ⟨ext2, f1, f2, f3⟩ := b5 env
    have hmem : ∀ h ∈ evalRel db r.hoisted env, h ++ ext1 h ∈ evalRel db r1.hoisted env := by
      intro h hh
      rw [e2]
      exact List.mem_map.mpr ⟨h, hh, rfl⟩
    refine ⟨fun h => ext1 h ++ ext2 (h ++ ext1 h), ?_, ?_, ?_⟩
    · intro h hh p hp
      rcases List.mem_append.mp hp with hp | hp
      · exact e1 h hh p hp
      · exact f1 _ (hmem h hh) p hp
    · rw [f2, e2, List.map_map]
      apply List.map_congr_left
      intro h _
      simp only [Function.comp, List.append_assoc]
    · intro h hh y hy
      have hy2 : ∀ p ∈ ext2 (h ++ ext1 h) ++ y, C p.1 := by
        intro p hp
        rcases List.mem_append.mp hp with hp | hp
        · exact f1 _ (hmem h hh) p hp
        · exact hy p hp
      rw [List.append_assoc]
      exact hP env h hh (ext1 h) (ext2 (h ++ ext1 h) ++ y) (e1 h hh) hy2
        (e3 h hh _ hy2) (f3 _ (hmem h hh) y hy)

theorem Ready.left {db : Database} {r : subqueryHoister} {l1 l2 : List ColumnID}
    (h : Ready db r (l1 ++ l2)) : Ready db r l1 :=
  ⟨h.1, h.2.1, fun u hu => h.2.2.1 u (List.mem_append_left _ hu),
    (List.nodup_append.mp h.2.2.2).1⟩

theorem Ready.step {db : Database} {C : ColumnID → Prop} {r r1 : subqueryHoister}
    {l1 l2 : List ColumnID} {P : Row → Row → Row → Prop}
    (h : Ready db r (l1 ++ l2)) (he : Extends db C r r1 l1 P) : Ready db r1 l2 := by
  obtain ⟨e1, e2, e3, e4, _⟩ := he
  refine ⟨e1, e2, fun u hu => ⟨?_, le_trans (h.2.2.1 u (List.mem_append_right _ hu)).2 e4⟩,
    (List.nodup_append.mp h.2.2.2).2.1⟩
  intro hc
  have hu2 := h.2.2.1 u (List.mem_append_right _ hu)
  rcases e3 u hc with hc | hc | hc
  · exact hu2.1 hc
  · exact (List.nodup_append.mp h.2.2.2).2.2 hc hu
  · exact absurd hu2.2 (not_le.mpr hc)

theorem Replace_form (op : Operator) (cs cs1 : List Expr) (priv : Private) (l : Logical) :
    ∃ l1, Replace (.mk op cs priv l) cs1 = .mk op cs1 priv l1 := by
  unfold Replace
  by_cases h : cs1 = (Expr.mk op cs priv l).children
  · rw [if_pos h]
    exact ⟨l, by rw [h]; rfl⟩
  · rw [if_neg h]
    exact ⟨_, rfl⟩

theorem WellScoped.children_indep (db : Database) (C : ColumnID → Prop) (md0 : Int)
    (cs : List Expr) (h : WellScoped.children db C md0 cs) (a x b : Row)
    (hx : ∀ p ∈ x, C p.1) : evalScalars db cs (a ++ x ++ b) = evalScalars db cs (a ++ b) := by
  induction cs with
  | nil => simp [evalScalars]
  | cons c rest ih =>
    rw [WellScoped.children] at h
    simp only [evalScalars]
    rw [h.1 a x b hx, ih h.2.2]

mutual
theorem hoistAll_extends (db : Database) (C : ColumnID → Prop) (md0 : Int)
    (hfresh : ∀ c, md0 < c → C c) (e : Expr) (r : subqueryHoister) (hmd : md0 ≤ r.mdLen)
    (hc : r.c.rule.Consistent) (hw : WellScoped db C md0 e) (hr : Ready db r (liftedOuts e)) :
    ∃ e1 r1, hoistAll r e = .ok (e1, r1) ∧ r1.c.rule.Consistent ∧
      Extends db C r r1 (liftedOuts e) (fun env h x =>
        evalScalar db e1 (h ++ x ++ env) = evalScalar db e (h ++ env)) := by
  match e with
  | .mk op cs priv l =>
    rw [WellScoped] at hw
    rw [hoistAll]
    unfold liftedOuts at hr ⊢
    rw [liftList] at hr ⊢
    by_cases hcor : op.IsSubquery = true ∧ l.OuterCols.Empty = false
    · rw [if_pos hcor] at hw hr ⊢
      rw [if_pos hcor]
      simp only [List.flatMap_cons, List.flatMap_nil, List.append_nil] at hr ⊢
      obtain ⟨e1, r1, h1, h2, h3⟩ :=
        hoistCorrelated_extends db C md0 r (.mk op cs priv l) hfresh hmd hcor.1 hw hr
      exact ⟨e1, r1, h1, by rw [h2]; exact hc, h3⟩
    · rw [if_neg hcor] at hw hr ⊢
      rw [if_neg hcor]
      obtain ⟨hsub, hvar, hch⟩ := hw
      obtain ⟨cs1, r1, h1, h2, h3⟩ := hoistAll.children_extends db C md0 hfresh cs r hmd hc hch hr
      rw [h1]
      refine ⟨_, r1, rfl, h2, h3.mono ?_⟩
      intro env h _ x _ hP
      obtain ⟨l1, hl1⟩ := Replace_form op cs cs1 priv l
      rw [hl1, evalScalar_op db op cs1 priv l1 _ hsub hvar,
        evalScalar_op db op cs priv l _ hsub hvar, hP]
theorem hoistAll.children_extends (db : Database) (C : ColumnID → Prop) (md0 : Int)
    (hfresh : ∀ c, md0 < c → C c) (cs : List Expr) (r : subqueryHoister) (hmd : md0 ≤ r.mdLen)
    (hc : r.c.rule.Consistent) (hw : WellScoped.children db C md0 cs)
    (hr : Ready db r ((liftList.children cs).flatMap liftedOut)) :
    ∃ cs1 r1, hoistAll.children r cs = .ok (cs1, r1) ∧ r1.c.rule.Consistent ∧
      Extends db C r r1 ((liftList.children cs).flatMap liftedOut) (fun env h x =>
        evalScalars db cs1 (h ++ x ++ env) = evalScalars db cs (h ++ env)) := by
  match cs with
  | [] =>
    rw [hoistAll.children]
    rw [liftList.children] at hr ⊢
    refine ⟨[], r, rfl, hc, Extends.refl hr ?_⟩
    intro env h _ y _
    simp [evalScalars]
  | child :: rest =>
    rw [WellScoped.children] at hw
    obtain ⟨hind, hwf, hrest⟩ := hw
    obtain ⟨hb, hcons1, _⟩ := HasHoistableSubquery_consistent r.c.rule child hc
    rw [hoistAll.children]
    rw [liftList.children, List.flatMap_append] at hr ⊢
    cases hh : HasHoistableSubquery r.c.rule child with
    | mk b rule1 =>
      rw [hh] at hb hcons1
      simp only at hb hcons1
      cases b with
      | true =>
        rw [← hb] at hr ⊢
        simp only [if_true] at hr ⊢
        have hr1 : Ready db (r.withRule rule1) (liftedOuts child) := hr.left
        obtain ⟨child1, r1, h1, h2, h3⟩ :=
          hoistAll_extends db C md0 hfresh child (r.withRule rule1) hmd hcons1
            (hwf hb.symm) hr1
        have h3r : Extends db C r r1 (liftedOuts child) (fun env h x =>
            evalScalar db child1 (h ++ x ++ env) = evalScalar db child (h ++ env)) := h3
        have hr2 : Ready db r1 ((liftList.children rest).flatMap liftedOut) := hr.step h3r
        obtain ⟨rest1, r2, g1, g2, g3⟩ :=
          hoistAll.children_extends db C md0 hfresh rest r1 (le_trans hmd h3r.2.2.2.1) h2
            hrest hr2
        have hstep : hoistAll (r.withRule rule1) child = .ok (child1, r1) := h1
        have hstate : ({ r with c := { r.c with rule := rule1 } } : subqueryHoister) =
            r.withRule rule1 := rfl
        rw [hstate, hstep]
        simp only
        rw [g1]
        refine ⟨_, r2, rfl, g2, Extends.seq h3r g3 ?_⟩
        intro env h _ x1 x2 hx1 _ hP1 hP2
        simp only [evalScalars]
        rw [hP1]
        have e1 : h ++ (x1 ++ x2) ++ env = h ++ x1 ++ x2 ++ env := by
          simp only [List.append_assoc]
        rw [e1, hP2, WellScoped.children_indep db C md0 rest hrest h x1 env hx1]
      | false =>
        rw [← hb] at hr ⊢
        simp only [Bool.false_eq_true, if_false, List.flatMap_nil, List.nil_append] at hr ⊢
        have hr1 : Ready db (r.withRule rule1) ((liftList.children rest).flatMap liftedOut) := hr
        obtain ⟨rest1, r2, g1, g2, g3⟩ :=
          hoistAll.children_extends db C md0 hfresh rest (r.withRule rule1) hmd hcons1
            hrest hr1
        have g3r : Extends db C r r2 ((liftList.children rest).flatMap liftedOut) (fun env h x =>
            evalScalars db rest1 (h ++ x ++ env) = evalScalars db rest (h ++ env)) := g3
        have hstate : ({ r with c := { r.c with rule := rule1 } } : subqueryHoister) =
            r.withRule rule1 := rfl
        rw [hstate, g1]
        refine ⟨_, r2, rfl, g2, g3r.mono ?_⟩
        intro env h _ x hx hP
        simp only [evalScalars]
        rw [hP, hind h x env hx]
end

theorem evalRel_ProjectOp (db : Database) (input : Expr) (elems : List Expr) (synth : ColList)
    (pass : ColSet) (l : Logical) (env : Row) :
    evalRel db (ConstructProject input (.mk .ProjectionsOp elems (.projectionsOpDef synth pass) l))
      env =
      (evalRel db input env).map (fun row =>
        row.filter (fun p => pass.Contains p.1) ++ synth.zip (evalScalars db elems (row ++ env))) := by
  simp only [ConstructProject, memoize]; rw [evalRel]

theorem GoodTree.ready {db : Database} {C : ColumnID → Prop} {c : CustomFuncs} {R S : Expr}
    (hi : GoodInput db C c R) (ht : GoodTree db C c R S) :
    Ready db (subqueryHoister.init c R) (liftedOuts S) :=
  ⟨hi.2.1, fun col hcol => (hi.2.2.1 col hcol).1, ht.2.1, ht.2.2⟩

theorem filter_extended (pass : ColSet) (C : ColumnID → Prop) (h x : Row)
    (hx : ∀ p ∈ x, C p.1) (hpass : ∀ col ∈ pass, ¬ C col) :
    (h ++ x).filter (fun p => pass.Contains p.1) = h.filter (fun p => pass.Contains p.1) := by
  rw [List.filter_append]
  have : x.filter (fun p => pass.Contains p.1) = [] := by
    rw [List.filter_eq_nil_iff]
    intro p hp hc
    exact hpass _ ((ColSet.contains_iff _ _).mp hc) (hx p hp)
  rw [this, List.append_nil]

theorem filter_conforming (db : Database) (R : Expr) (hR : Conforms db R) (env h : Row)
    (hh : h ∈ evalRel db R env) :
    h.filter (fun p => R.Logical.OutputCols.Contains p.1) = h := by
  rw [List.filter_eq_self]
  intro p hp
  exact (ColSet.contains_iff _ _).mpr (hR env h hh p hp)

theorem HoistSelectSubquery_rows (db : Database) (C : ColumnID → Prop) (c : CustomFuncs)
    (R S : Expr) (hi : GoodInput db C c R) (ht : GoodTree db C c R S) :
    ∃ e c1, HoistSelectSubquery c R S = .ok (e, c1) ∧
      ∀ env, evalRel db e env = evalRel db (ConstructSelect R S) env := by
  obtain ⟨S1, r1, hok, _, hext⟩ := hoistAll_extends db C _ hi.2.2.2 S (subqueryHoister.init c R)
    le_rfl hi.1 ht.1 (GoodTree.ready hi ht)
  unfold HoistSelectSubquery
  rw [hok]
  refine ⟨_, _, rfl, fun env => ?_⟩
  obtain ⟨ext, e1, e2, e3⟩ := hext.2.2.2.2 env
  have e2r : evalRel db r1.hoisted env = (evalRel db R env).map (fun h => h ++ ext h) := e2
  simp only [ConstructSimpleProject, subqueryHoister.input]
  rw [evalRel_Project, evalRel_Select, evalRel_Select, e2r, List.filter_map, List.map_map]
  have hfil : (evalRel db R env).filter
      ((fun row => evalScalar db S1 (row ++ env) == Datum.bool true) ∘ fun h => h ++ ext h) =
      (evalRel db R env).filter (fun row => evalScalar db S (row ++ env) == Datum.bool true) := by
    apply List.filter_congr
    intro h hh
    have := e3 h hh [] (fun p hp => by cases hp)
    simp only [List.append_nil] at this
    simp only [Function.comp, this]
  rw [hfil]
  conv_rhs => rw [← List.map_id (List.filter _ _)]
  apply List.map_congr_left
  intro h hh
  have hh1 : h ∈ evalRel db R env := (List.mem_filter.mp hh).1
  simp only [Function.comp, evalScalars, List.zip_nil_left, List.append_nil, id]
  rw [filter_extended _ C h (ext h) (e1 h hh1) (fun col hcol => (hi.2.2.1 col hcol).2),
    filter_conforming db R hi.2.1 env h hh1]

theorem HoistProjectSubquery_rows (db : Database) (C : ColumnID → Prop) (c : CustomFuncs)
    (R : Expr) (elems : List Expr) (synth : ColList) (pass : ColSet) (l : Logical)
    (hi : GoodInput db C c R)
    (ht : GoodTree db C c R (.mk .ProjectionsOp elems (.projectionsOpDef synth pass) l))
    (hpass : ∀ col ∈ pass, ¬ C col) :
    ∃ e c1, HoistProjectSubquery c R
        (.mk .ProjectionsOp elems (.projectionsOpDef synth pass) l) = .ok (e, c1) ∧
      ∀ env, evalRel db e env = evalRel db
        (ConstructProject R (.mk .ProjectionsOp elems (.projectionsOpDef synth pass) l)) env := by
  have hr := GoodTree.ready hi ht
  obtain ⟨hw, _, _⟩ := ht
  rw [WellScoped] at hw
  unfold liftedOuts at hr
  rw [liftList] at hr
  have hcor : ¬ (Operator.ProjectionsOp.IsSubquery = true ∧ l.OuterCols.Empty = false) := by
    intro h
    exact absurd h.1 (by decide)
  rw [if_neg hcor] at hw hr
  obtain ⟨elems1, r1, hok, _, hext⟩ := hoistAll.children_extends db C _ hi.2.2.2 elems
    (subqueryHoister.init c R) le_rfl hi.1 hw.2.2 hr
  unfold HoistProjectSubquery
  rw [hoistAll, if_neg hcor, hok]
  refine ⟨_, _, rfl, fun env => ?_⟩
  obtain ⟨ext, e1, e2, e3⟩ := hext.2.2.2.2 env
  have e2r : evalRel db r1.hoisted env = (evalRel db R env).map (fun h => h ++ ext h) := e2
  obtain ⟨l1, hl1⟩ := Replace_form .ProjectionsOp elems elems1 (.projectionsOpDef synth pass) l
  simp only [subqueryHoister.input]
  rw [hl1, evalRel_ProjectOp, evalRel_ProjectOp, e2r, List.map_map]
  apply List.map_congr_left
  intro h hh
  have := e3 h hh [] (fun p hp => by cases hp)
  simp only [List.append_nil] at this
  simp only [Function.comp]
  rw [this, filter_extended _ C h (ext h) (e1 h hh) hpass]

theorem Row.get_insert (a x b : Row) (u : ColumnID) (hx : ∀ p ∈ x, p.1 ≠ u) :
    Row.get (a ++ x ++ b) u = Row.get (a ++ b) u := by
  induction a with
  | nil => simpa using Row.get_append_right x b u hx
  | cons p a ih =>
    obtain ⟨k, d⟩ := p
    by_cases hk : u = k
    · subst hk
      simp [Row.get, List.lookup]
    · have hb : (u == k) = false := by simpa using hk
      simp only [Row.get, List.cons_append, List.lookup, hb] at ih ⊢
      exact ih

theorem equivDb_input (env : Row) :
    evalRel equivDb exampleInput env =
      [[(1, .int 1), (2, .int 2)], [(1, .int 5), (2, .int 6)]] :=
  evalRel_exampleRel equivDb 0 [1, 2] [] Cardinality.any env

theorem equivDb_rel1 (env : Row) :
    evalRel equivDb exampleRel1 env = if env.get 1 = .int 1 then [[(10, .int 7)]] else [] :=
  evalRel_exampleRel equivDb 1 [10] [1] ⟨0, 1⟩ env

theorem equivDb_anyRel (env : Row) :
    evalRel equivDb equivAnyRel env = [[(12, env.get 2)], [(12, .null)]] :=
  evalRel_exampleRel equivDb 7 [12] [2] Cardinality.any env

theorem equivDb_existsRel (env : Row) :
    evalRel equivDb equivExistsRel env =
      if env.get 1 = .int 5 then [[(13, .int 0)]] else [] :=
  evalRel_exampleRel equivDb 8 [13] [1] Cardinality.any env

theorem wideFuncs_length : (wideFuncs.md.cols.length : Int) = 20 := by decide

theorem equivInput_good : GoodInput equivDb (fun c => 2 < c) wideFuncs exampleInput := by
  have hout : ∀ c : Int, c ∈ exampleInput.Logical.OutputCols ↔ c = 1 ∨ c = 2 := by
    intro c
    have : exampleInput.Logical.OutputCols.elems = [1, 2] := by decide
    show c ∈ exampleInput.Logical.OutputCols.elems ↔ _
    rw [this]
    simp
  refine ⟨RuleCache.empty_consistent, ?_, ?_, ?_⟩
  · intro env row hrow p hp
    rw [equivDb_input] at hrow
    rw [hout]
    simp only [List.mem_cons, List.mem_singleton, List.not_mem_nil, or_false] at hrow
    rcases hrow with rfl | rfl <;>
      simp only [List.mem_cons, List.mem_singleton, List.not_mem_nil, or_false] at hp <;>
      rcases hp with rfl | rfl <;> simp
  · intro col hcol
    rw [wideFuncs_length]
    rcases (hout col).mp hcol with rfl | rfl <;> exact ⟨by decide, by decide⟩
  · intro col hcol
    rw [wideFuncs_length] at hcol
    show (2 : Int) < col
    omega

theorem sqlEq_nullPropagating : NullPropagating equivDb 0 := by
  constructor
  · intro a b
    show sqlEq a b = Datum.null ↔ _
    cases a <;> cases b <;> simp [sqlEq]
  · intro a b
    show sqlEq a b = Datum.null ∨ sqlEq a b = Datum.bool true ∨ sqlEq a b = Datum.bool false
    cases a <;> cases b <;> simp [sqlEq] <;> (try intro _) <;> exact em _

theorem ne_of_hoistCol (x : Row) (hx : ∀ p ∈ x, (fun c : ColumnID => 2 < c) p.1)
    (u : ColumnID) (hu : u ≤ 2) : ∀ p ∈ x, p.1 ≠ u := by
  intro p hp e
  have h : (2 : Int) < p.1 := hx p hp
  rw [e] at h
  exact absurd h (not_lt.mpr hu)

theorem equivExists_indep : IndepScalar equivDb (fun c => 2 < c) equivExists := by
  intro a x b hx
  have h1 : Row.get (a ++ x ++ b) 1 = Row.get (a ++ b) 1 :=
    Row.get_insert a x b 1 (ne_of_hoistCol x hx _ (by decide))
  unfold equivExists
  rw [evalScalar, evalScalar, equivDb_existsRel, equivDb_existsRel, h1]

theorem equivAny_indep : IndepScalar equivDb (fun c => 2 < c) equivAny := by
  intro a x b hx
  have h2 : Row.get (a ++ x ++ b) 2 = Row.get (a ++ b) 2 :=
    Row.get_insert a x b 2 (ne_of_hoistCol x hx _ (by decide))
  unfold equivAny
  rw [evalScalar, evalScalar, equivDb_anyRel, equivDb_anyRel, evalScalar_Variable,
    evalScalar_Variable, h2]

theorem equivSubquery_indep :
    IndepScalar equivDb (fun c => 2 < c) (exampleSubquery exampleRel1 false) := by
  intro a x b hx
  have h1 : Row.get (a ++ x ++ b) 1 = Row.get (a ++ b) 1 :=
    Row.get_insert a x b 1 (ne_of_hoistCol x hx _ (by decide))
  unfold exampleSubquery
  rw [evalScalar, evalScalar, equivDb_rel1, equivDb_rel1, h1]

theorem equivExists_scoped : WellScoped equivDb (fun c => 2 < c) 20 equivExists := by
  unfold equivExists
  rw [WellScoped, if_pos ⟨by decide, by decide⟩]
  exact ⟨equivExistsRel, [], rfl, trivial⟩

theorem equivAny_scoped : WellScoped equivDb (fun c => 2 < c) 20 equivAny := by
  have hout : ∀ c : Int, c ∈ equivAnyRel.Logical.OutputCols ↔ c = 12 := by
    intro c
    have : equivAnyRel.Logical.OutputCols.elems = [12] := by decide
    show c ∈ equivAnyRel.Logical.OutputCols.elems ↔ _
    rw [this]
    simp
  have hfirst : firstCol equivAnyRel = 12 := by decide
  unfold equivAny
  rw [WellScoped, if_pos ⟨by decide, by decide⟩]
  refine ⟨equivAnyRel, [ConstructVariable 2], rfl, ConstructVariable 2, [], 0, rfl, rfl,
    by decide, sqlEq_nullPropagating, ?_, ?_, ?_, ?_, ?_⟩
  · intro env row hrow
    rw [equivDb_anyRel] at hrow
    rw [hfirst]
    simp only [List.mem_cons, List.mem_singleton, List.not_mem_nil, or_false] at hrow
    rcases hrow with rfl | rfl <;> simp [List.lookup]
  · intro env row hrow p hp
    rw [equivDb_anyRel] at hrow
    rw [hout]
    simp only [List.mem_cons, List.mem_singleton, List.not_mem_nil, or_false] at hrow
    rcases hrow with rfl | rfl <;>
      simp only [List.mem_singleton] at hp <;> rw [hp]
  · intro c hc
    rw [(hout c).mp hc]
    exact ⟨by decide, by decide⟩
  · intro a x b hx
    have h2 : Row.get (a ++ x ++ b) 2 = Row.get (a ++ b) 2 :=
      Row.get_insert a x b 2 (ne_of_hoistCol x hx _ (by decide))
    rw [equivDb_anyRel, equivDb_anyRel, h2]
  · intro a x b hx
    rw [evalScalar_Variable, evalScalar_Variable]
    exact Row.get_insert a x b 2 (ne_of_hoistCol x hx _ (by decide))

theorem equivSubquery_scoped :
    WellScoped equivDb (fun c => 2 < c) 20 (exampleSubquery exampleRel1 false) := by
  have hout : ∀ c : Int, c ∈ exampleRel1.Logical.OutputCols ↔ c = 10 := by
    intro c
    have : exampleRel1.Logical.OutputCols.elems = [10] := by decide
    show c ∈ exampleRel1.Logical.OutputCols.elems ↔ _
    rw [this]
    simp
  have hfirst : firstCol exampleRel1 = 10 := by decide
  unfold exampleSubquery
  rw [WellScoped, if_pos ⟨by decide, by decide⟩]
  refine ⟨exampleRel1, [], rfl, ?_, ?_, ?_, ?_, by decide, ?_⟩
  · intro env
    rw [equivDb_rel1]
    split <;> simp
  · intro hz
    exact absurd hz (by decide)
  · intro env row hrow p hp
    rw [equivDb_rel1] at hrow
    rw [hout]
    split at hrow
    · simp only [List.mem_singleton] at hrow
      rw [hrow, List.mem_singleton] at hp
      rw [hp]
    · cases hrow
  · intro env row hrow
    rw [equivDb_rel1] at hrow
    rw [hfirst]
    split at hrow
    · simp only [List.mem_singleton] at hrow
      rw [hrow]
      simp [List.lookup]
    · cases hrow
  · intro c hc
    rw [(hout c).mp hc]
    decide

theorem equivFilter_good :
    GoodTree equivDb (fun c => 2 < c) wideFuncs exampleInput equivFilter := by
  have hl : liftedOuts equivFilter = [] := by decide
  refine ⟨?_, ?_, ?_⟩
  · rw [wideFuncs_length]
    unfold equivFilter
    rw [WellScoped, if_neg (fun h => absurd h.1 (by decide))]
    refine ⟨by decide, by decide, ?_⟩
    rw [WellScoped.children, WellScoped.children, WellScoped.children]
    exact ⟨equivExists_indep, fun _ => equivExists_scoped, equivAny_indep,
      fun _ => equivAny_scoped, trivial⟩
  · intro u hu
    rw [hl] at hu
    cases hu
  · rw [hl]
    exact List.nodup_nil

theorem equivProjections_good :
    GoodTree equivDb (fun c => 2 < c) wideFuncs exampleInput equivProjections := by
  have hl : liftedOuts equivProjections = [10] := by decide
  refine ⟨?_, ?_, ?_⟩
  · rw [wideFuncs_length]
    unfold equivProjections
    rw [WellScoped, if_neg (fun h => absurd h.1 (by decide))]
    refine ⟨by decide, by decide, ?_⟩
    rw [WellScoped.children, WellScoped.children]
    exact ⟨equivSubquery_indep, fun _ => equivSubquery_scoped, trivial⟩
  · intro u hu
    rw [hl, List.mem_singleton] at hu
    rw [hu, wideFuncs_length]
    exact ⟨by decide, by decide⟩
  · rw [hl]
    exact List.nodup_singleton _

/-! ### Output columns of the entry points -/

theorem ColSet.elems_foldr_Add (l : List Int) (hs : l.Sorted (· < ·)) :
    (l.foldr (fun c u => ColSet.Add u c) (∅ : ColSet)).elems = l := by
  induction l with
  | nil => rfl
  | cons x xs ih =>
    rw [List.sorted_cons] at hs
    simp only [List.foldr_cons]
    show insertElem x (xs.foldr (fun c u => ColSet.Add u c) (∅ : ColSet)).elems = x :: xs
    rw [ih hs.2]
    cases xs with
    | nil => rfl
    | cons y ys =>
      unfold insertElem
      rw [if_pos (hs.1 y (List.mem_cons_self _ _))]

theorem ColSet.ext_elems (s t : ColSet) (h : s.elems = t.elems) : s = t := by
  cases s; cases t
  simp only at h
  subst h
  rfl

theorem ColSet.Union_empty (s : ColSet) : s.Union ∅ = s :=
  ColSet.ext_elems _ _ (ColSet.elems_foldr_Add s.elems s.sorted)

theorem ConstructSimpleProject_outputCols (input : Expr) (pass : ColSet) :
    (ConstructSimpleProject input pass).Logical.OutputCols = pass := by
  show pass.Union (ColSet.ofList []) = pass
  exact ColSet.Union_empty pass

/-! ### The rule cache is written once per group -/

mutual
theorem HasHoistableSubquery_stable (rule : RuleCache) (e k : Expr) (w : Bool)
    (hk : rule k = some w) : (HasHoistableSubquery rule e).2 k = some w := by
  match e with
  | .mk op cs priv l =>
    unfold HasHoistableSubquery
    split
    · exact hk
    · rename_i hnone
      have hne : k ≠ .mk op cs priv l := by
        intro h; rw [h, hnone] at hk; cases hk
      simp only
      split
      · simp only [RuleCache.set_other _ _ _ _ hne]; exact hk
      · exact HasHoistableSubquery.loop_stable (.mk op cs priv l) op 0 _ cs k w hne
          (by rw [RuleCache.set_other _ _ _ _ hne]; exact hk)
theorem HasHoistableSubquery.loop_stable (ev : Expr) (op : Operator) (i : Nat)
    (rule : RuleCache) (cs : List Expr) (k : Expr) (w : Bool) (hne : k ≠ ev)
    (hk : rule k = some w) : (HasHoistableSubquery.loop ev op i rule cs).2 k = some w := by
  match cs with
  | [] => simpa [HasHoistableSubquery.loop] using hk
  | child :: rest =>
    have h1 := HasHoistableSubquery_stable rule child k w hk
    unfold HasHoistableSubquery.loop
    split
    · rename_i rule1 heq
      rw [heq] at h1
      split
      · simp only [RuleCache.set_other _ _ _ _ hne]; exact h1
      · exact HasHoistableSubquery.loop_stable ev op (i + 1) _ rest k w hne
          (by rw [RuleCache.set_other _ _ _ _ hne]; exact h1)
    · rename_i rule1 heq
      rw [heq] at h1
      exact HasHoistableSubquery.loop_stable ev op (i + 1) _ rest k w hne h1
end

theorem HasHoistableSubquery.loop_stored (ev : Expr) (op : Operator) (i : Nat)
    (rule : RuleCache) (cs : List Expr) (h : rule ev = some false) :
    (HasHoistableSubquery.loop ev op i rule cs).2 ev =
      some (HasHoistableSubquery.loop ev op i rule cs).1 := by
  induction cs generalizing i rule with
  | nil => simpa [HasHoistableSubquery.loop] using h
  | cons child rest ih =>
    have h1 := HasHoistableSubquery_stable rule child ev false h
    unfold HasHoistableSubquery.loop
    split
    · rename_i rule1 heq
      split
      · simp only [RuleCache.set_same]
      · exact ih (i + 1) _ (RuleCache.set_same _ _ _)
    · rename_i rule1 heq
      rw [heq] at h1
      exact ih (i + 1) _ h1

theorem HasHoistableSubquery_stored (rule : RuleCache) (e : Expr) :
    (HasHoistableSubquery rule e).2 e = some (HasHoistableSubquery rule e).1 := by
  match e with
  | .mk op cs priv l =>
    unfold HasHoistableSubquery
    split
    · rename_i v hv
      exact hv
    · simp only
      split
      · simp only [RuleCache.set_same]
      · exact HasHoistableSubquery.loop_stored _ op 0 _ cs (RuleCache.set_same _ _ _)

theorem HasHoistableSubquery_cached (rule : RuleCache) (e : Expr) (v : Bool)
    (h : rule e = some v) : HasHoistableSubquery rule e = (v, rule) := by
  match e with
  | .mk op cs priv l =>
    unfold HasHoistableSubquery
    rw [h]

/-! ### Trees without hoistable subqueries -/

theorem Expr.mem_nodes_self (e : Expr) : e ∈ e.nodes := by
  cases e with
  | mk op cs priv l => rw [Expr.nodes]; exact List.mem_cons_self _ _

theorem Expr.mem_nodesList (cs : List Expr) (c : Expr) (h : c ∈ cs) :
    ∀ n ∈ c.nodes, n ∈ Expr.nodesList cs := by
  induction cs with
  | nil => cases h
  | cons x xs ih =>
    intro n hn
    rw [Expr.nodesList]
    rcases List.mem_cons.mp h with rfl | h
    · exact List.mem_append_left _ hn
    · exact List.mem_append_right _ (ih h n hn)

theorem Expr.child_mem_nodes (e c : Expr) (h : c ∈ e.children) : c ∈ e.nodes := by
  cases e with
  | mk op cs priv l =>
    rw [Expr.nodes]
    exact List.mem_cons_of_mem _ (Expr.mem_nodesList cs c h c c.mem_nodes_self)

theorem hoistableSpec.any_false (op : Operator) (i : Nat) (cs : List Expr)
    (h : ∀ c ∈ cs, hoistableSpec c = false) : hoistableSpec.any op i cs = false := by
  induction cs generalizing i with
  | nil => rfl
  | cons c rest ih =>
    rw [hoistableSpec.any, h c (List.mem_cons_self _ _),
      ih (i + 1) (fun x hx => h x (List.mem_cons_of_mem _ hx))]
    rfl

theorem hoistAll.children_kept (r : subqueryHoister) (cs : List Expr)
    (hc : r.c.rule.Consistent) (h : ∀ c ∈ cs, hoistableSpec c = false) :
    ∃ rule1, hoistAll.children r cs = .ok (cs, r.withRule rule1) ∧ rule1.Consistent := by
  induction cs generalizing r with
  | nil => exact ⟨r.c.rule, rfl, hc⟩
  | cons child rest ih =>
    obtain ⟨hb, hcons1, _⟩ := HasHoistableSubquery_consistent r.c.rule child hc
    rw [h child (List.mem_cons_self _ _)] at hb
    rw [hoistAll.children]
    cases hh : HasHoistableSubquery r.c.rule child with
    | mk b rule1 =>
      rw [hh] at hb hcons1
      simp only at hb hcons1
      subst hb
      simp only
      obtain ⟨rule2, h2, hc2⟩ := ih (r.withRule rule1) hcons1
        (fun x hx => h x (List.mem_cons_of_mem _ hx))
      have hstate : ({ r with c := { r.c with rule := rule1 } } : subqueryHoister) =
          r.withRule rule1 := rfl
      rw [hstate, h2]
      exact ⟨rule2, rfl, hc2⟩

theorem hoistAll_kept (r : subqueryHoister) (e : Expr) (hc : r.c.rule.Consistent)
    (h0 : hoistableSpec e = false) (h : ∀ c ∈ e.children, hoistableSpec c = false) :
    ∃ rule1, hoistAll r e = .ok (e, r.withRule rule1) ∧ rule1.Consistent := by
  cases e with
  | mk op cs priv l =>
    have hcor : ¬ (op.IsSubquery = true ∧ l.OuterCols.Empty = false) := by
      rintro ⟨h1, h2⟩
      rw [hoistableSpec_mk, if_pos h1, h2] at h0
      cases h0
    obtain ⟨rule1, h1, h2⟩ := hoistAll.children_kept r cs hc h
    rw [hoistAll, if_neg hcor, h1]
    refine ⟨rule1, ?_, h2⟩
    simp only [Replace, Expr.children, if_true]

theorem hoistableSpec_Variable (c : ColumnID) : hoistableSpec (ConstructVariable c) = false := rfl

theorem hoistCorrelated_root (r r1 : subqueryHoister) (s e1 : Expr)
    (h : hoistCorrelated r s = .ok (e1, r1)) : ∃ c, e1 = ConstructVariable c := by
  unfold hoistCorrelated at h
  split at h
  · cases h
  · split at h
    · cases h
    · simp only [Result.ok.injEq, Prod.mk.injEq] at h
      exact ⟨_, h.1.symm⟩

mutual
theorem hoistAll_clean (r r1 : subqueryHoister) (e e1 : Expr) (hc : r.c.rule.Consistent)
    (hw : ScalarWalk e) (h : hoistAll r e = .ok (e1, r1)) :
    hoistableSpec e1 = false ∧ (∀ c ∈ e1.children, hoistableSpec c = false) ∧
      r1.c.rule.Consistent := by
  match e with
  | .mk op cs priv l =>
    rw [hoistAll] at h
    rw [ScalarWalk] at hw
    by_cases hcor : op.IsSubquery = true ∧ l.OuterCols.Empty = false
    · rw [if_pos hcor] at h
      obtain ⟨c, rfl⟩ := hoistCorrelated_root _ _ _ _ h
      refine ⟨rfl, (fun x hx => absurd hx (List.not_mem_nil x)), ?_⟩
      rw [hoistCorrelated_keeps_rule _ _ _ _ h]
      exact hc
    · rw [if_neg hcor] at h hw
      cases hch : hoistAll.children r cs with
      | panic msg => rw [hch] at h; cases h
      | ok p =>
        obtain ⟨cs1, r2⟩ := p
        rw [hch] at h
        simp only [Result.ok.injEq, Prod.mk.injEq] at h
        obtain ⟨h1, h2⟩ := hoistAll.children_clean r r2 cs cs1 hc hw.2 hch
        rw [← h.2]
        obtain ⟨l1, hl1⟩ := Replace_form op cs cs1 priv l
        by_cases hop : op.IsSubquery = true
        · obtain ⟨rule1, hk, _⟩ := hoistAll.children_kept r cs hc (hw.1 hop)
          rw [hk] at hch
          simp only [Result.ok.injEq, Prod.mk.injEq] at hch
          have he1 : e1 = .mk op cs priv l := by
            rw [← h.1, ← hch.1]
            simp only [Replace, Expr.children, if_true]
          rw [he1]
          refine ⟨?_, hw.1 hop, h2⟩
          rw [hoistableSpec_mk, if_pos hop]
          have : l.OuterCols.Empty = true := by
            cases hE : l.OuterCols.Empty
            · exact absurd ⟨hop, hE⟩ hcor
            · rfl
          rw [this]; rfl
        · rw [← h.1, hl1]
          refine ⟨?_, h1, h2⟩
          rw [hoistableSpec_mk, if_neg hop]
          exact hoistableSpec.any_false op 0 cs1 h1
theorem hoistAll.children_clean (r r1 : subqueryHoister) (cs cs1 : List Expr)
    (hc : r.c.rule.Consistent) (hw : ScalarWalk.children cs)
    (h : hoistAll.children r cs = .ok (cs1, r1)) :
    (∀ c ∈ cs1, hoistableSpec c = false) ∧ r1.c.rule.Consistent := by
  match cs with
  | [] =>
    rw [hoistAll.children] at h
    simp only [Result.ok.injEq, Prod.mk.injEq] at h
    rw [← h.1, ← h.2]
    exact ⟨(fun x hx => absurd hx (List.not_mem_nil x)), hc⟩
  | child :: rest =>
    rw [ScalarWalk.children] at hw
    obtain ⟨hb, hcons1, _⟩ := HasHoistableSubquery_consistent r.c.rule child hc
    rw [hoistAll.children] at h
    cases hh : HasHoistableSubquery r.c.rule child with
    | mk b rule1 =>
      rw [hh] at hb hcons1 h
      simp only at hb hcons1 h
      cases b with
      | true =>
        simp only at h
        cases h1 : hoistAll { r with c := { r.c with rule := rule1 } } child with
        | panic msg => rw [h1] at h; cases h
        | ok p =>
          obtain ⟨child1, r2⟩ := p
          rw [h1] at h
          simp only at h
          obtain ⟨g1, _, g3⟩ := hoistAll_clean _ r2 child child1 hcons1 (hw.1 hb.symm) h1
          cases h2 : hoistAll.children r2 rest with
          | panic msg => rw [h2] at h; cases h
          | ok q =>
            obtain ⟨rest1, r3⟩ := q
            rw [h2] at h
            simp only [Result.ok.injEq, Prod.mk.injEq] at h
            obtain ⟨k1, k2⟩ := hoistAll.children_clean r2 r3 rest rest1 g3 hw.2 h2
            rw [← h.1, ← h.2]
            refine ⟨?_, k2⟩
            intro c hc
            rcases List.mem_cons.mp hc with rfl | hc
            · exact g1
            · exact k1 c hc
      | false =>
        simp only at h
        cases h2 : hoistAll.children { r with c := { r.c with rule := rule1 } } rest with
        | panic msg => rw [h2] at h; cases h
        | ok q =>
          obtain ⟨rest1, r3⟩ := q
          rw [h2] at h
          simp only [Result.ok.injEq, Prod.mk.injEq] at h
          obtain ⟨k1, k2⟩ := hoistAll.children_clean _ r3 rest rest1 hcons1 hw.2 h2
          rw [← h.1, ← h.2]
          refine ⟨?_, k2⟩
          intro c hc
          rcases List.mem_cons.mp hc with rfl | hc
          · exact hb.symm
          · exact k1 c hc
end

mutual
theorem hoistableSpec_of_uncorrelated (e : Expr)
    (h : ∀ n ∈ e.nodes, ¬ (n.Operator.IsSubquery = true ∧ n.Logical.OuterCols.Empty = false)) :
    hoistableSpec e = false := by
  match e with
  | .mk op cs priv l =>
    rw [hoistableSpec_mk]
    rw [Expr.nodes] at h
    by_cases hop : op.IsSubquery = true
    · rw [if_pos hop]
      have h1 := h _ (List.mem_cons_self _ _)
      simp only [Expr.Operator, Expr.Logical, hop, true_and, Bool.not_eq_false] at h1
      rw [h1]; rfl
    · rw [if_neg hop]
      exact hoistableSpec.any_false op 0 cs
        (hoistableSpec_of_uncorrelated.list cs (fun n hn => h n (List.mem_cons_of_mem _ hn)))
theorem hoistableSpec_of_uncorrelated.list (cs : List Expr)
    (h : ∀ n ∈ Expr.nodesList cs,
      ¬ (n.Operator.IsSubquery = true ∧ n.Logical.OuterCols.Empty = false)) :
    ∀ c ∈ cs, hoistableSpec c = false := by
  match cs with
  | [] => exact fun c hc => absurd hc (List.not_mem_nil c)
  | x :: xs =>
    rw [Expr.nodesList] at h
    intro c hc
    rcases List.mem_cons.mp hc with rfl | hc
    · exact hoistableSpec_of_uncorrelated c (fun n hn => h n (List.mem_append_left _ hn))
    · exact hoistableSpec_of_uncorrelated.list xs
        (fun n hn => h n (List.mem_append_right _ hn)) c hc
end

theorem hoistAll_kept_result (r : subqueryHoister) (e : Expr) (hc : r.c.rule.Consistent)
    (h0 : hoistableSpec e = false) (h : ∀ c ∈ e.children, hoistableSpec c = false) :
    (hoistAll r e).root = some e ∧ (hoistAll r e).inputAndMetadata = .ok r.inputAndMetadata := by
  obtain ⟨rule1, h1, _⟩ := hoistAll_kept r e hc h0 h
  rw [h1]
  exact ⟨rfl, rfl⟩

theorem ScalarWalk.of_correlated (e : Expr) (hop : e.Operator.IsSubquery = true)
    (hout : e.Logical.OuterCols.Empty = false) : ScalarWalk e := by
  cases e with
  | mk op cs priv l =>
    rw [ScalarWalk, if_pos ⟨hop, hout⟩]
    trivial

theorem ScalarWalk.of_scalar (op : Operator) (cs : List Expr) (priv : Private) (l : Logical)
    (hop : op.IsSubquery = false) (h : ScalarWalk.children cs) :
    ScalarWalk (.mk op cs priv l) := by
  rw [ScalarWalk, if_neg (fun h1 => by rw [hop] at h1; cases h1.1)]
  exact ⟨(fun h1 => by rw [hop] at h1; cases h1), h⟩

theorem exampleCase_scalarWalk : ScalarWalk exampleCase := by
  unfold exampleCase
  apply ScalarWalk.of_scalar _ _ _ _ (by decide)
  rw [ScalarWalk.children, ScalarWalk.children, ScalarWalk.children, ScalarWalk.children]
  refine ⟨fun h => absurd h (by decide), fun _ => ?_, fun h => absurd h (by decide), trivial⟩
  unfold exampleWhen
  apply ScalarWalk.of_scalar _ _ _ _ (by decide)
  rw [ScalarWalk.children, ScalarWalk.children, ScalarWalk.children]
  exact ⟨fun _ => ScalarWalk.of_correlated _ (by decide) (by decide),
    fun _ => ScalarWalk.of_correlated _ (by decide) (by decide), trivial⟩

/-! ### Shape of the relations the entry points return -/

theorem hoistCorrelated_Subquery (r : subqueryHoister) (child0 : Expr) (others : List Expr)
    (priv : Private) (l : Logical) :
    hoistCorrelated r (.mk .SubqueryOp (child0 :: others) priv l) =
      .ok (ConstructVariable (child0.Logical.OutputCols.Next 0).1,
        { r with hoisted := applyJoin r.hoisted child0 }) := rfl

theorem hoistAll_Is_subquery (r : subqueryHoister) (L : Expr) (others : List Expr)
    (p : Private) (ls l : Logical) (t : Typ) (hc : r.c.rule.Consistent)
    (hout : ls.OuterCols.Empty = false) :
    ∃ r1, hoistAll r (.mk .IsOp [.mk .SubqueryOp (L :: others) p ls, ConstructNull t] .none l) =
        .ok (ConstructIs (ConstructVariable (L.Logical.OutputCols.Next 0).1) (ConstructNull t),
          r1) ∧
      r1.hoisted = applyJoin r.hoisted L := by
  have hs : hoistableSpec (.mk .SubqueryOp (L :: others) p ls) = true := by
    rw [hoistableSpec_mk, if_pos (by decide), hout]; rfl
  have hn : hoistableSpec (ConstructNull t) = false := rfl
  obtain ⟨hb, hcons1, _⟩ := HasHoistableSubquery_consistent r.c.rule
    (.mk .SubqueryOp (L :: others) p ls) hc
  rw [hs] at hb
  rw [hoistAll, if_neg (fun h => absurd h.1 (by decide)), hoistAll.children]
  cases hh : HasHoistableSubquery r.c.rule (.mk .SubqueryOp (L :: others) p ls) with
  | mk b rule1 =>
    rw [hh] at hb hcons1
    simp only at hb hcons1
    subst hb
    simp only
    rw [hoistAll, if_pos ⟨by decide, hout⟩, hoistCorrelated_Subquery]
    simp only
    obtain ⟨hb2, _, _⟩ := HasHoistableSubquery_consistent rule1 (ConstructNull t) hcons1
    rw [hn] at hb2
    rw [hoistAll.children]
    cases hh2 : HasHoistableSubquery rule1 (ConstructNull t) with
    | mk b2 rule2 =>
      rw [hh2] at hb2
      simp only at hb2
      subst hb2
      simp only [hoistAll.children]
      refine ⟨{ c := { md := r.c.md, rule := rule2 }, hoisted := applyJoin r.hoisted L }, ?_, rfl⟩
      have hne : [ConstructVariable (L.Logical.OutputCols.Next 0).1, ConstructNull t] ≠
          (Expr.mk .IsOp [.mk .SubqueryOp (L :: others) p ls, ConstructNull t] .none l).children := by
        intro h
        have := (List.cons.inj h).1
        simp [ConstructVariable, memoize] at this
      simp only [Replace, if_neg hne]
      rfl

/-! ### Hoisting out of `Values` and `Zip` -/

theorem hoistItems_threaded (r r1 : subqueryHoister) (items items1 : List Expr) :
    hoistItems r items = .ok (items1, r1) ↔ Threaded r items items1 r1 := by
  induction items generalizing r items1 with
  | nil =>
    rw [hoistItems]
    constructor
    · intro h
      simp only [Result.ok.injEq, Prod.mk.injEq] at h
      rw [← h.1, ← h.2]
      exact Threaded.nil r
    · intro h
      cases h
      rfl
  | cons item rest ih =>
    rw [hoistItems]
    constructor
    · intro h
      cases h1 : hoistAll r item with
      | panic msg => rw [h1] at h; cases h
      | ok p =>
        obtain ⟨item1, r2⟩ := p
        rw [h1] at h
        simp only at h
        cases h2 : hoistItems r2 rest with
        | panic msg => rw [h2] at h; cases h
        | ok q =>
          obtain ⟨rest1, r3⟩ := q
          rw [h2] at h
          simp only [Result.ok.injEq, Prod.mk.injEq] at h
          obtain ⟨ha, hb⟩ := h
          subst ha
          subst hb
          exact Threaded.cons h1 ((ih r2 rest1).mp h2)
    · intro h
      cases h with
      | cons h1 h2 =>
        rw [h1]
        simp only
        rw [(ih _ _).mpr h2]

theorem Threaded.length {r r1 : subqueryHoister} {items items1 : List Expr}
    (h : Threaded r items items1 r1) : items1.length = items.length := by
  induction h with
  | nil r => rfl
  | cons _ _ ih => simp only [List.length_cons, ih]

/-! ### Aggregates that ignore nulls -/

theorem CanAggsIgnoreNulls.loop_iff (ignoresNulls : Operator → Bool) (elems : List Expr) :
    CanAggsIgnoreNulls.loop ignoresNulls elems = true ↔
      ∀ elem ∈ elems, elem.Operator = .CountRowsOp ∨ elem.Operator = .ConstAggOp ∨
        ignoresNulls elem.Operator = true := by
  induction elems with
  | nil => simp [CanAggsIgnoreNulls.loop]
  | cons elem rest ih =>
    rw [CanAggsIgnoreNulls.loop]
    by_cases h : elem.Operator ≠ .CountRowsOp ∧ elem.Operator ≠ .ConstAggOp ∧
        ignoresNulls elem.Operator = false
    · rw [if_pos h]
      constructor
      · intro hf; cases hf
      · intro hall
        rcases hall elem (List.mem_cons_self _ _) with h1 | h1 | h1
        · exact absurd h1 h.1
        · exact absurd h1 h.2.1
        · rw [h.2.2] at h1; cases h1
    · rw [if_neg h, ih]
      constructor
      · intro hall x hx
        rcases List.mem_cons.mp hx with rfl | hx
        · by_cases h1 : x.Operator = .CountRowsOp
          · exact Or.inl h1
          · by_cases h2 : x.Operator = .ConstAggOp
            · exact Or.inr (Or.inl h2)
            · right; right
              cases h3 : ignoresNulls x.Operator
              · exact absurd ⟨h1, h2, h3⟩ h
              · rfl
        · exact hall x hx
      · intro hall x hx
        exact hall x (List.mem_cons_of_mem _ hx)

theorem EnsureAggsIgnoreNulls.remap_ok (in_ elem : Expr)
    (hnn : (in_.Logical.NotNullCols.Next 0).2 = true)
    (hwf : elem.Operator = .ConstAggOp → elem.children ≠ []) :
    EnsureAggsIgnoreNulls.remap in_ elem = .ok (ignoringNulls in_ elem) := by
  unfold EnsureAggsIgnoreNulls.remap ignoringNulls
  split
  · rename_i hop
    rw [if_pos hop]
    cases hch : elem.children with
    | nil => exact absurd hch (hwf hop)
    | cons x rest => rfl
  · rename_i hop
    have hne : elem.Operator ≠ .ConstAggOp := by rw [hop]; decide
    simp only [hnn, Bool.true_eq_false, if_false, if_neg hne, if_pos hop]
  · rename_i h1 h2
    rw [if_neg h1, if_neg h2]

theorem ignoringNulls_ne (in_ elem : Expr) (hwf : elem.Operator = .ConstAggOp → elem.children ≠ []) :
    ignoringNulls in_ elem ≠ elem ↔
      elem.Operator = .ConstAggOp ∨ elem.Operator = .CountRowsOp := by
  unfold ignoringNulls
  by_cases h1 : elem.Operator = .ConstAggOp
  · rw [if_pos h1]
    cases hch : elem.children with
    | nil => exact absurd hch (hwf h1)
    | cons x rest =>
      simp only [h1, true_or, iff_true]
      intro h
      have := congrArg Expr.Operator h
      rw [h1] at this
      cases this
  · rw [if_neg h1]
    by_cases h2 : elem.Operator = .CountRowsOp
    · rw [if_pos h2]
      simp only [h2, or_true, iff_true]
      intro h
      have := congrArg Expr.Operator h
      rw [h2] at this
      cases this
    · rw [if_neg h2]
      simp [h1, h2]

theorem EnsureAggsIgnoreNulls.loop_spec (in_ : Expr) (all : List Expr)
    (hnn : (in_.Logical.NotNullCols.Next 0).2 = true)
    (hwf : ∀ elem ∈ all, elem.Operator = .ConstAggOp → elem.children ≠ [])
    (rest pre : List Expr) (outElems : Option (List Expr)) (hall : all = pre ++ rest)
    (hinv : (outElems = none ∧ ∀ e ∈ pre, ignoringNulls in_ e = e) ∨
      (outElems = some (pre.map (ignoringNulls in_)) ∧ ∃ e ∈ pre, ignoringNulls in_ e ≠ e)) :
    ∃ res, EnsureAggsIgnoreNulls.loop in_ all pre.length outElems rest = .ok res ∧
      ((res = none ∧ ∀ e ∈ all, ignoringNulls in_ e = e) ∨
        (res = some (all.map (ignoringNulls in_)) ∧ ∃ e ∈ all, ignoringNulls in_ e ≠ e)) := by
  induction rest generalizing pre outElems with
  | nil =>
    rw [List.append_nil] at hall
    subst hall
    exact ⟨outElems, rfl, hinv⟩
  | cons elem rest ih =>
    have hmem : elem ∈ all := by rw [hall]; simp
    rw [EnsureAggsIgnoreNulls.loop, EnsureAggsIgnoreNulls.remap_ok in_ elem hnn (hwf elem hmem)]
    simp only
    have htake : all.take pre.length = pre := by rw [hall]; simp
    have hlen : (pre ++ [elem]).length = pre.length + 1 := by simp
    rw [← hlen]
    apply ih (pre ++ [elem]) _ (by rw [hall]; simp)
    rcases hinv with ⟨hnone, hpre⟩ | ⟨hsome, e, he, hne⟩
    · subst hnone
      by_cases hch : ignoringNulls in_ elem ≠ elem
      · right
        rw [if_pos ⟨hch, rfl⟩, htake]
        refine ⟨?_, elem, by simp, hch⟩
        have : pre.map (ignoringNulls in_) = pre := by
          conv_rhs => rw [← List.map_id pre]
          exact List.map_congr_left (fun x hx => hpre x hx)
        simp [this]
      · left
        rw [if_neg (fun h => hch h.1)]
        refine ⟨rfl, ?_⟩
        intro x hx
        rcases List.mem_append.mp hx with hx | hx
        · exact hpre x hx
        · rw [List.mem_singleton] at hx
          rw [hx]
          exact not_not.mp hch
    · right
      subst hsome
      rw [if_neg (fun h => by cases h.2)]
      refine ⟨by simp, e, List.mem_append_left _ he, hne⟩

/-! ### Keys and not-null columns -/

theorem ColSet.Next_ok_iff (s : ColSet) (h : ∀ x ∈ s, 0 ≤ x) :
    (s.Next 0).2 = true ↔ s.Empty = false := by
  unfold ColSet.Next ColSet.Empty
  cases hs : s.elems with
  | nil => simp
  | cons x xs =>
    have hx : (0 : Int) ≤ x := h x (by show x ∈ s.elems; rw [hs]; exact List.mem_cons_self _ _)
    simp [List.find?, hx]

theorem ColSet.Next_ok_mem (s : ColSet) (x : Int) (hx : x ∈ s) (h0 : 0 ≤ x) :
    (s.Next 0).2 = true := by
  unfold ColSet.Next
  have hm : x ∈ s.elems := hx
  cases hf : s.elems.find? (fun c => decide (0 ≤ c)) with
  | some c => rfl
  | none =>
    rw [List.find?_eq_none] at hf
    exact absurd (by simpa using h0) (hf x hm)

theorem EnsureNotNullIfCountRows.loop_countRows (c : CustomFuncs) (in_ : Expr)
    (elems : List Expr) (h : ∃ elem ∈ elems, elem.Operator = .CountRowsOp) :
    EnsureNotNullIfCountRows.loop c in_ elems =
      (projectExtraCol in_ ConstructTrue ((c.md.cols.length : Int) + 1),
        { c with md := ⟨c.md.cols ++ [("notnull", Typ.Bool)]⟩ }) := by
  induction elems with
  | nil => obtain ⟨e, he, _⟩ := h; cases he
  | cons elem rest ih =>
    rw [EnsureNotNullIfCountRows.loop]
    by_cases hop : elem.Operator = .CountRowsOp
    · rw [if_pos hop]; rfl
    · rw [if_neg hop]
      apply ih
      obtain ⟨e, he, heop⟩ := h
      rcases List.mem_cons.mp he with rfl | he
      · exact absurd heop hop
      · exact ⟨e, he, heop⟩

theorem EnsureNotNullIfCountRows.loop_none (c : CustomFuncs) (in_ : Expr)
    (elems : List Expr) (h : ∀ elem ∈ elems, elem.Operator ≠ .CountRowsOp) :
    EnsureNotNullIfCountRows.loop c in_ elems = (in_, c) := by
  induction elems with
  | nil => rfl
  | cons elem rest ih =>
    rw [EnsureNotNullIfCountRows.loop, if_neg (h elem (List.mem_cons_self _ _))]
    exact ih (fun x hx => h x (List.mem_cons_of_mem _ hx))

theorem projectExtraCol_True_notNull (in_ : Expr) (col : ColumnID) :
    col ∈ (projectExtraCol in_ ConstructTrue col).Logical.NotNullCols := by
  have h : (projectExtraCol in_ ConstructTrue col).Logical.NotNullCols =
      (in_.Logical.NotNullCols.Intersection
        (in_.Logical.OutputCols.Union (ColSet.ofList [col]))).Union
        ((∅ : ColSet).Add col) := rfl
  rw [h, ColSet.mem_Union, ColSet.mem_Add]
  exact Or.inr (Or.inl rfl)

theorem EnsureAggsIgnoreNulls.remap_panic (in_ elem : Expr)
    (h : EnsureAggsIgnoreNulls.remap in_ elem =
      .panic "expected input expression to have not-null column") :
    elem.Operator = .CountRowsOp ∧ (in_.Logical.NotNullCols.Next 0).2 = false := by
  unfold EnsureAggsIgnoreNulls.remap at h
  split at h
  · split at h
    · cases h
    · simp only [Result.panic.injEq] at h
      exact absurd h (by decide)
  · rename_i hop
    split at h
    · rename_i hn
      exact ⟨hop, hn⟩
    · cases h
  · cases h

theorem EnsureAggsIgnoreNulls.loop_panic (in_ : Expr) (all : List Expr) (i : Nat)
    (out : Option (List Expr)) (rest : List Expr)
    (h : EnsureAggsIgnoreNulls.loop in_ all i out rest =
      .panic "expected input expression to have not-null column") :
    (∃ elem ∈ rest, elem.Operator = .CountRowsOp) ∧
      (in_.Logical.NotNullCols.Next 0).2 = false := by
  induction rest generalizing i out with
  | nil => rw [EnsureAggsIgnoreNulls.loop] at h; cases h
  | cons elem rest ih =>
    rw [EnsureAggsIgnoreNulls.loop] at h
    cases hr : EnsureAggsIgnoreNulls.remap in_ elem with
    | panic msg =>
      rw [hr] at h
      simp only [Result.panic.injEq] at h
      rw [h] at hr
      obtain ⟨h1, h2⟩ := EnsureAggsIgnoreNulls.remap_panic in_ elem hr
      exact ⟨⟨elem, List.mem_cons_self _ _, h1⟩, h2⟩
    | ok newElem =>
      rw [hr] at h
      simp only at h
      obtain ⟨⟨e, he, hop⟩, h2⟩ := ih _ _ h
      exact ⟨⟨e, List.mem_cons_of_mem _ he, hop⟩, h2⟩

theorem EnsureAggsIgnoreNulls_panic (in_ aggs : Expr)
    (h : EnsureAggsIgnoreNulls in_ aggs =
      .panic "expected input expression to have not-null column") :
    (∃ elem ∈ aggs.children, elem.Operator = .CountRowsOp) ∧
      (in_.Logical.NotNullCols.Next 0).2 = false := by
  unfold EnsureAggsIgnoreNulls at h
  split at h
  · rename_i msg hl
    simp only [Result.panic.injEq] at h
    rw [h] at hl
    exact EnsureAggsIgnoreNulls.loop_panic in_ _ _ _ _ hl
  · cases h
  · cases h

theorem EnsureAggsIgnoreNulls.loop_panics (in_ : Expr) (all : List Expr) (i : Nat)
    (out : Option (List Expr)) (rest : List Expr)
    (hwf : ∀ elem ∈ rest, elem.Operator = .ConstAggOp → elem.children ≠ [])
    (hcr : ∃ elem ∈ rest, elem.Operator = .CountRowsOp)
    (hnn : (in_.Logical.NotNullCols.Next 0).2 = false) :
    EnsureAggsIgnoreNulls.loop in_ all i out rest =
      .panic "expected input expression to have not-null column" := by
  induction rest generalizing i out with
  | nil => obtain ⟨e, he, _⟩ := hcr; cases he
  | cons elem rest ih =>
    rw [EnsureAggsIgnoreNulls.loop]
    by_cases hop : elem.Operator = .CountRowsOp
    · have : EnsureAggsIgnoreNulls.remap in_ elem =
          .panic "expected input expression to have not-null column" := by
        unfold EnsureAggsIgnoreNulls.remap
        rw [hop]
        simp only [hnn, if_true]
      rw [this]
    · have hrest : ∃ e ∈ rest, e.Operator = .CountRowsOp := by
        obtain ⟨e, he, heop⟩ := hcr
        rcases List.mem_cons.mp he with rfl | he
        · exact absurd heop hop
        · exact ⟨e, he, heop⟩
      have hok : ∃ newElem, EnsureAggsIgnoreNulls.remap in_ elem = .ok newElem := by
        unfold EnsureAggsIgnoreNulls.remap
        split
        · rename_i hc
          cases hch : elem.children with
          | nil => exact absurd hch (hwf elem (List.mem_cons_self _ _) hc)
          | cons x xs => exact ⟨_, rfl⟩
        · rename_i hc
          exact absurd hc hop
        · exact ⟨_, rfl⟩
      obtain ⟨newElem, hn⟩ := hok
      rw [hn]
      exact ih _ _ (fun x hx => hwf x (List.mem_cons_of_mem _ hx)) hrest

/-! ### The values fed to `BoolOr` -/

theorem boolOrInputs_construct (db : Database) (inner arg : Expr) (cols : ColList)
    (grouping : ColSet) (projections : Expr) (env : Row) :
    boolOrInputs db (ConstructProject
      (ConstructScalarGroupBy inner (ConstructAggregations [ConstructBoolOr arg] cols) grouping)
      projections) env =
      (evalRel db inner env).map (fun row => evalScalar db arg (row ++ env)) := rfl

theorem boolOrAgg_bools (vals : List Datum)
    (h : ∀ v ∈ vals, v = Datum.bool true ∨ v = Datum.bool false) :
    boolOrAgg vals = Datum.null ↔ vals = [] := by
  constructor
  · intro hn
    cases vals with
    | nil => rfl
    | cons v rest =>
      exfalso
      unfold boolOrAgg at hn
      rcases h v (List.mem_cons_self _ _) with rfl | rfl
      · simp at hn
      · by_cases ht : (Datum.bool false :: rest).contains (Datum.bool true) = true
        · rw [if_pos ht] at hn; cases hn
        · rw [if_neg ht] at hn
          simp at hn
  · intro he
    rw [he]
    rfl

theorem constructGroupByAny_boolOr (db : Database) (r : subqueryHoister) (scalar : Expr)
    (n : Nat) (input : Expr) (env : Row) (z : Datum)
    (hlen : input.Logical.OutputCols.Len = 1)
    (hbind : ∀ row ∈ evalRel db input env,
      (row.lookup (input.Logical.OutputCols.Next 0).1).isSome = true)
    (hz : ∀ row ∈ evalRel db input env,
      evalScalar db (cacheAnyScalar r scalar).1 (row ++ env) = z) :
    ∃ sub r1 groupBy, constructGroupByAny r scalar (.OtherScalarOp n) input = .ok (sub, r1) ∧
      groupByOf sub = some groupBy ∧
      evalRel db groupBy env =
        [[(((cacheAnyScalar r scalar).2.c.md.cols.length : Int) + 2,
          boolOrAgg (boolOrInputs db sub env))]] ∧
      boolOrInputs db sub env =
        (((evalRel db input env).map
            (fun row => row.get (input.Logical.OutputCols.Next 0).1)).filter
          (fun x => db.scalar (.OtherScalarOp n) .none [z, x] != Datum.bool false)).map
          (fun x => Datum.bool (x != Datum.null)) := by
  unfold constructGroupByAny
  generalize cacheAnyScalar r scalar = cached at hz ⊢
  obtain ⟨scalar1, r0⟩ := cached
  simp only [referenceSingleColumn_ok input hlen, subqueryHoister.AddColumn, Metadata.AddColumn]
  refine ⟨_, _, _, rfl, rfl, ?_, ?_⟩
  · rw [boolOrInputs_construct, evalRel_ScalarGroupBy, evalAggs_BoolOr]
    simp only [List.zip_cons_cons, List.zip_nil_right, List.length_append, List.length_cons,
      List.length_nil]
    have hcol2 : ((r0.c.md.cols.length + (0 + 1) : Nat) : Int) + 1 =
        (r0.c.md.cols.length : Int) + 2 := by push_cast; ring
    rw [hcol2]
  · simp only at hz
    rw [boolOrInputs_construct, evalRel_Project, evalRel_Select]
    simp only [filter_contains_empty, List.nil_append, evalScalars_singleton, List.map_map,
      Function.comp_def, List.zip_cons_cons, List.zip_nil_right, List.length_append,
      List.length_cons, List.length_nil, evalScalar_IsNot, evalScalar_Variable,
      evalScalar_Null, evalScalar_False, evalScalar_Binary, List.singleton_append,
      List.cons_append, Row.get_cons_self]
    have hget : ∀ row ∈ evalRel db input env,
        (row ++ env).get (input.Logical.OutputCols.Next 0).1 =
          row.get (input.Logical.OutputCols.Next 0).1 := by
      intro row hrow
      have := hbind row hrow
      rw [Option.isSome_iff_exists] at this
      obtain ⟨d, hd⟩ := this
      simp [Row.get, List.lookup_append, hd]
    rw [List.filter_map, List.map_map]
    have hf : List.filter
        (fun row => Datum.bool (db.scalar (.OtherScalarOp n) .none
          [evalScalar db scalar1 (row ++ env),
            (row ++ env).get (input.Logical.OutputCols.Next 0).1] != Datum.bool false) ==
          Datum.bool true)
        (evalRel db input env) =
        List.filter ((fun x => db.scalar (.OtherScalarOp n) .none [z, x] != Datum.bool false) ∘
          fun row => row.get (input.Logical.OutputCols.Next 0).1) (evalRel db input env) := by
      apply List.filter_congr
      intro row hrow
      rw [hget row hrow, hz row hrow]
      simp only [Function.comp]
      generalize (db.scalar (.OtherScalarOp n) .none
        [z, row.get (input.Logical.OutputCols.Next 0).1] != Datum.bool false) = c
      cases c <;> decide
    rw [hf]
    apply List.map_congr_left
    intro row hrow
    have hrow1 := (List.mem_filter.mp hrow).1
    simp [hget row hrow1]

/-! ### Counting substitutions and joins -/

mutual
theorem substitutions_self (e : Expr) : substitutions e e = 0 := by
  match e with
  | .mk op cs priv l =>
    rw [substitutions]
    by_cases hcor : op.IsSubquery = true ∧ l.OuterCols.Empty = false
    · rw [if_pos hcor, if_neg]
      intro h
      have h1 : op = .VariableOp := h
      rw [h1] at hcor
      exact absurd hcor.1 (by decide)
    · rw [if_neg hcor]
      exact substitutions.list_self cs
theorem substitutions.list_self (cs : List Expr) : substitutions.list cs cs = 0 := by
  match cs with
  | [] => rfl
  | c :: rest =>
    rw [substitutions.list, substitutions_self c, substitutions.list_self rest]
end

mutual
theorem hoistAll_substitutions (r r1 : subqueryHoister) (e e1 : Expr)
    (hc : r.c.rule.Consistent) (h : hoistAll r e = .ok (e1, r1)) :
    substitutions e e1 = (liftList e).length ∧ r1.c.rule.Consistent := by
  match e with
  | .mk op cs priv l =>
    rw [hoistAll] at h
    rw [substitutions, liftList]
    by_cases hcor : op.IsSubquery = true ∧ l.OuterCols.Empty = false
    · rw [if_pos hcor] at h
      rw [if_pos hcor, if_pos hcor]
      obtain ⟨c, rfl⟩ := hoistCorrelated_root _ _ _ _ h
      refine ⟨rfl, ?_⟩
      rw [hoistCorrelated_keeps_rule _ _ _ _ h]
      exact hc
    · rw [if_neg hcor] at h
      rw [if_neg hcor, if_neg hcor]
      cases hch : hoistAll.children r cs with
      | panic msg => rw [hch] at h; cases h
      | ok p =>
        obtain ⟨cs1, r2⟩ := p
        rw [hch] at h
        simp only [Result.ok.injEq, Prod.mk.injEq] at h
        obtain ⟨h1, h2⟩ := hoistAll.children_substitutions r r2 cs cs1 hc hch
        obtain ⟨l1, hl1⟩ := Replace_form op cs cs1 priv l
        rw [← h.1, ← h.2, hl1]
        exact ⟨h1, h2⟩
theorem hoistAll.children_substitutions (r r1 : subqueryHoister) (cs cs1 : List Expr)
    (hc : r.c.rule.Consistent) (h : hoistAll.children r cs = .ok (cs1, r1)) :
    substitutions.list cs cs1 = (liftList.children cs).length ∧ r1.c.rule.Consistent := by
  match cs with
  | [] =>
    rw [hoistAll.children] at h
    simp only [Result.ok.injEq, Prod.mk.injEq] at h
    rw [← h.1, ← h.2]
    exact ⟨rfl, hc⟩
  | child :: rest =>
    obtain ⟨hb, hcons1, _⟩ := HasHoistableSubquery_consistent r.c.rule child hc
    rw [hoistAll.children] at h
    rw [liftList.children]
    cases hh : HasHoistableSubquery r.c.rule child with
    | mk b rule1 =>
      rw [hh] at hb hcons1 h
      simp only at hb hcons1 h
      cases b with
      | true =>
        simp only at h
        cases h1 : hoistAll { r with c := { r.c with rule := rule1 } } child with
        | panic msg => rw [h1] at h; cases h
        | ok p =>
          obtain ⟨child1, r2⟩ := p
          rw [h1] at h
          simp only at h
          obtain ⟨g1, g3⟩ := hoistAll_substitutions _ r2 child child1 hcons1 h1
          cases h2 : hoistAll.children r2 rest with
          | panic msg => rw [h2] at h; cases h
          | ok q =>
            obtain ⟨rest1, r3⟩ := q
            rw [h2] at h
            simp only [Result.ok.injEq, Prod.mk.injEq] at h
            obtain ⟨k1, k2⟩ := hoistAll.children_substitutions r2 r3 rest rest1 g3 h2
            rw [← h.1, ← h.2, substitutions.list, g1, k1, ← hb]
            simp only [if_true, List.length_append]
            exact ⟨trivial, k2⟩
      | false =>
        simp only at h
        cases h2 : hoistAll.children { r with c := { r.c with rule := rule1 } } rest with
        | panic msg => rw [h2] at h; cases h
        | ok q =>
          obtain ⟨rest1, r3⟩ := q
          rw [h2] at h
          simp only [Result.ok.injEq, Prod.mk.injEq] at h
          obtain ⟨k1, k2⟩ := hoistAll.children_substitutions _ r3 rest rest1 hcons1 h2
          rw [← h.1, ← h.2, substitutions.list, substitutions_self, k1, ← hb]
          simp only [Bool.false_eq_true, if_false, List.nil_append, Nat.zero_add]
          exact ⟨trivial, k2⟩
end

theorem size_mk (op : Operator) (cs : List Expr) (priv : Private) (l : Logical) :
    (Expr.mk op cs priv l).size = 1 + Expr.sizeList cs := by
  rw [Expr.size]

theorem applyJoin_form (prev sub : Expr) :
    ∃ op l, (op = .LeftJoinApplyOp ∨ op = .InnerJoinApplyOp) ∧
      applyJoin prev sub = .mk op [prev, sub, ConstructTrue] .none l := by
  unfold applyJoin
  split
  · exact ⟨_, _, Or.inl rfl, rfl⟩
  · exact ⟨_, _, Or.inr rfl, rfl⟩

theorem LeftDeep.size_le {base e : Expr} {subs : List Expr} (h : LeftDeep base subs e) :
    base.size ≤ e.size := by
  induction h with
  | base => exact le_rfl
  | @project subs1 e1 scalar col _ ih =>
    have : (projectExtraCol e1 scalar col).size =
        1 + Expr.sizeList [e1, ConstructProjections [scalar] [col] e1.Logical.OutputCols] := by
      simp only [projectExtraCol, ConstructProject, memoize, size_mk]
    rw [this]
    simp only [Expr.sizeList]
    omega
  | @join subs1 e1 sub _ ih =>
    obtain ⟨op, l, _, hf⟩ := applyJoin_form e1 sub
    rw [hf, size_mk]
    simp only [Expr.sizeList]
    omega

theorem LeftDeep.joinsAbove_eq {base e : Expr} {subs : List Expr} (h : LeftDeep base subs e) :
    Decorrelate.joinsAbove base e = subs.length := by
  induction h with
  | base =>
    cases base with
    | mk op cs priv l => rw [Decorrelate.joinsAbove, if_pos rfl]; rfl
  | @project subs1 e1 scalar col hd ih =>
    have hsz := hd.size_le
    have hform : projectExtraCol e1 scalar col =
        .mk .ProjectOp [e1, ConstructProjections [scalar] [col] e1.Logical.OutputCols] .none
          (buildProps .ProjectOp
            [e1, ConstructProjections [scalar] [col] e1.Logical.OutputCols] .none) := rfl
    have hne : projectExtraCol e1 scalar col ≠ base := by
      intro he
      have := congrArg Expr.size he
      rw [hform, size_mk] at this
      simp only [Expr.sizeList] at this
      omega
    rw [hform] at hne ⊢
    rw [Decorrelate.joinsAbove, if_neg hne, if_neg (by decide), Decorrelate.joinsAbove.first, ih]
    omega
  | @join subs1 e1 sub hd ih =>
    have hsz := hd.size_le
    obtain ⟨op, l, hop, hf⟩ := applyJoin_form e1 sub
    have hne : applyJoin e1 sub ≠ base := by
      intro he
      have := congrArg Expr.size he
      rw [hf, size_mk] at this
      simp only [Expr.sizeList] at this
      omega
    rw [hf] at hne ⊢
    rw [Decorrelate.joinsAbove, if_neg hne, if_pos hop, Decorrelate.joinsAbove.first, ih, List.length_append]
    simp only [List.length_singleton]
    omega

theorem hoistAll_joins (r r1 : subqueryHoister) (e e1 : Expr) (hc : r.c.rule.Consistent)
    (h : hoistAll r e = .ok (e1, r1)) :
    ∃ subs, subs.length = (liftList e).length ∧ LeftDeep r.hoisted subs r1.hoisted := by
  obtain ⟨h1, _⟩ := hoistAll_liftAll r e r.c.rule hc
  rw [subqueryHoister.withRule_self] at h1
  obtain ⟨subs, h3, h4⟩ := liftAll_chain _ _ _ (h1 e1 r1 h).1
  exact ⟨subs, h3.length_eq.symm, h4⟩

/-! ### Aggregates over padded inputs -/

theorem EnsureAggsIgnoreNulls_ok_map (in_ aggs : Expr)
    (hnn : (in_.Logical.NotNullCols.Next 0).2 = true)
    (hwf : ∀ elem ∈ aggs.children, elem.Operator = .ConstAggOp → elem.children ≠ []) :
    ∃ out, EnsureAggsIgnoreNulls in_ aggs = .ok out ∧
      out.children = aggs.children.map (ignoringNulls in_) := by
  obtain ⟨res, hres, hcase⟩ := EnsureAggsIgnoreNulls.loop_spec in_ aggs.children hnn hwf
    aggs.children [] none rfl (Or.inl ⟨rfl, fun e he => absurd he (List.not_mem_nil e)⟩)
  have hloop : EnsureAggsIgnoreNulls.loop in_ aggs.children 0 none aggs.children = .ok res := hres
  rcases hcase with ⟨hnone, hsame⟩ | ⟨hsome, _⟩
  · subst hnone
    refine ⟨aggs, by rw [EnsureAggsIgnoreNulls, hloop], ?_⟩
    conv_lhs => rw [← List.map_id aggs.children]
    exact List.map_congr_left (fun x hx => (hsame x hx).symm)
  · subst hsome
    exact ⟨memoize .AggregationsOp (aggs.children.map (ignoringNulls in_)) aggs.Private,
      by rw [EnsureAggsIgnoreNulls, hloop], rfl⟩

theorem evalAggs_pad (db : Database) (elems : List Expr) (nr env : Row)
    (h : ∀ elem ∈ elems, NullIgnoring db elem.Operator ∧
      ∀ d ∈ evalScalars db elem.children (nr ++ env), d = Datum.null)
    (rows : List Row) (n : Nat) :
    evalAggs db elems (rows ++ List.replicate n nr) env = evalAggs db elems rows env := by
  induction elems with
  | nil => simp [evalAggs]
  | cons elem rest ih =>
    cases elem with
    | mk op args priv l =>
      obtain ⟨h1, h2⟩ := h _ (List.mem_cons_self _ _)
      rw [evalAggs, evalAggs, ih (fun x hx => h x (List.mem_cons_of_mem _ hx))]
      congr 1
      rw [List.map_append]
      apply h1
      intro p hp d hd
      rw [List.map_replicate] at hp
      rw [List.eq_of_mem_replicate hp] at hd
      exact h2 d hd

theorem ignoringNulls_nullIgnoring (db : Database) (ignoresNulls : Operator → Bool)
    (in_ elem : Expr) (env : Row)
    (hcan : elem.Operator = .CountRowsOp ∨ elem.Operator = .ConstAggOp ∨
      ignoresNulls elem.Operator = true)
    (hcol : (in_.Logical.NotNullCols.Next 0).1 ∈ in_.Logical.OutputCols)
    (hwf : elem.Operator = .ConstAggOp → elem.children ≠ [])
    (hflag : ignoresNulls .ConstNotNullAggOp = true ∧ ignoresNulls .CountOp = true)
    (hargs : ∀ d ∈ evalScalars db elem.children (nullRow in_.Logical.OutputCols ++ env),
      d = Datum.null) :
    ((ignoringNulls in_ elem).Operator ≠ .CountRowsOp ∧
      (ignoringNulls in_ elem).Operator ≠ .ConstAggOp ∧
      ignoresNulls (ignoringNulls in_ elem).Operator = true) ∧
    ∀ d ∈ evalScalars db (ignoringNulls in_ elem).children
      (nullRow in_.Logical.OutputCols ++ env), d = Datum.null := by
  unfold ignoringNulls
  by_cases h1 : elem.Operator = .ConstAggOp
  · rw [if_pos h1]
    cases hch : elem.children with
    | nil => exact absurd hch (hwf h1)
    | cons x rest =>
      simp only
      refine ⟨⟨(fun h => by cases h), (fun h => by cases h), hflag.1⟩, ?_⟩
      intro d hd
      rw [hch, evalScalars] at hargs
      simp only [ConstructConstNotNullAgg, memoize, Expr.children, evalScalars,
        List.mem_singleton] at hd
      exact hargs d (by rw [hd]; exact List.mem_cons_self _ _)
  · rw [if_neg h1]
    by_cases h2 : elem.Operator = .CountRowsOp
    · rw [if_pos h2]
      refine ⟨⟨(fun h => by cases h), (fun h => by cases h), hflag.2⟩, ?_⟩
      intro d hd
      simp only [ConstructCount, memoize, Expr.children, evalScalars,
        List.mem_singleton] at hd
      rw [hd]
      simp only [ConstructVariable, memoize, evalScalar]
      rw [Row.get_append_left _ _ _ (by rw [Row.lookup_nullRow _ _ hcol]; rfl)]
      simp [Row.get, Row.lookup_nullRow _ _ hcol]
    · rw [if_neg h2]
      rcases hcan with h | h | h
      · exact absurd h h2
      · exact absurd h h1
      · exact ⟨⟨h2, h1, h⟩, hargs⟩

theorem head_of_nulls (p : List Datum) (h : ∀ d ∈ p, d = Datum.null) :
    p.head?.getD Datum.null = Datum.null := by
  cases p with
  | nil => rfl
  | cons a rest => exact h a (List.mem_cons_self _ _)

theorem map_head_of_nulls (pad : List (List Datum)) (h : ∀ p ∈ pad, ∀ d ∈ p, d = Datum.null) :
    ∀ x ∈ pad.map (fun args => args.head?.getD Datum.null), x = Datum.null := by
  intro x hx
  obtain ⟨p, hp, rfl⟩ := List.mem_map.mp hx
  exact head_of_nulls p (h p hp)

theorem boolOrAgg_pad (vals nulls : List Datum) (h : ∀ x ∈ nulls, x = Datum.null) :
    boolOrAgg (vals ++ nulls) = boolOrAgg vals := by
  have hc : ∀ b : Bool, (vals ++ nulls).contains (Datum.bool b) = vals.contains (Datum.bool b) := by
    intro b
    have hn : nulls.elem (Datum.bool b) = false := by
      rw [← Bool.not_eq_true, List.elem_iff]
      intro hm
      have := h _ hm
      cases this
    simp only [List.contains, List.elem_eq_mem, List.mem_append, Bool.decide_or] at hn ⊢
    rw [hn, Bool.or_false]
  unfold boolOrAgg
  rw [hc true, hc false]

theorem NullIgnoring.boolOr (db : Database) : NullIgnoring db .BoolOrOp := by
  intro inputs pad h
  simp only [aggregate, List.map_append]
  exact boolOrAgg_pad _ _ (map_head_of_nulls pad h)

theorem aggDb_sound (op : Operator) (hop : exampleIgnoresNulls op = true) :
    NullIgnoring aggDb op := by
  have h3 : op = .BoolOrOp ∨ op = .CountOp ∨ op = .ConstNotNullAggOp := by
    simp only [exampleIgnoresNulls, Bool.or_eq_true, decide_eq_true_eq] at hop
    tauto
  rcases h3 with rfl | rfl | rfl
  · exact NullIgnoring.boolOr aggDb
  · intro inputs pad h
    simp only [aggregate, aggDb, List.filter_append]
    have : pad.filter (fun args => args.head?.getD Datum.null != Datum.null) = [] := by
      rw [List.filter_eq_nil_iff]
      intro p hp
      rw [head_of_nulls p (h p hp)]
      decide
    rw [this, List.append_nil]
  · intro inputs pad h
    simp only [aggregate, aggDb, List.map_append, List.find?_append]
    have : (pad.map (fun args => args.head?.getD Datum.null)).find?
        (fun d => d != Datum.null) = none := by
      rw [List.find?_eq_none]
      intro x hx
      rw [map_head_of_nulls pad h x hx]
      decide
    rw [this, Option.or_none]

/-! ### The rows of the input after hoisting -/

theorem hoistedColumns_base (db : Database) (base : Expr) (env h : Row) :
    hoistedColumns db base env base h = [] := by
  cases base with
  | mk op cs priv l => rw [hoistedColumns, if_pos rfl]

theorem hoistedColumns_join (db : Database) (base prev sub : Expr) (env h : Row)
    (hsz : base.size ≤ prev.size) :
    hoistedColumns db base env (applyJoin prev sub) h =
      hoistedColumns db base env prev h ++
        liftedRow db sub env (h ++ hoistedColumns db base env prev h) := by
  obtain ⟨op, l, hop, hf⟩ := applyJoin_form prev sub
  have hne : applyJoin prev sub ≠ base := by
    intro he
    have := congrArg Expr.size he
    rw [hf, size_mk] at this
    simp only [Expr.sizeList] at this
    omega
  rw [hf] at hne ⊢
  rw [hoistedColumns, if_neg hne]
  rcases hop with rfl | rfl <;> simp only [hoistedColumns.first, stepColumns]

theorem hoistedColumns_project (db : Database) (base prev scalar : Expr) (col : ColumnID)
    (env h : Row) (hsz : base.size ≤ prev.size) :
    hoistedColumns db base env (projectExtraCol prev scalar col) h =
      hoistedColumns db base env prev h ++
        [(col, evalScalar db scalar (h ++ hoistedColumns db base env prev h ++ env))] := by
  have hform : projectExtraCol prev scalar col =
      .mk .ProjectOp [prev, ConstructProjections [scalar] [col] prev.Logical.OutputCols] .none
        (buildProps .ProjectOp
          [prev, ConstructProjections [scalar] [col] prev.Logical.OutputCols] .none) := rfl
  have hne : projectExtraCol prev scalar col ≠ base := by
    intro he
    have := congrArg Expr.size he
    rw [hform, size_mk] at this
    simp only [Expr.sizeList] at this
    omega
  rw [hform] at hne ⊢
  rw [hoistedColumns, if_neg hne]
  simp only [hoistedColumns.first, stepColumns, ConstructProjections, memoize, Expr.Private,
    Expr.children, evalScalars, List.zip_cons_cons, List.zip_nil_right]

theorem LiftedFrom.sound (db : Database) (s sub : Expr) (h : LiftedFrom s sub)
    (hs : GoodSubquery db s) :
    AtMostOneRow db sub ∧ CardinalitySound db sub ∧ Conforms db sub := by
  obtain ⟨r, r1, child0, others, hch, hbuilt⟩ := h
  by_cases hE : s.Operator = .ExistsOp
  · simp only [liftedRelation, hE, Result.ok.injEq] at hbuilt
    have := constructGroupByExists_oneRow db r child0
    rw [hbuilt] at this
    exact this.good
  · by_cases hA : s.Operator = .AnyOp
    · simp only [liftedRelation, hA] at hbuilt
      split at hbuilt
      · exact (constructGroupByAny_oneRow db _ _ _ _ _ _ hbuilt).good
      · cases hbuilt
    · have hsub : sub = child0 := by
        unfold liftedRelation at hbuilt
        split at hbuilt
        · rename_i hop; exact absurd hop hE
        · rename_i hop; exact absurd hop hA
        · simp only [Result.ok.injEq, Prod.mk.injEq] at hbuilt
          exact hbuilt.1.symm
      rw [hsub]
      exact hs hE hA child0 others hch

theorem LeftDeep.rows (db : Database) {base e : Expr} {subs : List Expr}
    (h : LeftDeep base subs e) (hin : Conforms db base)
    (hgood : ∀ sub ∈ subs, AtMostOneRow db sub ∧ CardinalitySound db sub ∧ Conforms db sub) :
    Conforms db e ∧ ∀ env, evalRel db e env =
      (evalRel db base env).map (fun h => h ++ hoistedColumns db base env e h) := by
  induction h with
  | base =>
    refine ⟨hin, fun env => ?_⟩
    simp only [hoistedColumns_base, List.append_nil, List.map_id']
  | @project subs1 e1 scalar col hd ih =>
    obtain ⟨hc, heq⟩ := ih hgood
    refine ⟨projectExtraCol_conforms db e1 scalar col hc, fun env => ?_⟩
    rw [projectExtraCol_eval db e1 scalar col env hc, heq env, List.map_map]
    apply List.map_congr_left
    intro h _
    simp only [Function.comp, hoistedColumns_project db base e1 scalar col env h hd.size_le,
      List.append_assoc]
  | @join subs1 e1 sub hd ih =>
    obtain ⟨hc, heq⟩ := ih (fun x hx => hgood x (List.mem_append_left _ hx))
    obtain ⟨g1, g2, g3⟩ := hgood sub (List.mem_append_right _ (List.mem_singleton.mpr rfl))
    refine ⟨applyJoin_conforms db e1 sub g1 g2 g3 hc, fun env => ?_⟩
    rw [applyJoin_eval db e1 sub env g1 g2, heq env, List.map_map]
    apply List.map_congr_left
    intro h _
    simp only [Function.comp, hoistedColumns_join db base e1 sub env h hd.size_le,
      List.append_assoc]

theorem Forall₂_good (db : Database) (l subs : List Expr) (h : List.Forall₂ LiftedFrom l subs)
    (hs : ∀ s ∈ l, GoodSubquery db s) :
    ∀ sub ∈ subs, AtMostOneRow db sub ∧ CardinalitySound db sub ∧ Conforms db sub := by
  induction h with
  | nil => intro sub hsub; cases hsub
  | @cons s sub l1 subs1 h1 _ ih =>
    intro x hx
    rcases List.mem_cons.mp hx with rfl | hx
    · exact LiftedFrom.sound db s x h1 (hs s (List.mem_cons_self _ _))
    · exact ih (fun t ht => hs t (List.mem_cons_of_mem _ ht)) x hx

theorem hoistAll_rows (db : Database) (r r1 : subqueryHoister) (e e1 : Expr)
    (hcons : r.c.rule.Consistent) (h : hoistAll r e = .ok (e1, r1))
    (hin : Conforms db r.hoisted) (hsub : ∀ s ∈ liftList e, GoodSubquery db s) :
    ∃ subs, List.Forall₂ LiftedFrom (liftList e) subs ∧ LeftDeep r.hoisted subs r1.hoisted ∧
      ∀ env, evalRel db r1.hoisted env =
        (evalRel db r.hoisted env).map
          (fun h => h ++ hoistedColumns db r.hoisted env r1.hoisted h) := by
  obtain ⟨h1, _⟩ := hoistAll_liftAll r e r.c.rule hcons
  rw [subqueryHoister.withRule_self] at h1
  obtain ⟨subs, h3, h4⟩ := liftAll_chain _ _ _ (h1 e1 r1 h).1
  exact ⟨subs, h3, h4, (h4.rows db hin (Forall₂_good db _ _ h3 hsub)).2⟩

theorem exampleDb_input_conforms : Conforms exampleDb exampleHoister.hoisted := by
  intro env row hrow p hp
  have hr : evalRel exampleDb exampleHoister.hoisted env =
      [[(1, .int 1), (2, .int 2)], [(1, .int 5), (2, .int 6)]] :=
    evalRel_exampleRel exampleDb 0 [1, 2] [] Cardinality.any env
  rw [hr] at hrow
  have hout : ∀ c : Int, c = 1 ∨ c = 2 → c ∈ exampleHoister.hoisted.Logical.OutputCols := by
    intro c hc
    rcases hc with rfl | rfl <;> decide
  simp only [List.mem_cons, List.mem_singleton, List.not_mem_nil, or_false] at hrow
  rcases hrow with rfl | rfl
  · simp only [List.mem_cons, List.mem_singleton, List.not_mem_nil, or_false] at hp
    rcases hp with rfl | rfl
    · exact hout 1 (Or.inl rfl)
    · exact hout 2 (Or.inr rfl)
  · simp only [List.mem_cons, List.mem_singleton, List.not_mem_nil, or_false] at hp
    rcases hp with rfl | rfl
    · exact hout 1 (Or.inl rfl)
    · exact hout 2 (Or.inr rfl)

theorem exampleWhen_good : ∀ s ∈ liftList exampleWhen, GoodSubquery exampleDb s := by
  intro s hs
  have hl : liftList exampleWhen =
      [exampleSubquery exampleRel1 false, exampleSubquery exampleRel2 true] := by decide
  rw [hl] at hs
  simp only [List.mem_cons, List.mem_singleton, List.not_mem_nil, or_false] at hs
  rcases hs with rfl | rfl
  · intro _ _ child0 others hch
    have hc : child0 = exampleRel1 := by
      have : (exampleSubquery exampleRel1 false).children = [exampleRel1] := rfl
      rw [this] at hch
      exact (List.cons.inj hch).1.symm
    subst hc
    have hr : ∀ env, evalRel exampleDb exampleRel1 env =
        if env.get 1 = .int 1 then [[(10, .int 7)]] else [] :=
      fun env => evalRel_exampleRel exampleDb 1 [10] [1] ⟨0, 1⟩ env
    refine ⟨?_, ?_, ?_⟩
    · intro env
      rw [hr]
      split <;> simp
    · intro hz
      exact absurd hz (by decide)
    · intro env row hrow p hp
      rw [hr] at hrow
      split at hrow
      · simp only [List.mem_singleton] at hrow
        subst hrow
        simp only [List.mem_singleton] at hp
        subst hp
        decide
      · cases hrow
  · intro _ _ child0 others hch
    have hc : child0 = exampleRel2 := by
      have : (exampleSubquery exampleRel2 true).children = [exampleRel2] := rfl
      rw [this] at hch
      exact (List.cons.inj hch).1.symm
    subst hc
    have hr : ∀ env, evalRel exampleDb exampleRel2 env = [[(20, .int 9)]] :=
      fun env => evalRel_exampleRel exampleDb 2 [20] [1] ⟨1, 1⟩ env
    refine ⟨?_, ?_, ?_⟩
    · intro env
      rw [hr]
      simp
    · intro _ env
      rw [hr]
      simp
    · intro env row hrow p hp
      rw [hr] at hrow
      simp only [List.mem_singleton] at hrow
      subst hrow
      simp only [List.mem_singleton] at hp
      subst hp
      decide

theorem equivFilter_lifted_good : ∀ s ∈ liftList equivFilter, GoodSubquery equivDb s := by
  intro s hs
  have hl : liftList equivFilter = [equivExists, equivAny] := by decide
  rw [hl] at hs
  simp only [List.mem_cons, List.mem_singleton, List.not_mem_nil, or_false] at hs
  rcases hs with rfl | rfl
  · intro h; exact absurd rfl h
  · intro _ h; exact absurd rfl h

/-! ## Claims -/

/-- C1: for every database, every relation `R` and every scalar tree `S`,
`HoistSelectSubquery` returns, and the relation it returns has the same rows as
`Select(R, S)`, nulls included and in the same order, under every binding of
the outer columns; likewise `HoistProjectSubquery` returns a relation with the
same rows as `Project(R, P)` for a `Projections` node `P`. The input is
well-formed (`GoodInput`): the rule cache is consistent and the rows of `R` are
within its output columns, which are registered. The trees are well-formed
(`GoodTree`): the relation of each lifted plain subquery has at most one row, a
sound cardinality and rows that bind its first output column; the comparison of
each lifted `Any` propagates nulls; the output columns of the lifted plain
subqueries are registered and pairwise distinct; the set `C` of the columns
hoisting adds (those of the lifted relations and the ones not registered yet)
holds no column of `R` nor a pass-through column of `P`, and no part of the
trees that stays in place depends on a column of `C`. -/
theorem hoisting_preserves_rows (db : Database) (C : ColumnID → Prop) (c : CustomFuncs)
    (R S : Expr) (elems : List Expr) (synth : ColList) (pass : ColSet) (l : Logical)
    (hinput : GoodInput db C c R) (hfilter : GoodTree db C c R S)
    (hproj : GoodTree db C c R (.mk .ProjectionsOp elems (.projectionsOpDef synth pass) l))
    (hpass : ∀ col ∈ pass, ¬ C col) :
    (∃ e c1, HoistSelectSubquery c R S = .ok (e, c1) ∧
      ∀ env, evalRel db e env = evalRel db (ConstructSelect R S) env) ∧
    (∃ e c1, HoistProjectSubquery c R
        (.mk .ProjectionsOp elems (.projectionsOpDef synth pass) l) = .ok (e, c1) ∧
      ∀ env, evalRel db e env = evalRel db
        (ConstructProject R (.mk .ProjectionsOp elems (.projectionsOpDef synth pass) l)) env) :=
  ⟨HoistSelectSubquery_rows db C c R S hinput hfilter,
    HoistProjectSubquery_rows db C c R elems synth pass l hinput hproj hpass⟩

/-- Witness of C1: over the example database, the filter `equivFilter` (a
correlated `Exists` and a correlated `Any`) and the projections
`equivProjections` (a correlated plain subquery) on the example input, with the
columns above 2 as the columns hoisting adds. -/
theorem hoisting_preserves_rows_witness :
    hoistableSpec equivFilter = true ∧ hoistableSpec equivProjections = true ∧
    evalRel equivDb (ConstructSelect exampleInput equivFilter) [] =
      [[(1, .int 5), (2, .int 6)]] ∧
    evalRel equivDb (ConstructProject exampleInput equivProjections) [] =
      [[(1, .int 1), (11, .int 7)], [(1, .int 5), (11, .null)]] ∧
    (∃ e c1, HoistSelectSubquery wideFuncs exampleInput equivFilter = .ok (e, c1) ∧
      ∀ env, evalRel equivDb e env =
        evalRel equivDb (ConstructSelect exampleInput equivFilter) env) ∧
    (∃ e c1, HoistProjectSubquery wideFuncs exampleInput equivProjections = .ok (e, c1) ∧
      ∀ env, evalRel equivDb e env =
        evalRel equivDb (ConstructProject exampleInput equivProjections) env) :=
  ⟨by decide, by decide, by decide, by decide,
    hoisting_preserves_rows equivDb (fun c => 2 < c) wideFuncs exampleInput equivFilter
      [exampleSubquery exampleRel1 false] [11] (ColSet.ofList [1])
      (exampleProps [] [1] Cardinality.any false)
      equivInput_good equivFilter_good equivProjections_good
      (fun col hcol hc => by
        have h1 : col = 1 := by
          have : (ColSet.ofList [1]).elems = [1] := by decide
          have hm : col ∈ (ColSet.ofList [1]).elems := hcol
          rw [this] at hm
          simpa using hm
        have h2 : (2 : Int) < col := hc
        omega)⟩

/-- C2: for every comparison operator that yields null exactly when an operand
is null, the relation `constructGroupByAny` builds evaluates to exactly one row
whose single column is the three-valued `z cmp ANY(X)`, where `z` is the value
of the left operand and `X` the values of the subquery column; and the nine
rows of the truth table of the docstring (which include the seven of the
specification) give the listed results. -/
theorem constructGroupByAny_eval :
    (∀ (db : Database) (r : subqueryHoister) (scalar : Expr) (n : Nat) (input : Expr)
      (env : Row) (z : Datum),
      input.Logical.OutputCols.Len = 1 →
      (∀ row ∈ evalRel db input env,
        (row.lookup (input.Logical.OutputCols.Next 0).1).isSome = true) →
      (∀ a b, db.scalar (.OtherScalarOp n) .none [a, b] = Datum.null ↔
        a = Datum.null ∨ b = Datum.null) →
      (∀ a b, db.scalar (.OtherScalarOp n) .none [a, b] = Datum.null ∨
        db.scalar (.OtherScalarOp n) .none [a, b] = Datum.bool true ∨
        db.scalar (.OtherScalarOp n) .none [a, b] = Datum.bool false) →
      (∀ row : Row, (row ∈ evalRel db input env ∨
          ∃ b, row = [(((cacheAnyScalar r scalar).2.c.md.cols.length : Int) + 2, b)]) →
        evalScalar db (cacheAnyScalar r scalar).1 (row ++ env) = z) →
      ∃ sub r1, constructGroupByAny r scalar (.OtherScalarOp n) input = .ok (sub, r1) ∧
        evalRel db sub env =
          [[(((cacheAnyScalar r scalar).2.c.md.cols.length : Int) + 3,
            anyValue (fun a b => db.scalar (.OtherScalarOp n) .none [a, b]) z
              ((evalRel db input env).map
                (fun row => row.get (input.Logical.OutputCols.Next 0).1)))]]) ∧
    tableAny (tableConst 1) [.int 1] = some [[(5, .bool true)]] ∧
    tableAny (tableConst 1) [.int 1, .null] = some [[(5, .bool true)]] ∧
    tableAny (tableConst 1) [.int 1, .int 2] = some [[(5, .bool true)]] ∧
    tableAny (tableConst 1) [.null] = some [[(5, .null)]] ∧
    tableAny (ConstructNull Typ.Unknown) [.int 1] = some [[(5, .null)]] ∧
    tableAny (ConstructNull Typ.Unknown) [.int 1, .null] = some [[(5, .null)]] ∧
    tableAny (ConstructNull Typ.Unknown) [.null] = some [[(5, .null)]] ∧
    tableAny (tableConst 2) [.int 1] = some [[(5, .bool false)]] ∧
    tableAny (tableConst 2) [] = some [[(5, .bool false)]] ∧
    tableAny (ConstructNull Typ.Unknown) [] = some [[(5, .bool false)]] := by
  refine ⟨?_, by decide, by decide, by decide, by decide, by decide, by decide, by decide,
    by decide, by decide, by decide⟩
  intro db r scalar n input env z hlen hbind hnull hbool hz
  exact constructGroupByAny_rows db r scalar n input env z hlen hbind hnull hbool hz

/-- Witness of C2: the general statement at the second row of the table,
`1 = ANY(1, null)`, over the database of the table. -/
theorem constructGroupByAny_eval_witness :
    ∃ sub r1, constructGroupByAny exampleHoister
        (tableConst 1) (.OtherScalarOp 0) tableRel = .ok (sub, r1) ∧
      evalRel (tableDb [.int 1, .null]) sub [] =
        [[(((cacheAnyScalar exampleHoister
            (tableConst 1)).2.c.md.cols.length : Int) + 3,
          anyValue (fun a b => (tableDb [.int 1, .null]).scalar (.OtherScalarOp 0) .none [a, b])
            (.int 1)
            ((evalRel (tableDb [.int 1, .null]) tableRel []).map
              (fun row => row.get (tableRel.Logical.OutputCols.Next 0).1)))]] :=
  constructGroupByAny_eval.1 (tableDb [.int 1, .null])
    exampleHoister (tableConst 1) 0 tableRel [] (.int 1)
    (by decide)
    (by decide)
    (by intro a b; cases a <;> cases b <;> simp [tableDb, sqlEq])
    (by
      intro a b
      cases a <;> cases b <;> simp [tableDb, sqlEq] <;> (try intro _) <;> exact em _)
    (by
      intro row _
      have h1 : (cacheAnyScalar exampleHoister
          (tableConst 1)).1 = tableConst 1 := by decide
      rw [h1]
      simp only [tableConst, memoize]
      rw [evalScalar_op _ _ _ _ _ _ (by decide) (by decide)]
      rfl)

/-- C3: for every relation `S`, the relation `constructGroupByExists` builds
evaluates to exactly one row with one boolean column, the registered `exists`
column, whose value is true when `S` has at least one row and false when `S`
is empty. -/
theorem constructGroupByExists_eval (db : Database) (r : subqueryHoister) (S : Expr) (env : Row) :
    evalRel db (constructGroupByExists r S).1 env =
      [[((r.c.md.cols.length : Int) + 3, Datum.bool (!(evalRel db S env).isEmpty))]] := by
  simp only [constructGroupByExists, subqueryHoister.AddColumn, Metadata.AddColumn]
  rw [evalRel_Project, evalRel_ScalarGroupBy, evalRel_Project, evalAggs_ConstAgg]
  simp only [filter_contains_empty, List.nil_append, evalScalars_singleton, evalScalar_True,
    evalScalar_IsNot, evalScalar_Variable, evalScalar_Null, List.map_map, Function.comp_def,
    List.zip_cons_cons, List.zip_nil_right, List.map_cons, List.map_nil, List.cons_append,
    Row.get_cons_self, List.length_append, List.length_cons, List.length_nil]
  generalize evalRel db S env = rows
  cases rows with
  | nil => simp [constAgg]; ring
  | cons row rest => simp [constAgg]; ring

/-- C4 (the code at the failing input): in `exampleCase` the branch value of
the `When` can have side effects and holds a correlated subquery, and the
condition of the `When` holds a correlated subquery too. `hoistAll` replaces
the subquery of the branch by `Variable 20` and joins its relation to the
input of the hoister: the side-effect exception of `HasHoistableSubquery` is
not applied when the `When` is entered because of another child. -/
theorem hoistAll_lifts_side_effect_branch :
    exampleWhen.children[1]? = some (exampleSubquery exampleRel2 true) ∧
    (exampleSubquery exampleRel2 true).Logical.CanHaveSideEffects = true ∧
    eligible .WhenOp 1 (exampleSubquery exampleRel2 true) = false ∧
    (hoistAll exampleHoister exampleCase).root =
      some (memoize .CaseOp
        [ConstructTrue,
         memoize .WhenOp [ConstructVariable 10, ConstructVariable 20] .none,
         ConstructNull Typ.Unknown] .none) ∧
    (hoistAll exampleHoister exampleCase).hoistedInput =
      some (ConstructInnerJoinApply
        (ConstructLeftJoinApply exampleInput exampleRel1 ConstructTrue)
        exampleRel2 ConstructTrue) := by
  decide

/-- C5: with a rule cache whose stored flags are the hoistability of their
groups, `HasHoistableSubquery` on a group with no cached value returns, for a
`Subquery`, `Exists` or `Any` root, whether its outer columns are non-empty,
and for any other root true exactly when some child `c` has
`HasHoistableSubquery c` true and is eligible. -/
theorem HasHoistableSubquery_uncached (rule : RuleCache) (group : Expr)
    (hnone : rule group = none) (hcons : rule.Consistent) :
    (group.Operator.IsSubquery = true →
      (HasHoistableSubquery rule group).1 = !group.Logical.OuterCols.Empty) ∧
    (group.Operator.IsSubquery = false →
      ((HasHoistableSubquery rule group).1 = true ↔
        ∃ i c, group.children[i]? = some c ∧ (HasHoistableSubquery rule c).1 = true ∧
          eligible group.Operator i c = true)) := by
  have hspec := (HasHoistableSubquery_consistent rule group hcons).1
  cases group with
  | mk op cs priv l =>
    simp only [Expr.Operator, Expr.Logical, Expr.children]
    rw [hspec, hoistableSpec_mk]
    constructor
    · intro hop
      rw [if_pos hop]
    · intro hop
      rw [if_neg (by simp [hop]), hoistableSpec.any_iff]
      simp only [Nat.zero_add]
      constructor
      · rintro ⟨i, c, h1, h2, h3⟩
        exact ⟨i, c, h1, by rw [(HasHoistableSubquery_consistent rule c hcons).1]; exact h2, h3⟩
      · rintro ⟨i, c, h1, h2, h3⟩
        exact ⟨i, c, h1, by rw [← (HasHoistableSubquery_consistent rule c hcons).1]; exact h2, h3⟩

/-- Witness of C5: the empty rule cache and `exampleWhen`. -/
theorem HasHoistableSubquery_uncached_witness :
    (exampleWhen.Operator.IsSubquery = true →
      (HasHoistableSubquery RuleCache.empty exampleWhen).1 =
        !exampleWhen.Logical.OuterCols.Empty) ∧
    (exampleWhen.Operator.IsSubquery = false →
      ((HasHoistableSubquery RuleCache.empty exampleWhen).1 = true ↔
        ∃ i c, exampleWhen.children[i]? = some c ∧
          (HasHoistableSubquery RuleCache.empty c).1 = true ∧
          eligible exampleWhen.Operator i c = true)) :=
  HasHoistableSubquery_uncached RuleCache.empty exampleWhen rfl RuleCache.empty_consistent

/-- C6: for a root that is a `Subquery`, `Exists` or `Any` with non-empty outer
columns, `hoistAll` sets the input of the hoister to the left apply join of the
previous input and `sub` on `True` when the cardinality of `sub` can be zero
and to the inner apply join otherwise, and returns a `Variable` for the first
of the output columns of `sub`. Here `sub` is the relational child for
`Subquery`, the relation `constructGroupByExists` builds for `Exists` and the
relation `constructGroupByAny` builds for `Any`, and the previous input is the
input of the hoister that construction left. -/
theorem hoistAll_correlated_root (r : subqueryHoister) (ev child0 : Expr) (others : List Expr)
    (hop : ev.Operator.IsSubquery = true) (hout : ev.Logical.OuterCols.Empty = false)
    (hch : ev.children = child0 :: others) :
    (ev.Operator = .SubqueryOp →
      hoistAll r ev = .ok (ConstructVariable (child0.Logical.OutputCols.Next 0).1,
        { r with hoisted :=
            if child0.Logical.Cardinality.CanBeZero then
              ConstructLeftJoinApply r.hoisted child0 ConstructTrue
            else ConstructInnerJoinApply r.hoisted child0 ConstructTrue })) ∧
    (ev.Operator = .ExistsOp →
      ∀ sub r1, constructGroupByExists r child0 = (sub, r1) →
        hoistAll r ev = .ok (ConstructVariable (sub.Logical.OutputCols.Next 0).1,
          { r1 with hoisted :=
              if sub.Logical.Cardinality.CanBeZero then
                ConstructLeftJoinApply r1.hoisted sub ConstructTrue
              else ConstructInnerJoinApply r1.hoisted sub ConstructTrue })) ∧
    (ev.Operator = .AnyOp →
      ∀ scalar rest cmp sub r1, others = scalar :: rest → ev.Private = .operator cmp →
        constructGroupByAny r scalar cmp child0 = .ok (sub, r1) →
        hoistAll r ev = .ok (ConstructVariable (sub.Logical.OutputCols.Next 0).1,
          { r1 with hoisted :=
              if sub.Logical.Cardinality.CanBeZero then
                ConstructLeftJoinApply r1.hoisted sub ConstructTrue
              else ConstructInnerJoinApply r1.hoisted sub ConstructTrue })) := by
  rw [hoistAll_of_correlated r ev hop hout]
  unfold hoistCorrelated liftedRelation
  rw [hch]
  refine ⟨?_, ?_, ?_⟩
  · intro h
    simp only [h]
  · intro h sub r1 hb
    simp only [h, hb]
  · intro h scalar rest cmp sub r1 ho hp hb
    simp only [h, ho, hp, hb]

/-- Witness of C6: the plain subquery over `exampleRel1`, whose cardinality can
be zero, lifted from the example input. -/
theorem hoistAll_correlated_root_witness :
    hoistAll exampleHoister
        (exampleSubquery exampleRel1 false) =
      .ok (ConstructVariable (exampleRel1.Logical.OutputCols.Next 0).1,
        { exampleHoister with hoisted :=
            if exampleRel1.Logical.Cardinality.CanBeZero then
              ConstructLeftJoinApply exampleHoister.hoisted exampleRel1 ConstructTrue
            else ConstructInnerJoinApply exampleHoister.hoisted exampleRel1 ConstructTrue }) :=
  (hoistAll_correlated_root exampleHoister
    (exampleSubquery exampleRel1 false) exampleRel1 [] (by decide) (by decide) rfl).1 rfl

/-- C7: when `hoistAll` lifts a correlated `Subquery`, `Exists` or `Any`, where
the relation of a plain `Subquery` has one output column and at most one row
(the operand `hoistAll` is documented to wrap), the relation joined to the
input of the hoister as the right side of the apply join has exactly one
output column and a maximum cardinality of at most one row, and the variable
returned refers to that column; for `Exists` and `Any` the relation has
exactly one row, and for a plain `Subquery` it is the relational child of the
subquery itself, joined to the input the hoister had. -/
theorem lifted_relation_shape (r : subqueryHoister) (ev e1 input1 : Expr)
    (hop : ev.Operator.IsSubquery = true) (hout : ev.Logical.OuterCols.Empty = false)
    (hpre : ev.Operator = .SubqueryOp → ∀ child0 others, ev.children = child0 :: others →
      child0.Logical.OutputCols.Len = 1 ∧ child0.Logical.Cardinality.Max ≤ 1)
    (hroot : (hoistAll r ev).root = some e1)
    (hinput : (hoistAll r ev).hoistedInput = some input1) :
    ∃ prev sub, input1 = applyJoin prev sub ∧
      e1 = ConstructVariable (sub.Logical.OutputCols.Next 0).1 ∧
      sub.Logical.OutputCols.Len = 1 ∧ sub.Logical.Cardinality.Max ≤ 1 ∧
      ((ev.Operator = .ExistsOp ∨ ev.Operator = .AnyOp) →
        sub.Logical.Cardinality = Cardinality.one) ∧
      (ev.Operator = .SubqueryOp → ev.children.head? = some sub ∧ prev = r.hoisted) := by
  cases hok : hoistAll r ev with
  | panic msg => rw [hok] at hroot; cases hroot
  | ok p =>
    obtain ⟨e2, r1⟩ := p
    rw [hok] at hroot hinput
    simp only [Result.root, Result.hoistedInput, Option.some.injEq] at hroot hinput
    subst hroot
    subst hinput
    rw [hoistAll_of_correlated r ev hop hout] at hok
    unfold hoistCorrelated at hok
    split at hok
    · cases hok
    · rename_i child0 others hch
      split at hok
      · cases hok
      · rename_i sub r2 hbuilt
        simp only [Result.ok.injEq, Prod.mk.injEq] at hok
        have hEA : (ev.Operator = .ExistsOp ∨ ev.Operator = .AnyOp) →
            sub.Logical.OutputCols.Len = 1 ∧ sub.Logical.Cardinality = Cardinality.one := by
          rintro (h | h)
          · simp only [liftedRelation, h, Result.ok.injEq] at hbuilt
            have hp := constructGroupByExists_props r child0
            rw [hbuilt] at hp
            simp only at hp
            exact ⟨by rw [hp.1]; rfl, hp.2.1⟩
          · simp only [liftedRelation, h] at hbuilt
            split at hbuilt
            · exact constructGroupByAny_props _ _ _ _ _ _ hbuilt
            · cases hbuilt
        have hS : ev.Operator = .SubqueryOp → sub = child0 ∧ r2 = r := by
          intro h
          simp only [liftedRelation, h, Result.ok.injEq, Prod.mk.injEq] at hbuilt
          exact ⟨hbuilt.1.symm, hbuilt.2.symm⟩
        have hkind : ev.Operator = .SubqueryOp ∨ ev.Operator = .ExistsOp ∨
            ev.Operator = .AnyOp := by
          cases hk : ev.Operator <;> simp [hk, Operator.IsSubquery] at hop ⊢
        have hshape : sub.Logical.OutputCols.Len = 1 ∧ sub.Logical.Cardinality.Max ≤ 1 := by
          rcases hkind with h | h | h
          · rw [(hS h).1]
            exact hpre h child0 others hch
          · exact ⟨(hEA (Or.inl h)).1, by rw [(hEA (Or.inl h)).2]; decide⟩
          · exact ⟨(hEA (Or.inr h)).1, by rw [(hEA (Or.inr h)).2]; decide⟩
        refine ⟨r2.hoisted, sub, by rw [← hok.2]; rfl, hok.1.symm, hshape.1, hshape.2,
          fun h => (hEA h).2, ?_⟩
        intro h
        rw [hch, (hS h).1, (hS h).2]
        exact ⟨rfl, rfl⟩

/-- Witness of C7: a plain subquery over `exampleRel1`, the correlated `Exists`
over `equivExistsRel` and the correlated `Any` over `equivAnyRel`, each lifted
from the example input. -/
theorem lifted_relation_shape_witness :
    (∃ prev sub,
      ConstructLeftJoinApply exampleInput exampleRel1 ConstructTrue = applyJoin prev sub ∧
      ConstructVariable 10 = ConstructVariable (sub.Logical.OutputCols.Next 0).1 ∧
      sub.Logical.OutputCols.Len = 1 ∧ sub.Logical.Cardinality.Max ≤ 1 ∧
      (((exampleSubquery exampleRel1 false).Operator = .ExistsOp ∨
          (exampleSubquery exampleRel1 false).Operator = .AnyOp) →
        sub.Logical.Cardinality = Cardinality.one) ∧
      ((exampleSubquery exampleRel1 false).Operator = .SubqueryOp →
        (exampleSubquery exampleRel1 false).children.head? = some sub ∧
        prev = exampleHoister.hoisted)) ∧
    (∃ prev sub,
      ConstructInnerJoinApply exampleInput
          (constructGroupByExists exampleHoister equivExistsRel).1 ConstructTrue =
        applyJoin prev sub ∧
      ConstructVariable 5 = ConstructVariable (sub.Logical.OutputCols.Next 0).1 ∧
      sub.Logical.OutputCols.Len = 1 ∧ sub.Logical.Cardinality.Max ≤ 1 ∧
      ((equivExists.Operator = .ExistsOp ∨ equivExists.Operator = .AnyOp) →
        sub.Logical.Cardinality = Cardinality.one) ∧
      (equivExists.Operator = .SubqueryOp →
        equivExists.children.head? = some sub ∧ prev = exampleHoister.hoisted)) ∧
    (∃ prev sub,
      ConstructInnerJoinApply exampleInput equivAnyLifted ConstructTrue = applyJoin prev sub ∧
      ConstructVariable 5 = ConstructVariable (sub.Logical.OutputCols.Next 0).1 ∧
      sub.Logical.OutputCols.Len = 1 ∧ sub.Logical.Cardinality.Max ≤ 1 ∧
      ((equivAny.Operator = .ExistsOp ∨ equivAny.Operator = .AnyOp) →
        sub.Logical.Cardinality = Cardinality.one) ∧
      (equivAny.Operator = .SubqueryOp →
        equivAny.children.head? = some sub ∧ prev = exampleHoister.hoisted)) :=
  ⟨lifted_relation_shape exampleHoister (exampleSubquery exampleRel1 false) _ _
      (by decide) (by decide)
      (fun _ child0 others h => by
        have hc : child0 = exampleRel1 := (List.cons.inj h).1.symm
        rw [hc]
        decide)
      (by decide) (by decide),
    lifted_relation_shape exampleHoister equivExists _ _
      (by decide) (by decide) (fun h => absurd h (by decide)) (by decide) (by decide),
    lifted_relation_shape exampleHoister equivAny _ _
      (by decide) (by decide) (fun h => absurd h (by decide)) (by decide) (by decide)⟩

/-- C9 (the code at the failing input): for a semi join whose condition holds a
correlated subquery, `HoistJoinSubquery` returns a relation with the columns of
both inputs, while the semi join itself has the columns of its left input
only. For the inner, left, right and full joins and their apply variants the
relation `HoistJoinSubquery` returns has the columns of the join itself, and the
relation `HoistSelectSubquery` returns has the columns of its input. -/
theorem HoistJoinSubquery_semi_join_columns :
    (HoistJoinSubquery exampleFuncs .SemiJoinOp exampleLeft exampleRight
        (exampleSubquery exampleRel1 false)).outputCols = some (ColSet.ofList [1, 2, 3, 4]) ∧
    (ConstructJoin .SemiJoinOp exampleLeft exampleRight
        (exampleSubquery exampleRel1 false)).Logical.OutputCols = ColSet.ofList [1, 2] ∧
    (∀ c op left right on_ e c1,
      op ∈ [Operator.InnerJoinOp, .LeftJoinOp, .RightJoinOp, .FullJoinOp, .InnerJoinApplyOp,
        .LeftJoinApplyOp, .RightJoinApplyOp, .FullJoinApplyOp] →
      HoistJoinSubquery c op left right on_ = .ok (e, c1) →
      e.Logical.OutputCols = (ConstructJoin op left right on_).Logical.OutputCols) ∧
    (∀ c input filter e c1, HoistSelectSubquery c input filter = .ok (e, c1) →
      e.Logical.OutputCols = input.Logical.OutputCols) := by
  refine ⟨by decide, by decide, ?_, ?_⟩
  · intro c op left right on_ e c1 hop h
    have hout : (ConstructJoin op left right on_).Logical.OutputCols =
        left.Logical.OutputCols.Union right.Logical.OutputCols := by
      simp only [List.mem_cons, List.mem_singleton, List.not_mem_nil, or_false] at hop
      rcases hop with rfl | rfl | rfl | rfl | rfl | rfl | rfl | rfl <;> rfl
    unfold HoistJoinSubquery at h
    split at h
    · cases h
    · split at h
      · cases h
      · simp only [Result.ok.injEq, Prod.mk.injEq] at h
        rw [← h.1, ConstructSimpleProject_outputCols, hout]
  · intro c input filter e c1 h
    unfold HoistSelectSubquery at h
    split at h
    · cases h
    · simp only [Result.ok.injEq, Prod.mk.injEq] at h
      rw [← h.1, ConstructSimpleProject_outputCols]

/-- C10: with a consistent rule cache, `hoistAll` leaves the input and the
metadata that lifting the correlated subqueries of the tree one after the
other, in left-to-right pre-order, leaves (and panics when that panics); the
final input is a left-deep chain over the input given to the hoister whose
joined relations, from the innermost to the outermost, are the relations of
the subqueries in that order; for two plain subqueries `s1` then `s2` it is
the apply join of (the apply join of the input and the relation of `s1`) and
the relation of `s2`. -/
theorem hoistAll_order (r : subqueryHoister) (e : Expr) (hcons : r.c.rule.Consistent) :
    (hoistAll r e).inputAndMetadata = (liftAll r (liftList e)).liftedInputAndMetadata ∧
    (∀ e1 r1, hoistAll r e = .ok (e1, r1) →
      ∃ subs, List.Forall₂ LiftedFrom (liftList e) subs ∧
        LeftDeep r.hoisted subs r1.hoisted) ∧
    (∀ s1 s2 c1 c2 o1 o2, liftList e = [s1, s2] →
      s1.Operator = .SubqueryOp → s2.Operator = .SubqueryOp →
      s1.children = c1 :: o1 → s2.children = c2 :: o2 →
      (hoistAll r e).hoistedInput = some (applyJoin (applyJoin r.hoisted c1) c2)) := by
  obtain ⟨h1, h2⟩ := hoistAll_liftAll r e r.c.rule hcons
  rw [subqueryHoister.withRule_self] at h1 h2
  have hA : (hoistAll r e).inputAndMetadata =
      (liftAll r (liftList e)).liftedInputAndMetadata := by
    cases hh : hoistAll r e with
    | panic msg => rw [h2 msg hh]; rfl
    | ok p =>
      obtain ⟨e1, r1⟩ := p
      rw [(h1 e1 r1 hh).1]; rfl
  refine ⟨hA, ?_, ?_⟩
  · intro e1 r1 hh
    obtain ⟨subs, h3, h4⟩ := liftAll_chain _ _ _ (h1 e1 r1 hh).1
    exact ⟨subs, h3, h4⟩
  · intro s1 s2 c1 c2 o1 o2 hl hs1 hs2 hc1 hc2
    have hlift : liftAll r (liftList e) =
        .ok { r with hoisted := applyJoin (applyJoin r.hoisted c1) c2 } := by
      rw [hl]
      simp only [liftAll, hoistCorrelated, hc1, hc2, liftedRelation, hs1, hs2, applyJoin]
    cases hh : hoistAll r e with
    | panic msg =>
      rw [h2 msg hh] at hlift
      cases hlift
    | ok p =>
      obtain ⟨e1, r1⟩ := p
      rw [(h1 e1 r1 hh).1] at hlift
      simp only [Result.ok.injEq] at hlift
      have : r1.hoisted = applyJoin (applyJoin r.hoisted c1) c2 := by
        have := congrArg subqueryHoister.hoisted hlift
        simpa [subqueryHoister.withRule] using this
      simp only [Result.hoistedInput, this]

/-- Witness of C10: `exampleWhen`, whose two children are plain correlated
subqueries, hoisted from the example input with an empty rule cache. -/
theorem hoistAll_order_witness :
    (hoistAll exampleHoister exampleWhen).inputAndMetadata =
      (liftAll exampleHoister (liftList exampleWhen)).liftedInputAndMetadata ∧
    (∀ e1 r1, hoistAll exampleHoister exampleWhen = .ok (e1, r1) →
      ∃ subs, List.Forall₂ LiftedFrom (liftList exampleWhen) subs ∧
        LeftDeep exampleHoister.hoisted subs r1.hoisted) ∧
    (∀ s1 s2 c1 c2 o1 o2, liftList exampleWhen = [s1, s2] →
      s1.Operator = .SubqueryOp → s2.Operator = .SubqueryOp →
      s1.children = c1 :: o1 → s2.children = c2 :: o2 →
      (hoistAll exampleHoister exampleWhen).hoistedInput =
        some (applyJoin (applyJoin exampleHoister.hoisted c1) c2)) :=
  hoistAll_order exampleHoister exampleWhen RuleCache.empty_consistent

/-- C8: for every database and every scalar tree in which the relation of each
lifted plain subquery has at most one row for every outer row (and has a row
when its cardinality cannot be zero, and binds its output columns only), the
input of the hoister after `hoistAll` evaluates to the rows of the input given
to the hoister, in the same number and order, each extended with the hoisted
columns `hoistedColumns`: the input is the given one wrapped by one apply join
per lifted `Subquery`, `Exists` or `Any`, in the order of lifting, each of
which adds to a row the row of its relation under the bindings of that row, or
nulls over the output columns of the relation when it has no row, with the
projection of the scalar of an `Any` adding the value of that scalar; for a
single lifted plain subquery the extension is the row of its relation, or
nulls over its output columns. -/
theorem hoistAll_preserves_rows (db : Database) (r : subqueryHoister) (e input1 : Expr)
    (hcons : r.c.rule.Consistent) (hok : (hoistAll r e).hoistedInput = some input1)
    (hin : Conforms db r.hoisted) (hsub : ∀ s ∈ liftList e, GoodSubquery db s) (env : Row) :
    evalRel db input1 env =
      (evalRel db r.hoisted env).map
        (fun h => h ++ hoistedColumns db r.hoisted env input1 h) ∧
    (evalRel db input1 env).length = (evalRel db r.hoisted env).length ∧
    (∃ subs, List.Forall₂ LiftedFrom (liftList e) subs ∧ LeftDeep r.hoisted subs input1) ∧
    hoistedColumns db r.hoisted env r.hoisted = (fun _ => []) ∧
    (∀ (ss : List Expr) (prev sub : Expr) (h : Row), LeftDeep r.hoisted ss prev →
      hoistedColumns db r.hoisted env (applyJoin prev sub) h =
        hoistedColumns db r.hoisted env prev h ++
          (evalRel db sub (h ++ hoistedColumns db r.hoisted env prev h ++ env)).headD
            (nullRow sub.Logical.OutputCols)) ∧
    (∀ (ss : List Expr) (prev scalar : Expr) (col : ColumnID) (h : Row),
      LeftDeep r.hoisted ss prev →
      hoistedColumns db r.hoisted env (projectExtraCol prev scalar col) h =
        hoistedColumns db r.hoisted env prev h ++
          [(col, evalScalar db scalar (h ++ hoistedColumns db r.hoisted env prev h ++ env))]) ∧
    (∀ s child0 others, liftList e = [s] → s.Operator = .SubqueryOp →
      s.children = child0 :: others →
      evalRel db input1 env =
        (evalRel db r.hoisted env).map (fun h => h ++
          (evalRel db child0 (h ++ env)).headD (nullRow child0.Logical.OutputCols))) := by
  cases hh : hoistAll r e with
  | panic msg => rw [hh] at hok; cases hok
  | ok p =>
    obtain ⟨e1, r1⟩ := p
    rw [hh] at hok
    simp only [Result.hoistedInput, Option.some.injEq] at hok
    subst hok
    obtain ⟨subs, h3, h4, h5⟩ := hoistAll_rows db r r1 e e1 hcons hh hin hsub
    refine ⟨h5 env, by rw [h5 env, List.length_map], ⟨subs, h3, h4⟩, ?_, ?_, ?_, ?_⟩
    · funext h
      exact hoistedColumns_base db r.hoisted env h
    · intro ss prev sub h hd
      rw [hoistedColumns_join db r.hoisted prev sub env h hd.size_le, liftedRow,
        List.append_assoc]
    · intro ss prev scalar col h hd
      exact hoistedColumns_project db r.hoisted prev scalar col env h hd.size_le
    · intro s child0 others hls hop hch
      have hg := hsub s (by rw [hls]; exact List.mem_singleton.mpr rfl)
        (by rw [hop]; decide) (by rw [hop]; decide) child0 others hch
      obtain ⟨h1, _⟩ := hoistAll_liftAll r e r.c.rule hcons
      rw [subqueryHoister.withRule_self] at h1
      have hl := (h1 e1 r1 hh).1
      rw [hls] at hl
      simp only [liftAll, hoistCorrelated, hch, liftedRelation, hop, Result.ok.injEq] at hl
      have h6 := congrArg subqueryHoister.hoisted hl
      have h7 : (r1.withRule r.c.rule).hoisted = r1.hoisted := rfl
      rw [h7] at h6
      rw [← h6]
      exact applyJoin_eval db r.hoisted child0 env hg.1 hg.2.1

/-- Witness of C8: `exampleWhen`, whose two plain subqueries are lifted from the
example input over the example database: the row of the input with column 1
equal to `5`, for which `exampleRel1` has no row, is padded with a null in
column 10; and the filter of the equivalence example, whose `Exists` and `Any`
are lifted over the database of that example, each adding its one column. -/
theorem hoistAll_preserves_rows_witness :
    evalRel exampleDb exampleHoister.hoisted [] =
      [[(1, .int 1), (2, .int 2)], [(1, .int 5), (2, .int 6)]] ∧
    evalRel exampleDb (ConstructInnerJoinApply
        (ConstructLeftJoinApply exampleInput exampleRel1 ConstructTrue)
        exampleRel2 ConstructTrue) [] =
      [[(1, .int 1), (2, .int 2), (10, .int 7), (20, .int 9)],
       [(1, .int 5), (2, .int 6), (10, .null), (20, .int 9)]] ∧
    (evalRel exampleDb (ConstructInnerJoinApply
        (ConstructLeftJoinApply exampleInput exampleRel1 ConstructTrue)
        exampleRel2 ConstructTrue) [] =
      (evalRel exampleDb exampleHoister.hoisted []).map
        (fun h => h ++ hoistedColumns exampleDb exampleHoister.hoisted []
          (ConstructInnerJoinApply
            (ConstructLeftJoinApply exampleInput exampleRel1 ConstructTrue)
            exampleRel2 ConstructTrue) h) ∧
      (evalRel exampleDb (ConstructInnerJoinApply
        (ConstructLeftJoinApply exampleInput exampleRel1 ConstructTrue)
        exampleRel2 ConstructTrue) []).length =
        (evalRel exampleDb exampleHoister.hoisted []).length) ∧
    evalRel equivDb (ConstructInnerJoinApply
        (ConstructInnerJoinApply exampleInput equivExistsLifted ConstructTrue)
        equivAnyAfterExists ConstructTrue) [] =
      [[(1, .int 1), (2, .int 2), (5, .bool false), (8, .bool true)],
       [(1, .int 5), (2, .int 6), (5, .bool true), (8, .bool true)]] ∧
    (evalRel equivDb (ConstructInnerJoinApply
        (ConstructInnerJoinApply exampleInput equivExistsLifted ConstructTrue)
        equivAnyAfterExists ConstructTrue) [] =
      (evalRel equivDb exampleHoister.hoisted []).map
        (fun h => h ++ hoistedColumns equivDb exampleHoister.hoisted []
          (ConstructInnerJoinApply
            (ConstructInnerJoinApply exampleInput equivExistsLifted ConstructTrue)
            equivAnyAfterExists ConstructTrue) h) ∧
      (evalRel equivDb (ConstructInnerJoinApply
        (ConstructInnerJoinApply exampleInput equivExistsLifted ConstructTrue)
        equivAnyAfterExists ConstructTrue) []).length =
        (evalRel equivDb exampleHoister.hoisted []).length) :=
  ⟨by decide, by decide,
    ⟨(hoistAll_preserves_rows exampleDb exampleHoister exampleWhen _
        RuleCache.empty_consistent (by decide) exampleDb_input_conforms exampleWhen_good []).1,
      (hoistAll_preserves_rows exampleDb exampleHoister exampleWhen _
        RuleCache.empty_consistent (by decide) exampleDb_input_conforms exampleWhen_good
        []).2.1⟩,
    by decide,
    ⟨(hoistAll_preserves_rows equivDb exampleHoister equivFilter _
        RuleCache.empty_consistent (by decide) equivInput_good.2.1 equivFilter_lifted_good
        []).1,
      (hoistAll_preserves_rows equivDb exampleHoister equivFilter _
        RuleCache.empty_consistent (by decide) equivInput_good.2.1 equivFilter_lifted_good
        []).2.1⟩⟩

/-- C11: with a consistent rule cache, for a tree none of whose nodes is a
correlated `Subquery`, `Exists` or `Any` (equivalently, none of whose nodes is
hoistable), `hoistAll` returns the tree itself and leaves the input of the
hoister and the metadata as they were; and `hoistAll` applied to the tree a
previous `hoistAll` returned, with the hoister it left, returns that tree
unchanged and leaves the input and the metadata as they were, for a tree that
`hoistAll` walks among scalars (`ScalarWalk`: no hoistable child below a
subquery it does not lift). -/
theorem hoistAll_idempotent (r : subqueryHoister) (e : Expr) (hc : r.c.rule.Consistent) :
    ((∀ n ∈ e.nodes, ¬ (n.Operator.IsSubquery = true ∧ n.Logical.OuterCols.Empty = false)) →
      (hoistAll r e).root = some e ∧
        (hoistAll r e).inputAndMetadata = .ok r.inputAndMetadata) ∧
    ((∀ n ∈ e.nodes, hoistableSpec n = false) →
      (hoistAll r e).root = some e ∧
        (hoistAll r e).inputAndMetadata = .ok r.inputAndMetadata) ∧
    (∀ e1 r1, ScalarWalk e → hoistAll r e = .ok (e1, r1) →
      (hoistAll r1 e1).root = some e1 ∧
        (hoistAll r1 e1).inputAndMetadata = .ok r1.inputAndMetadata) := by
  refine ⟨?_, ?_, ?_⟩
  · intro h
    refine hoistAll_kept_result r e hc (hoistableSpec_of_uncorrelated e h) ?_
    intro c hcm
    refine hoistableSpec_of_uncorrelated c (fun n hn => h n ?_)
    cases e with
    | mk op cs priv l =>
      rw [Expr.nodes]
      exact List.mem_cons_of_mem _ (Expr.mem_nodesList cs c hcm n hn)
  · intro h
    exact hoistAll_kept_result r e hc (h e e.mem_nodes_self)
      (fun c hcm => h c (Expr.child_mem_nodes e c hcm))
  · intro e1 r1 hw h
    obtain ⟨h1, h2, h3⟩ := hoistAll_clean r r1 e e1 hc hw h
    exact hoistAll_kept_result r1 e1 h3 h1 h2

/-- Witness of C11: a comparison of a variable with null, which holds no
subquery, comes back unchanged; and `exampleCase`, hoisted from the example
input with an empty rule cache, comes back with variables in place of its two
subqueries, after which a second `hoistAll` returns that tree unchanged. -/
theorem hoistAll_idempotent_witness :
    ((hoistAll exampleHoister (ConstructIs (ConstructVariable 1) (ConstructNull Typ.Unknown))).root =
        some (ConstructIs (ConstructVariable 1) (ConstructNull Typ.Unknown)) ∧
      (hoistAll exampleHoister
          (ConstructIs (ConstructVariable 1) (ConstructNull Typ.Unknown))).inputAndMetadata =
        .ok exampleHoister.inputAndMetadata) ∧
    ScalarWalk exampleCase ∧
    (hoistAll exampleHoister exampleCase).root =
      some (memoize .CaseOp
        [ConstructTrue,
         memoize .WhenOp [ConstructVariable 10, ConstructVariable 20] .none,
         ConstructNull Typ.Unknown] .none) ∧
    (∀ e1 r1, hoistAll exampleHoister exampleCase = .ok (e1, r1) →
      (hoistAll r1 e1).root = some e1 ∧
        (hoistAll r1 e1).inputAndMetadata = .ok r1.inputAndMetadata) :=
  ⟨(hoistAll_idempotent exampleHoister (ConstructIs (ConstructVariable 1)
      (ConstructNull Typ.Unknown)) RuleCache.empty_consistent).1 (by decide),
    exampleCase_scalarWalk, by decide,
    fun e1 r1 h =>
      (hoistAll_idempotent exampleHoister exampleCase RuleCache.empty_consistent).2.2 e1 r1
        exampleCase_scalarWalk h⟩

/-- C12: for every rule cache and every group `g`, after a call of
`HasHoistableSubquery` on `g` the availability bit of `g` is set and the flag
stored for `g` is the value the call returned; a second call returns the same
value and leaves the cache as it is; a flag that was stored before the call is
still stored after it, unchanged; and a call on any group whose flag is stored
after the call returns that flag and leaves the cache as it is. -/
theorem HasHoistableSubquery_twice (rule : RuleCache) (g : Expr) :
    (HasHoistableSubquery rule g).2 g = some (HasHoistableSubquery rule g).1 ∧
    HasHoistableSubquery (HasHoistableSubquery rule g).2 g =
      ((HasHoistableSubquery rule g).1, (HasHoistableSubquery rule g).2) ∧
    (∀ k w, rule k = some w → (HasHoistableSubquery rule g).2 k = some w) ∧
    (∀ k w, (HasHoistableSubquery rule g).2 k = some w →
      HasHoistableSubquery (HasHoistableSubquery rule g).2 k =
        (w, (HasHoistableSubquery rule g).2)) :=
  ⟨HasHoistableSubquery_stored rule g,
    HasHoistableSubquery_cached _ g _ (HasHoistableSubquery_stored rule g),
    fun k w hk => HasHoistableSubquery_stable rule g k w hk,
    fun k w hk => HasHoistableSubquery_cached _ k w hk⟩

/-- C13 (the claim at a concrete input): `exampleWide` has two output columns
and `exampleRel 9 [] [1]` has none; the correlated plain subqueries over them
are lifted without an error: `hoistAll` returns a `Variable`, for the first of
the two columns and for the integer `Next` yields when there is no column. -/
theorem hoistAll_subquery_columns_unchecked :
    exampleWide.Logical.OutputCols.Len = 2 ∧
    (exampleSubquery exampleWide false).Logical.OuterCols.Empty = false ∧
    (hoistAll exampleHoister (exampleSubquery exampleWide false)).root =
      some (ConstructVariable 30) ∧
    (exampleRel 9 [] [1] Cardinality.any).Logical.OutputCols.Len = 0 ∧
    (exampleSubquery (exampleRel 9 [] [1] Cardinality.any) false).Logical.OuterCols.Empty = false ∧
    (hoistAll exampleHoister (exampleSubquery (exampleRel 9 [] [1] Cardinality.any) false)).root =
      some (ConstructVariable
        ((exampleRel 9 [] [1] Cardinality.any).Logical.OutputCols.Next 0).1) := by
  decide

/-- C13 (amended): for a correlated `Any` whose input does not have exactly one
output column, `hoistAll` ends in the panic of `referenceSingleColumn`; for a
correlated plain `Subquery` and for a correlated `Exists` no column count is
checked and `hoistAll` returns a `Variable`: for a `Subquery`, the one of the
first output column of its relation (the flag of `Next` is not read). -/
theorem hoistAll_column_check (r : subqueryHoister) (child0 : Expr) (others : List Expr)
    (priv : Private) (l : Logical) (hout : l.OuterCols.Empty = false) :
    (∀ scalar rest cmp, others = scalar :: rest → priv = .operator cmp →
      child0.Logical.OutputCols.Len ≠ 1 →
      hoistAll r (.mk .AnyOp (child0 :: others) priv l) =
        .panic "expression does not have exactly one column") ∧
    (∃ r1, hoistAll r (.mk .SubqueryOp (child0 :: others) priv l) =
      .ok (ConstructVariable (child0.Logical.OutputCols.Next 0).1, r1)) ∧
    (∃ c r1, hoistAll r (.mk .ExistsOp (child0 :: others) priv l) =
      .ok (ConstructVariable c, r1)) := by
  refine ⟨?_, ?_, ?_⟩
  · intro scalar rest cmp ho hp hlen
    subst ho
    subst hp
    rw [hoistAll, if_pos ⟨by decide, hout⟩]
    simp only [hoistCorrelated, Expr.children, liftedRelation, Expr.Operator, Expr.Private,
      constructGroupByAny, referenceSingleColumn, if_pos hlen]
  · rw [hoistAll, if_pos ⟨by decide, hout⟩]
    exact ⟨_, rfl⟩
  · rw [hoistAll, if_pos ⟨by decide, hout⟩]
    exact ⟨_, _, rfl⟩

/-- Witness of C13: a correlated `Any` over `exampleWide`, which has two output
columns, and the correlated plain subquery and `Exists` over it. -/
theorem hoistAll_column_check_witness :
    (∀ scalar rest cmp, [ConstructVariable 2] = scalar :: rest →
      Private.operator (.OtherScalarOp 0) = .operator cmp →
      exampleWide.Logical.OutputCols.Len ≠ 1 →
      hoistAll exampleHoister (.mk .AnyOp (exampleWide :: [ConstructVariable 2])
          (.operator (.OtherScalarOp 0)) (exampleProps [] [1] Cardinality.any false)) =
        .panic "expression does not have exactly one column") ∧
    (∃ r1, hoistAll exampleHoister (.mk .SubqueryOp (exampleWide :: [ConstructVariable 2])
        (.operator (.OtherScalarOp 0)) (exampleProps [] [1] Cardinality.any false)) =
      .ok (ConstructVariable (exampleWide.Logical.OutputCols.Next 0).1, r1)) ∧
    (∃ c r1, hoistAll exampleHoister (.mk .ExistsOp (exampleWide :: [ConstructVariable 2])
        (.operator (.OtherScalarOp 0)) (exampleProps [] [1] Cardinality.any false)) =
      .ok (ConstructVariable c, r1)) :=
  hoistAll_column_check exampleHoister exampleWide [ConstructVariable 2]
    (.operator (.OtherScalarOp 0)) (exampleProps [] [1] Cardinality.any false) (by decide)

/-- C14: `HoistSelectSubquery(R, f)` is the simple projection onto the output
columns of `R` of the selection, by the tree `hoistAll(f)` returned, of the
input the hoister initialised with `R` was left with; it panics when `hoistAll`
does. For the filter `Is(Subquery(L), Null)` with a correlated subquery whose
relation `L` can have no row and has the sole column `u`, with a consistent
rule cache, the relation returned is the projection onto the output columns of
`R` of `Select(LeftJoinApply(R, L, True), Is(Variable(u), Null))`. -/
theorem HoistSelectSubquery_shape (c : CustomFuncs) (R f : Expr) :
    (∀ f1 h, hoistAll (subqueryHoister.init c R) f = .ok (f1, h) →
      HoistSelectSubquery c R f =
        .ok (ConstructSimpleProject (ConstructSelect h.hoisted f1) R.Logical.OutputCols, h.c)) ∧
    (∀ msg, hoistAll (subqueryHoister.init c R) f = .panic msg →
      HoistSelectSubquery c R f = .panic msg) ∧
    (∀ (L : Expr) (others : List Expr) (p : Private) (ls l : Logical) (t : Typ) (u : ColumnID),
      c.rule.Consistent → ls.OuterCols.Empty = false →
      L.Logical.Cardinality.CanBeZero = true → L.Logical.OutputCols = ColSet.ofList [u] →
      0 ≤ u →
      (HoistSelectSubquery c R
          (.mk .IsOp [.mk .SubqueryOp (L :: others) p ls, ConstructNull t] .none l)).relation =
        some (ConstructSimpleProject
          (ConstructSelect (ConstructLeftJoinApply R L ConstructTrue)
            (ConstructIs (ConstructVariable u) (ConstructNull t)))
          R.Logical.OutputCols)) ∧
    (HoistSelectSubquery exampleFuncs exampleInput
        (.mk .IsOp [exampleSubquery exampleRel1 false, ConstructNull Typ.Unknown] .none
          (exampleProps [] [1] Cardinality.any false))).relation =
      some (ConstructSimpleProject
        (ConstructSelect (ConstructLeftJoinApply exampleInput exampleRel1 ConstructTrue)
          (ConstructIs (ConstructVariable 10) (ConstructNull Typ.Unknown)))
        (ColSet.ofList [1, 2])) := by
  refine ⟨?_, ?_, ?_, by decide⟩
  · intro f1 h hok
    rw [HoistSelectSubquery, hok]
    rfl
  · intro msg hp
    rw [HoistSelectSubquery, hp]
  · intro L others p ls l t u hc hout hcz hcol hu
    obtain ⟨r1, h1, h2⟩ := hoistAll_Is_subquery (subqueryHoister.init c R) L others p ls l t hc hout
    rw [HoistSelectSubquery, h1]
    simp only [Result.relation, subqueryHoister.input, h2, applyJoin, hcz, if_true, hcol,
      ColSet.Next_singleton u hu]
    rfl

/-- C15: for every join kind, given the join operator or the apply join
operator of the kind, `HoistJoinSubquery` runs `hoistAll` on the condition with
a hoister initialised with the right input, and returns the simple projection,
onto the union of the output columns of the left and the right input, of the
apply join of the kind whose left child is the left input, whose right child is
the input the hoister was left with and whose condition is the tree `hoistAll`
returned; it panics when `hoistAll` does. -/
theorem HoistJoinSubquery_shape (K : JoinKind) (c : CustomFuncs) (left right on_ : Expr) :
    (∀ op, op = K.joinOp ∨ op = K.applyOp →
      (∀ on1 h, hoistAll (subqueryHoister.init c right) on_ = .ok (on1, h) →
        HoistJoinSubquery c op left right on_ =
          .ok (ConstructSimpleProject (ConstructJoin K.applyOp left h.hoisted on1)
            (left.Logical.OutputCols.Union right.Logical.OutputCols), h.c)) ∧
      (∀ msg, hoistAll (subqueryHoister.init c right) on_ = .panic msg →
        HoistJoinSubquery c op left right on_ = .panic msg)) ∧
    (subqueryHoister.init c right).hoisted = right ∧
    (HoistJoinSubquery exampleFuncs .LeftJoinOp exampleLeft exampleRight
        (.mk .IsOp [exampleSubquery exampleRel1 false, ConstructNull Typ.Unknown] .none
          (exampleProps [] [1] Cardinality.any false))).relation =
      some (ConstructSimpleProject
        (ConstructJoin .LeftJoinApplyOp exampleLeft
          (ConstructLeftJoinApply exampleRight exampleRel1 ConstructTrue)
          (ConstructIs (ConstructVariable 10) (ConstructNull Typ.Unknown)))
        (ColSet.ofList [1, 2, 3, 4])) := by
  refine ⟨?_, rfl, by decide⟩
  intro op hop
  constructor
  · intro on1 h hok
    rw [HoistJoinSubquery, hok]
    cases K <;> rcases hop with rfl | rfl <;> rfl
  · intro msg hp
    rw [HoistJoinSubquery, hp]

/-- C16: the hoister of `HoistValuesSubquery` starts from `constructNoColsRow`,
a `Values` over a single empty tuple with no column and one row. The function
returns exactly when `hoistAll` returns for every row, the rows taken in list
order and the hoister going from one row to the next (`Threaded`), and the
relation returned is the simple projection, onto the output columns of
`Values(rows1, cols)`, of the inner apply join on `True` of the input the
hoister was left with and `Values(rows1, cols)`, where `rows1` holds the trees
returned, as many as the rows; `HoistZipSubquery` is the same with `Zip`. -/
theorem HoistValuesSubquery_shape (c : CustomFuncs) (rows : List Expr) (cols : ColList) :
    constructNoColsRow = ConstructValues [ConstructTuple [] Typ.EmptyTuple] [] ∧
    constructNoColsRow.Logical.OutputCols.Len = 0 ∧
    constructNoColsRow.Logical.Cardinality = Cardinality.one ∧
    (∀ e c1, HoistValuesSubquery c rows cols = .ok (e, c1) ↔
      ∃ rows1 h, Threaded (subqueryHoister.init c constructNoColsRow) rows rows1 h ∧
        rows1.length = rows.length ∧ c1 = h.c ∧
        e = ConstructSimpleProject
          (ConstructInnerJoinApply h.hoisted (ConstructValues rows1 cols) ConstructTrue)
          (ConstructValues rows1 cols).Logical.OutputCols) ∧
    (∀ e c1, HoistZipSubquery c rows cols = .ok (e, c1) ↔
      ∃ rows1 h, Threaded (subqueryHoister.init c constructNoColsRow) rows rows1 h ∧
        rows1.length = rows.length ∧ c1 = h.c ∧
        e = ConstructSimpleProject
          (ConstructInnerJoinApply h.hoisted (ConstructZip rows1 cols) ConstructTrue)
          (ConstructZip rows1 cols).Logical.OutputCols) ∧
    (HoistValuesSubquery exampleFuncs
        [ConstructTuple [exampleSubquery exampleRel1 false] Typ.Unknown] [11]).relation =
      some (ConstructSimpleProject
        (ConstructInnerJoinApply
          (ConstructLeftJoinApply constructNoColsRow exampleRel1 ConstructTrue)
          (ConstructValues [ConstructTuple [ConstructVariable 10] Typ.Unknown] [11])
          ConstructTrue)
        (ColSet.ofList [11])) := by
  refine ⟨rfl, by decide, by decide, ?_, ?_, by decide⟩
  · intro e c1
    rw [HoistValuesSubquery]
    constructor
    · intro h
      cases h1 : hoistItems (subqueryHoister.init c constructNoColsRow) rows with
      | panic msg => rw [h1] at h; cases h
      | ok p =>
        obtain ⟨rows1, hst⟩ := p
        rw [h1] at h
        simp only [Result.ok.injEq, Prod.mk.injEq] at h
        have ht := (hoistItems_threaded _ _ _ _).mp h1
        exact ⟨rows1, hst, ht, ht.length, h.2.symm, h.1.symm⟩
    · rintro ⟨rows1, hst, ht, _, rfl, rfl⟩
      rw [(hoistItems_threaded _ _ _ _).mpr ht]
      rfl
  · intro e c1
    rw [HoistZipSubquery]
    constructor
    · intro h
      cases h1 : hoistItems (subqueryHoister.init c constructNoColsRow) rows with
      | panic msg => rw [h1] at h; cases h
      | ok p =>
        obtain ⟨rows1, hst⟩ := p
        rw [h1] at h
        simp only [Result.ok.injEq, Prod.mk.injEq] at h
        have ht := (hoistItems_threaded _ _ _ _).mp h1
        exact ⟨rows1, hst, ht, ht.length, h.2.symm, h.1.symm⟩
    · rintro ⟨rows1, hst, ht, _, rfl, rfl⟩
      rw [(hoistItems_threaded _ _ _ _).mpr ht]
      rfl

/-- C17: for every join kind and all operands, `ConstructApplyJoin` given the
join operator or the apply join operator of the kind returns the apply join of
the kind over the three operands, and `ConstructNonApplyJoin` given either of
them returns the join of the kind over the three operands. -/
theorem ConstructApplyJoin_kind (K : JoinKind) (left right on_ : Expr) :
    ConstructApplyJoin K.joinOp left right on_ =
      .ok (ConstructJoin K.applyOp left right on_) ∧
    ConstructApplyJoin K.applyOp left right on_ =
      .ok (ConstructJoin K.applyOp left right on_) ∧
    ConstructNonApplyJoin K.joinOp left right on_ =
      .ok (ConstructJoin K.joinOp left right on_) ∧
    ConstructNonApplyJoin K.applyOp left right on_ =
      .ok (ConstructJoin K.joinOp left right on_) ∧
    (ConstructJoin K.applyOp left right on_).Operator = K.applyOp ∧
    (ConstructJoin K.applyOp left right on_).children = [left, right, on_] ∧
    (ConstructJoin K.joinOp left right on_).Operator = K.joinOp ∧
    (ConstructJoin K.joinOp left right on_).children = [left, right, on_] := by
  cases K <;> exact ⟨rfl, rfl, rfl, rfl, rfl, rfl, rfl, rfl⟩

/-- C18: `ConstructApplyJoin` and `ConstructNonApplyJoin` each end in the
panic "unexpected join operator" exactly when the operator given is not one of
the twelve join operators, and return a node otherwise. -/
theorem ConstructApplyJoin_panics_iff (op : Operator) (left right on_ : Expr) :
    (ConstructApplyJoin op left right on_ = .panic "unexpected join operator" ↔
      ¬ op.IsJoin) ∧
    (ConstructNonApplyJoin op left right on_ = .panic "unexpected join operator" ↔
      ¬ op.IsJoin) ∧
    (op.IsJoin → ∃ e, ConstructApplyJoin op left right on_ = .ok e) ∧
    (op.IsJoin → ∃ e, ConstructNonApplyJoin op left right on_ = .ok e) ∧
    ((∃ msg, ConstructApplyJoin op left right on_ = .panic msg) ↔ ¬ op.IsJoin) ∧
    ((∃ msg, ConstructNonApplyJoin op left right on_ = .panic msg) ↔ ¬ op.IsJoin) ∧
    (op.IsJoin ↔ op ∈ [Operator.InnerJoinOp, .LeftJoinOp, .RightJoinOp, .FullJoinOp,
      .SemiJoinOp, .AntiJoinOp, .InnerJoinApplyOp, .LeftJoinApplyOp, .RightJoinApplyOp,
      .FullJoinApplyOp, .SemiJoinApplyOp, .AntiJoinApplyOp]) := by
  have hj : ∀ K : JoinKind, (ConstructApplyJoin K.joinOp left right on_ =
        .ok (ConstructJoin K.applyOp left right on_)) ∧
      (ConstructApplyJoin K.applyOp left right on_ =
        .ok (ConstructJoin K.applyOp left right on_)) ∧
      (ConstructNonApplyJoin K.joinOp left right on_ =
        .ok (ConstructJoin K.joinOp left right on_)) ∧
      (ConstructNonApplyJoin K.applyOp left right on_ =
        .ok (ConstructJoin K.joinOp left right on_)) := by
    intro K
    cases K <;> exact ⟨rfl, rfl, rfl, rfl⟩
  have hdec : op.IsJoin ∨ (ConstructApplyJoin op left right on_ =
        .panic "unexpected join operator" ∧
      ConstructNonApplyJoin op left right on_ = .panic "unexpected join operator") := by
    cases op
    case InnerJoinOp => exact Or.inl ⟨.Inner, Or.inl rfl⟩
    case LeftJoinOp => exact Or.inl ⟨.Left, Or.inl rfl⟩
    case RightJoinOp => exact Or.inl ⟨.Right, Or.inl rfl⟩
    case FullJoinOp => exact Or.inl ⟨.Full, Or.inl rfl⟩
    case SemiJoinOp => exact Or.inl ⟨.Semi, Or.inl rfl⟩
    case AntiJoinOp => exact Or.inl ⟨.Anti, Or.inl rfl⟩
    case InnerJoinApplyOp => exact Or.inl ⟨.Inner, Or.inr rfl⟩
    case LeftJoinApplyOp => exact Or.inl ⟨.Left, Or.inr rfl⟩
    case RightJoinApplyOp => exact Or.inl ⟨.Right, Or.inr rfl⟩
    case FullJoinApplyOp => exact Or.inl ⟨.Full, Or.inr rfl⟩
    case SemiJoinApplyOp => exact Or.inl ⟨.Semi, Or.inr rfl⟩
    case AntiJoinApplyOp => exact Or.inl ⟨.Anti, Or.inr rfl⟩
    all_goals exact Or.inr ⟨rfl, rfl⟩
  have hok1 : op.IsJoin → ∃ e, ConstructApplyJoin op left right on_ = .ok e := by
    rintro ⟨K, rfl | rfl⟩
    · exact ⟨_, (hj K).1⟩
    · exact ⟨_, (hj K).2.1⟩
  have hok2 : op.IsJoin → ∃ e, ConstructNonApplyJoin op left right on_ = .ok e := by
    rintro ⟨K, rfl | rfl⟩
    · exact ⟨_, (hj K).2.2.1⟩
    · exact ⟨_, (hj K).2.2.2⟩
  refine ⟨⟨?_, ?_⟩, ⟨?_, ?_⟩, hok1, hok2, ⟨?_, ?_⟩, ⟨?_, ?_⟩, ⟨?_, ?_⟩⟩
  · intro hp hjoin
    obtain ⟨e, he⟩ := hok1 hjoin
    rw [he] at hp; cases hp
  · intro hn
    rcases hdec with h | h
    · exact absurd h hn
    · exact h.1
  · intro hp hjoin
    obtain ⟨e, he⟩ := hok2 hjoin
    rw [he] at hp; cases hp
  · intro hn
    rcases hdec with h | h
    · exact absurd h hn
    · exact h.2
  · rintro ⟨msg, hp⟩ hjoin
    obtain ⟨e, he⟩ := hok1 hjoin
    rw [he] at hp; cases hp
  · intro hn
    rcases hdec with h | h
    · exact absurd h hn
    · exact ⟨_, h.1⟩
  · rintro ⟨msg, hp⟩ hjoin
    obtain ⟨e, he⟩ := hok2 hjoin
    rw [he] at hp; cases hp
  · intro hn
    rcases hdec with h | h
    · exact absurd h hn
    · exact ⟨_, h.2⟩
  · rintro ⟨K, rfl | rfl⟩ <;> cases K <;> simp [JoinKind.joinOp, JoinKind.applyOp]
  · intro hm
    simp only [List.mem_cons, List.mem_singleton, List.not_mem_nil, or_false] at hm
    rcases hm with rfl | rfl | rfl | rfl | rfl | rfl | rfl | rfl | rfl | rfl | rfl | rfl
    · exact ⟨.Inner, Or.inl rfl⟩
    · exact ⟨.Left, Or.inl rfl⟩
    · exact ⟨.Right, Or.inl rfl⟩
    · exact ⟨.Full, Or.inl rfl⟩
    · exact ⟨.Semi, Or.inl rfl⟩
    · exact ⟨.Anti, Or.inl rfl⟩
    · exact ⟨.Inner, Or.inr rfl⟩
    · exact ⟨.Left, Or.inr rfl⟩
    · exact ⟨.Right, Or.inr rfl⟩
    · exact ⟨.Full, Or.inr rfl⟩
    · exact ⟨.Semi, Or.inr rfl⟩
    · exact ⟨.Anti, Or.inr rfl⟩

/-- C19: `CanAggsIgnoreNulls` is true exactly when every aggregate of the list
has the operator `CountRows`, or `ConstAgg`, or an operator for which
`AggregateIgnoresNulls` (the parameter `ignoresNulls`) holds; it is true for
the empty list. -/
theorem CanAggsIgnoreNulls_iff (ignoresNulls : Operator → Bool) (aggs : Expr) :
    (CanAggsIgnoreNulls ignoresNulls aggs = true ↔
      ∀ elem ∈ aggs.children, elem.Operator = .CountRowsOp ∨ elem.Operator = .ConstAggOp ∨
        ignoresNulls elem.Operator = true) ∧
    (∀ cols, CanAggsIgnoreNulls ignoresNulls (ConstructAggregations [] cols) = true) :=
  ⟨CanAggsIgnoreNulls.loop_iff ignoresNulls aggs.children, fun _ => rfl⟩

/-- C20: for an input with a not-null column and an `Aggregations` node whose
`ConstAgg` aggregates have their operand, `EnsureAggsIgnoreNulls` returns a
node with as many aggregates and the same column list, in which position `i`
holds `ConstNotNullAgg(x)` where the list held `ConstAgg(x)`, `Count` over a
variable for the first not-null column of the input where it held `CountRows`,
and the aggregate of the list otherwise; when the list holds neither a
`ConstAgg` nor a `CountRows` the node returned is the node given, and otherwise
it is an `Aggregations` node. -/
theorem EnsureAggsIgnoreNulls_remaps (in_ aggs : Expr)
    (hnn : (in_.Logical.NotNullCols.Next 0).2 = true)
    (hwf : ∀ elem ∈ aggs.children, elem.Operator = .ConstAggOp → elem.children ≠ []) :
    ∃ out, EnsureAggsIgnoreNulls in_ aggs = .ok out ∧
      out.children.length = aggs.children.length ∧
      out.Private = aggs.Private ∧
      out.children = aggs.children.map (ignoringNulls in_) ∧
      (∀ (i : Nat) (elem x : Expr) (rest : List Expr), aggs.children[i]? = some elem → elem.Operator = .ConstAggOp →
        elem.children = x :: rest → out.children[i]? = some (ConstructConstNotNullAgg x)) ∧
      (∀ (i : Nat) (elem : Expr), aggs.children[i]? = some elem → elem.Operator = .CountRowsOp →
        out.children[i]? =
          some (ConstructCount (ConstructVariable (in_.Logical.NotNullCols.Next 0).1))) ∧
      (∀ (i : Nat) (elem : Expr), aggs.children[i]? = some elem → elem.Operator ≠ .ConstAggOp →
        elem.Operator ≠ .CountRowsOp → out.children[i]? = some elem) ∧
      ((∀ elem ∈ aggs.children, elem.Operator ≠ .ConstAggOp ∧ elem.Operator ≠ .CountRowsOp) →
        out = aggs) ∧
      ((∃ elem ∈ aggs.children, elem.Operator = .ConstAggOp ∨ elem.Operator = .CountRowsOp) →
        out = memoize .AggregationsOp (aggs.children.map (ignoringNulls in_)) aggs.Private) := by
  obtain ⟨res, hres, hcase⟩ := EnsureAggsIgnoreNulls.loop_spec in_ aggs.children hnn hwf
    aggs.children [] none rfl (Or.inl ⟨rfl, fun e he => absurd he (List.not_mem_nil e)⟩)
  have hloop : EnsureAggsIgnoreNulls.loop in_ aggs.children 0 none aggs.children = .ok res := hres
  have hmap : ∀ out : Expr, out.children = aggs.children.map (ignoringNulls in_) →
      (∀ (i : Nat) (elem x : Expr) (rest : List Expr), aggs.children[i]? = some elem → elem.Operator = .ConstAggOp →
        elem.children = x :: rest → out.children[i]? = some (ConstructConstNotNullAgg x)) ∧
      (∀ (i : Nat) (elem : Expr), aggs.children[i]? = some elem → elem.Operator = .CountRowsOp →
        out.children[i]? =
          some (ConstructCount (ConstructVariable (in_.Logical.NotNullCols.Next 0).1))) ∧
      (∀ (i : Nat) (elem : Expr), aggs.children[i]? = some elem → elem.Operator ≠ .ConstAggOp →
        elem.Operator ≠ .CountRowsOp → out.children[i]? = some elem) := by
    intro out hout
    refine ⟨?_, ?_, ?_⟩
    · intro i elem x rest hi hop hch
      rw [hout, List.getElem?_map, hi]
      simp only [Option.map_some', ignoringNulls, if_pos hop, hch]
    · intro i elem hi hop
      have hne : elem.Operator ≠ .ConstAggOp := by rw [hop]; decide
      rw [hout, List.getElem?_map, hi]
      simp only [Option.map_some', ignoringNulls, if_neg hne, if_pos hop]
    · intro i elem hi h1 h2
      rw [hout, List.getElem?_map, hi]
      simp only [Option.map_some', ignoringNulls, if_neg h1, if_neg h2]
  rcases hcase with ⟨hnone, hsame⟩ | ⟨hsome, e, he, hne⟩
  · subst hnone
    have hout : aggs.children = aggs.children.map (ignoringNulls in_) := by
      conv_lhs => rw [← List.map_id aggs.children]
      exact List.map_congr_left (fun x hx => (hsame x hx).symm)
    refine ⟨aggs, by rw [EnsureAggsIgnoreNulls, hloop], rfl, rfl, hout, (hmap aggs hout).1,
      (hmap aggs hout).2.1, (hmap aggs hout).2.2, fun _ => rfl, ?_⟩
    rintro ⟨x, hx, hop⟩
    exact absurd (hsame x hx) ((ignoringNulls_ne in_ x (hwf x hx)).mpr hop)
  · subst hsome
    have hm := hmap (memoize .AggregationsOp (aggs.children.map (ignoringNulls in_))
      aggs.Private) rfl
    refine ⟨memoize .AggregationsOp (aggs.children.map (ignoringNulls in_)) aggs.Private,
      by rw [EnsureAggsIgnoreNulls, hloop], ?_, rfl, rfl, hm.1, hm.2.1, hm.2.2, ?_,
      fun _ => rfl⟩
    · simp [memoize, Expr.children]
    · intro hno
      have := (ignoringNulls_ne in_ e (hwf e he)).mp hne
      rcases this with h | h
      · exact absurd h (hno e he).1
      · exact absurd h (hno e he).2

/-- Witness of C20: the example aggregations (`CountRows`, `ConstAgg` over
column 1, `BoolOr` over column 2) over an input whose column 2 is not null. -/
theorem EnsureAggsIgnoreNulls_remaps_witness :
    EnsureAggsIgnoreNulls exampleNotNull exampleAggs =
      .ok (ConstructAggregations
        [ConstructCount (ConstructVariable 2), ConstructConstNotNullAgg (ConstructVariable 1),
          ConstructBoolOr (ConstructVariable 2)] [5, 6, 7]) ∧
    ∃ out, EnsureAggsIgnoreNulls exampleNotNull exampleAggs = .ok out ∧
      out.children.length = exampleAggs.children.length ∧
      out.Private = exampleAggs.Private ∧
      out.children = exampleAggs.children.map (ignoringNulls exampleNotNull) ∧
      (∀ (i : Nat) (elem x : Expr) (rest : List Expr), exampleAggs.children[i]? = some elem → elem.Operator = .ConstAggOp →
        elem.children = x :: rest → out.children[i]? = some (ConstructConstNotNullAgg x)) ∧
      (∀ (i : Nat) (elem : Expr), exampleAggs.children[i]? = some elem → elem.Operator = .CountRowsOp →
        out.children[i]? = some (ConstructCount
          (ConstructVariable (exampleNotNull.Logical.NotNullCols.Next 0).1))) ∧
      (∀ (i : Nat) (elem : Expr), exampleAggs.children[i]? = some elem → elem.Operator ≠ .ConstAggOp →
        elem.Operator ≠ .CountRowsOp → out.children[i]? = some elem) ∧
      ((∀ elem ∈ exampleAggs.children,
          elem.Operator ≠ .ConstAggOp ∧ elem.Operator ≠ .CountRowsOp) → out = exampleAggs) ∧
      ((∃ elem ∈ exampleAggs.children,
          elem.Operator = .ConstAggOp ∨ elem.Operator = .CountRowsOp) →
        out = memoize .AggregationsOp
          (exampleAggs.children.map (ignoringNulls exampleNotNull)) exampleAggs.Private) :=
  ⟨by rfl, EnsureAggsIgnoreNulls_remaps exampleNotNull exampleAggs (by decide) (by decide)⟩

/-- C21: for every `Aggregations` node for which `CanAggsIgnoreNulls` holds and
every input with a not-null column among its output columns,
`EnsureAggsIgnoreNulls` returns a list in which no `CountRows` and no
`ConstAgg` remains and every aggregate is one that ignores nulls (`Count` and
`ConstNotNullAgg` being such); over a database in which the aggregates that
ignore nulls leave their value as it is when rows of null arguments are
appended, and the arguments of the aggregates are null on a row of nulls, the
results of the returned aggregates over any rows of the input are unchanged by
appending any number of all-null rows. -/
theorem EnsureAggsIgnoreNulls_ignores_null_rows (db : Database)
    (ignoresNulls : Operator → Bool) (in_ aggs : Expr)
    (hcan : CanAggsIgnoreNulls ignoresNulls aggs = true)
    (hnn : (in_.Logical.NotNullCols.Next 0).2 = true)
    (hcol : (in_.Logical.NotNullCols.Next 0).1 ∈ in_.Logical.OutputCols)
    (hwf : ∀ elem ∈ aggs.children, elem.Operator = .ConstAggOp → elem.children ≠ [])
    (hflag : ignoresNulls .ConstNotNullAggOp = true ∧ ignoresNulls .CountOp = true)
    (hsound : ∀ op, ignoresNulls op = true → NullIgnoring db op)
    (hargs : ∀ elem ∈ aggs.children, ∀ env,
      ∀ d ∈ evalScalars db elem.children (nullRow in_.Logical.OutputCols ++ env),
        d = Datum.null) :
    ∃ out, EnsureAggsIgnoreNulls in_ aggs = .ok out ∧
      out.children.length = aggs.children.length ∧
      (∀ elem ∈ out.children, elem.Operator ≠ .CountRowsOp ∧ elem.Operator ≠ .ConstAggOp ∧
        ignoresNulls elem.Operator = true) ∧
      ∀ (rows : List Row) (env : Row) (n : Nat),
        evalAggs db out.children
            (rows ++ List.replicate n (nullRow in_.Logical.OutputCols)) env =
          evalAggs db out.children rows env := by
  obtain ⟨out, hout, hch⟩ := EnsureAggsIgnoreNulls_ok_map in_ aggs hnn hwf
  have hall := (CanAggsIgnoreNulls.loop_iff ignoresNulls aggs.children).mp hcan
  have hkey : ∀ elem ∈ out.children, ∀ env,
      (elem.Operator ≠ .CountRowsOp ∧ elem.Operator ≠ .ConstAggOp ∧
        ignoresNulls elem.Operator = true) ∧
      ∀ d ∈ evalScalars db elem.children (nullRow in_.Logical.OutputCols ++ env),
        d = Datum.null := by
    intro elem he env
    rw [hch] at he
    obtain ⟨x, hx, rfl⟩ := List.mem_map.mp he
    exact ignoringNulls_nullIgnoring db ignoresNulls in_ x env (hall x hx) hcol (hwf x hx) hflag
      (hargs x hx env)
  refine ⟨out, hout, by rw [hch, List.length_map], fun elem he => (hkey elem he []).1, ?_⟩
  intro rows env n
  apply evalAggs_pad
  intro elem he
  exact ⟨hsound _ (hkey elem he env).1.2.2, (hkey elem he env).2⟩

/-- Witness of C21: the example aggregations (`CountRows`, `ConstAgg` over
column 1, `BoolOr` over column 2) over an input with the columns 1 and 2 whose
column 2 is not null, in a database where `Count` counts the arguments that
are not null and `ConstNotNullAgg` returns the first one that is not null. -/
theorem EnsureAggsIgnoreNulls_ignores_null_rows_witness :
    CanAggsIgnoreNulls exampleIgnoresNulls exampleAggs = true ∧
    EnsureAggsIgnoreNulls exampleNotNull exampleAggs =
      .ok (ConstructAggregations
        [ConstructCount (ConstructVariable 2), ConstructConstNotNullAgg (ConstructVariable 1),
          ConstructBoolOr (ConstructVariable 2)] [5, 6, 7]) ∧
    evalAggs aggDb
        [ConstructCount (ConstructVariable 2), ConstructConstNotNullAgg (ConstructVariable 1),
          ConstructBoolOr (ConstructVariable 2)]
        ([[(1, .int 4), (2, .bool false)]] ++
          List.replicate 2 (nullRow exampleNotNull.Logical.OutputCols)) [] =
      [.int 1, .int 4, .bool false] ∧
    ∃ out, EnsureAggsIgnoreNulls exampleNotNull exampleAggs = .ok out ∧
      out.children.length = exampleAggs.children.length ∧
      (∀ elem ∈ out.children, elem.Operator ≠ .CountRowsOp ∧ elem.Operator ≠ .ConstAggOp ∧
        exampleIgnoresNulls elem.Operator = true) ∧
      ∀ (rows : List Row) (env : Row) (n : Nat),
        evalAggs aggDb out.children
            (rows ++ List.replicate n (nullRow exampleNotNull.Logical.OutputCols)) env =
          evalAggs aggDb out.children rows env :=
  ⟨by decide, by rfl, by decide,
    EnsureAggsIgnoreNulls_ignores_null_rows aggDb exampleIgnoresNulls exampleNotNull exampleAggs
      (by decide) (by decide) (by decide) (by decide) (by decide) aggDb_sound
      (by
        intro elem he env d hd
        have hcases : elem = memoize .CountRowsOp [] .none ∨
            elem = ConstructConstAgg (ConstructVariable 1) ∨
            elem = ConstructBoolOr (ConstructVariable 2) := by
          simpa [exampleAggs, ConstructAggregations, memoize, Expr.children] using he
        rcases hcases with rfl | rfl | rfl
        · simp [memoize, Expr.children, evalScalars] at hd
        · simp only [ConstructConstAgg, ConstructVariable, memoize, Expr.children, evalScalars,
            evalScalar, List.mem_singleton] at hd
          rw [hd, Row.get_append_left _ _ _ (by decide)]
          decide
        · simp only [ConstructBoolOr, ConstructVariable, memoize, Expr.children, evalScalars,
            evalScalar, List.mem_singleton] at hd
          rw [hd, Row.get_append_left _ _ _ (by decide)]
          decide)⟩

/-- C22: `EnsureNotNullIfCountRows` returns the input, and registers no column,
when the not-null columns of the input hold a column (`Next(0)` succeeds, which
for column identifiers, none of them negative, is when the set is not empty);
otherwise, when the list holds a `CountRows`, it returns the projection of the
input that passes the output columns of the input through and adds one column
defined as the constant `True`, registered as the boolean column "notnull"
after the columns registered so far; otherwise it returns the input and
registers no column. -/
theorem EnsureNotNullIfCountRows_cases (c : CustomFuncs) (in_ aggs : Expr) :
    ((in_.Logical.NotNullCols.Next 0).2 = true →
      EnsureNotNullIfCountRows c in_ aggs = (in_, c)) ∧
    ((∀ x ∈ in_.Logical.NotNullCols, 0 ≤ x) → in_.Logical.NotNullCols.Empty = false →
      EnsureNotNullIfCountRows c in_ aggs = (in_, c)) ∧
    ((in_.Logical.NotNullCols.Next 0).2 = false →
      (∃ elem ∈ aggs.children, elem.Operator = .CountRowsOp) →
      EnsureNotNullIfCountRows c in_ aggs =
        (ConstructProject in_
          (ConstructProjections [ConstructTrue] [(c.md.cols.length : Int) + 1]
            in_.Logical.OutputCols),
          { c with md := ⟨c.md.cols ++ [("notnull", Typ.Bool)]⟩ }) ∧
      (∀ x, x ∈ (EnsureNotNullIfCountRows c in_ aggs).1.Logical.OutputCols ↔
        x ∈ in_.Logical.OutputCols ∨ x = (c.md.cols.length : Int) + 1) ∧
      (c.md.cols.length : Int) + 1 ∈
        (EnsureNotNullIfCountRows c in_ aggs).1.Logical.NotNullCols) ∧
    ((in_.Logical.NotNullCols.Next 0).2 = false →
      (∀ elem ∈ aggs.children, elem.Operator ≠ .CountRowsOp) →
      EnsureNotNullIfCountRows c in_ aggs = (in_, c)) := by
  refine ⟨?_, ?_, ?_, ?_⟩
  · intro h
    rw [EnsureNotNullIfCountRows, if_pos h]
  · intro hnn hne
    rw [EnsureNotNullIfCountRows, if_pos ((ColSet.Next_ok_iff _ hnn).mpr hne)]
  · intro h hcr
    have hres : EnsureNotNullIfCountRows c in_ aggs =
        (projectExtraCol in_ ConstructTrue ((c.md.cols.length : Int) + 1),
          { c with md := ⟨c.md.cols ++ [("notnull", Typ.Bool)]⟩ }) := by
      rw [EnsureNotNullIfCountRows, if_neg (by rw [h]; decide)]
      exact EnsureNotNullIfCountRows.loop_countRows c in_ aggs.children hcr
    refine ⟨hres, ?_, ?_⟩
    · intro x
      rw [hres]
      have hout : (projectExtraCol in_ ConstructTrue ((c.md.cols.length : Int) + 1)).Logical.OutputCols =
          in_.Logical.OutputCols.Union (ColSet.ofList [(c.md.cols.length : Int) + 1]) := rfl
      simp only [hout, ColSet.mem_Union, ColSet.mem_ofList, List.mem_singleton]
    · rw [hres]
      exact projectExtraCol_True_notNull in_ _
  · intro h hno
    rw [EnsureNotNullIfCountRows, if_neg (by rw [h]; decide)]
    exact EnsureNotNullIfCountRows.loop_none c in_ aggs.children hno

/-- C23: `EnsureAggsIgnoreNulls` over the relation `EnsureNotNullIfCountRows`
returns never ends in the panic "expected input expression to have not-null
column"; `EnsureAggsIgnoreNulls` over the input itself ends in that panic only
when the list holds a `CountRows` and the input has no not-null column, and
does end in it then, for a list whose `ConstAgg` aggregates have their
operand. -/
theorem EnsureAggsIgnoreNulls_panics_iff (c : CustomFuncs) (in_ aggs : Expr) :
    EnsureAggsIgnoreNulls (EnsureNotNullIfCountRows c in_ aggs).1 aggs ≠
      .panic "expected input expression to have not-null column" ∧
    (EnsureAggsIgnoreNulls in_ aggs =
        .panic "expected input expression to have not-null column" →
      (∃ elem ∈ aggs.children, elem.Operator = .CountRowsOp) ∧
        (in_.Logical.NotNullCols.Next 0).2 = false) ∧
    ((∀ elem ∈ aggs.children, elem.Operator = .ConstAggOp → elem.children ≠ []) →
      (∃ elem ∈ aggs.children, elem.Operator = .CountRowsOp) →
      (in_.Logical.NotNullCols.Next 0).2 = false →
      EnsureAggsIgnoreNulls in_ aggs =
        .panic "expected input expression to have not-null column") := by
  refine ⟨?_, EnsureAggsIgnoreNulls_panic in_ aggs, ?_⟩
  · intro h
    obtain ⟨hcr, hnn⟩ := EnsureAggsIgnoreNulls_panic _ aggs h
    by_cases h0 : (in_.Logical.NotNullCols.Next 0).2 = true
    · rw [EnsureNotNullIfCountRows, if_pos h0] at hnn
      rw [h0] at hnn
      cases hnn
    · have h1 : (in_.Logical.NotNullCols.Next 0).2 = false := by
        cases hb : (in_.Logical.NotNullCols.Next 0).2
        · rfl
        · exact absurd hb h0
      rw [EnsureNotNullIfCountRows, if_neg h0,
        EnsureNotNullIfCountRows.loop_countRows c in_ aggs.children hcr] at hnn
      have hmem := projectExtraCol_True_notNull in_ ((c.md.cols.length : Int) + 1)
      have hok := ColSet.Next_ok_mem _ _ hmem (by omega)
      rw [hok] at hnn
      cases hnn
  · intro hwf hcr hnn
    rw [EnsureAggsIgnoreNulls,
      EnsureAggsIgnoreNulls.loop_panics in_ aggs.children 0 none aggs.children hwf hcr hnn]

/-- C24: `EnsureKey` returns the relation given, and registers no column, when
the relation has a candidate key; otherwise it returns `RowNumber` over the
relation, whose definition names one column, registered as the integer column
"rownum" after the columns registered so far; in both cases the candidate-key
lookup on the relation returned succeeds, and so does `KeyCols`. -/
theorem EnsureKey_cases (c : CustomFuncs) (in_ : Expr) :
    (∀ key, in_.Logical.CandidateKey = some key → EnsureKey c in_ = (in_, c)) ∧
    (in_.Logical.CandidateKey = none →
      EnsureKey c in_ =
        (ConstructRowNumber in_ ((c.md.cols.length : Int) + 1),
          { c with md := ⟨c.md.cols ++ [("rownum", Typ.Int)]⟩ }) ∧
      (EnsureKey c in_).1.Operator = .RowNumberOp ∧
      (EnsureKey c in_).1.children = [in_] ∧
      (EnsureKey c in_).1.Private = .rowNumberDef ((c.md.cols.length : Int) + 1)) ∧
    (CandidateKey (EnsureKey c in_).1).2 = true ∧
    (∃ key, KeyCols (EnsureKey c in_).1 = .ok key) := by
  have hcases : (∃ key, in_.Logical.CandidateKey = some key) ∨
      in_.Logical.CandidateKey = none := by
    cases h : in_.Logical.CandidateKey with
    | none => exact Or.inr rfl
    | some key => exact Or.inl ⟨key, rfl⟩
  have hsome : ∀ key, in_.Logical.CandidateKey = some key → EnsureKey c in_ = (in_, c) := by
    intro key hk
    simp only [EnsureKey, CandidateKey, hk, if_true]
  have hnone : in_.Logical.CandidateKey = none →
      EnsureKey c in_ =
        (ConstructRowNumber in_ ((c.md.cols.length : Int) + 1),
          { c with md := ⟨c.md.cols ++ [("rownum", Typ.Int)]⟩ }) := by
    intro hk
    simp only [EnsureKey, CandidateKey, hk, Bool.false_eq_true, if_false]
    rfl
  have hkey : (CandidateKey (EnsureKey c in_).1).2 = true := by
    rcases hcases with ⟨key, hk⟩ | hk
    · rw [hsome key hk]
      simp only [CandidateKey, hk]
    · rw [hnone hk]
      rfl
  refine ⟨hsome, ?_, hkey, ?_⟩
  · intro hk
    refine ⟨hnone hk, ?_, ?_, ?_⟩ <;> rw [hnone hk] <;> rfl
  · refine ⟨(CandidateKey (EnsureKey c in_).1).1, ?_⟩
    rw [KeyCols, if_neg (by rw [hkey]; decide)]

/-- C25: for a `Subquery`, `Exists` or `Any` root with no outer column, on
each of whose children `HasHoistableSubquery` is false, and a hoister with a
consistent rule cache, `hoistAll` treats the root as opaque: it does not lift
it and walks none of its children, each of which the replacement of the
children returns as it is; the root is returned unchanged, and the input of
the hoister and the metadata are left unchanged, without a panic. -/
theorem hoistAll_uncorrelated_root (r : subqueryHoister) (op : Operator) (cs : List Expr)
    (priv : Private) (l : Logical) (hop : op.IsSubquery = true)
    (hout : l.OuterCols.Empty = true) (hcons : r.c.rule.Consistent)
    (hkids : ∀ c ∈ cs, (HasHoistableSubquery RuleCache.empty c).1 = false) :
    hoistAll r (.mk op cs priv l) =
      (match hoistAll.children r cs with
        | .ok (cs1, r1) => .ok (Replace (.mk op cs priv l) cs1, r1)
        | .panic msg => .panic msg) ∧
    (∃ rule1, hoistAll.children r cs = .ok (cs, r.withRule rule1)) ∧
    (hoistAll r (.mk op cs priv l)).root = some (.mk op cs priv l) ∧
    (hoistAll r (.mk op cs priv l)).hoistedInput = some r.hoisted ∧
    (hoistAll r (.mk op cs priv l)).inputAndMetadata = .ok r.inputAndMetadata := by
  have hcor : ¬ (op.IsSubquery = true ∧ l.OuterCols.Empty = false) := by
    rintro ⟨_, h⟩
    rw [hout] at h
    cases h
  have hall : ∀ c ∈ cs, hoistableSpec c = false := by
    intro c hc
    rw [← (HasHoistableSubquery_consistent RuleCache.empty c RuleCache.empty_consistent).1]
    exact hkids c hc
  have h0 : hoistableSpec (.mk op cs priv l) = false := by
    rw [hoistableSpec_mk, if_pos hop, hout]
    rfl
  obtain ⟨rule1, h1, _⟩ := hoistAll.children_kept r cs hcons hall
  obtain ⟨rule2, h2, _⟩ := hoistAll_kept r (.mk op cs priv l) hcons h0 hall
  refine ⟨?_, ⟨rule1, h1⟩, ?_, ?_, ?_⟩
  · rw [hoistAll, if_neg hcor]
  · rw [h2]; rfl
  · rw [h2]; rfl
  · rw [h2]; rfl

/-- Witness of C25: `exampleOpaque`, an `Exists` with no outer column over a
relation that holds no subquery, hoisted from the example input. -/
theorem hoistAll_uncorrelated_root_witness :
    exampleOpaque.Operator = .ExistsOp ∧
    exampleOpaque.Logical.OuterCols.Empty = true ∧
    (hoistAll exampleHoister exampleOpaque).root = some exampleOpaque ∧
    (hoistAll exampleHoister exampleOpaque).hoistedInput = some exampleHoister.hoisted ∧
    (hoistAll exampleHoister exampleOpaque).inputAndMetadata =
      .ok exampleHoister.inputAndMetadata :=
  ⟨rfl, by decide,
    (hoistAll_uncorrelated_root exampleHoister .ExistsOp [exampleRight] .none
      (exampleProps [] [] Cardinality.any false) (by decide) (by decide)
      RuleCache.empty_consistent (by decide)).2.2⟩

/-- C26: in the relation `constructGroupByAny` builds for the left value `z`
and the subquery column values `X` (`BoolOr` is the aggregate of its scalar
group-by), the values fed to `BoolOr` are the values `x IS NOT NULL` of the
values `x` of `X` that survive the filter `(z cmp x) IS NOT False`: each is
true or false and none is null; the aggregate column holds `BoolOr` of these
values, which is null exactly when no value survives the filter. -/
theorem constructGroupByAny_boolOr_inputs (db : Database) (r : subqueryHoister)
    (scalar : Expr) (n : Nat) (input : Expr) (env : Row) (z : Datum)
    (hlen : input.Logical.OutputCols.Len = 1)
    (hbind : ∀ row ∈ evalRel db input env,
      (row.lookup (input.Logical.OutputCols.Next 0).1).isSome = true)
    (hz : ∀ row ∈ evalRel db input env,
      evalScalar db (cacheAnyScalar r scalar).1 (row ++ env) = z) :
    ∃ sub r1 groupBy, constructGroupByAny r scalar (.OtherScalarOp n) input = .ok (sub, r1) ∧
      groupByOf sub = some groupBy ∧
      boolOrInputs db sub env =
        (((evalRel db input env).map
            (fun row => row.get (input.Logical.OutputCols.Next 0).1)).filter
          (fun x => db.scalar (.OtherScalarOp n) .none [z, x] != Datum.bool false)).map
          (fun x => Datum.bool (x != Datum.null)) ∧
      (∀ v ∈ boolOrInputs db sub env, v = Datum.bool true ∨ v = Datum.bool false) ∧
      (∀ v ∈ boolOrInputs db sub env, v ≠ Datum.null) ∧
      evalRel db groupBy env =
        [[(((cacheAnyScalar r scalar).2.c.md.cols.length : Int) + 2,
          boolOrAgg (boolOrInputs db sub env))]] ∧
      (boolOrAgg (boolOrInputs db sub env) = Datum.null ↔
        ((evalRel db input env).map
            (fun row => row.get (input.Logical.OutputCols.Next 0).1)).filter
          (fun x => db.scalar (.OtherScalarOp n) .none [z, x] != Datum.bool false) = []) := by
  obtain ⟨sub, r1, groupBy, h1, h2, h3, h4⟩ :=
    constructGroupByAny_boolOr db r scalar n input env z hlen hbind hz
  have hbools : ∀ v ∈ boolOrInputs db sub env, v = Datum.bool true ∨ v = Datum.bool false := by
    intro v hv
    rw [h4, List.mem_map] at hv
    obtain ⟨x, _, rfl⟩ := hv
    cases (x != Datum.null)
    · exact Or.inr rfl
    · exact Or.inl rfl
  refine ⟨sub, r1, groupBy, h1, h2, h4, hbools, ?_, h3, ?_⟩
  · intro v hv hn
    rcases hbools v hv with h | h <;> rw [h] at hn <;> cases hn
  · rw [boolOrAgg_bools _ hbools, h4, List.map_eq_nil_iff]

/-- Witness of C26: `1 = ANY(1, null, 2)` over the database of the truth
table. -/
theorem constructGroupByAny_boolOr_inputs_witness :
    ∃ sub r1 groupBy, constructGroupByAny exampleHoister (tableConst 1) (.OtherScalarOp 0)
        tableRel = .ok (sub, r1) ∧
      groupByOf sub = some groupBy ∧
      boolOrInputs (tableDb [.int 1, .null, .int 2]) sub [] =
        (((evalRel (tableDb [.int 1, .null, .int 2]) tableRel []).map
            (fun row => row.get (tableRel.Logical.OutputCols.Next 0).1)).filter
          (fun x => (tableDb [.int 1, .null, .int 2]).scalar (.OtherScalarOp 0) .none
            [.int 1, x] != Datum.bool false)).map
          (fun x => Datum.bool (x != Datum.null)) ∧
      (∀ v ∈ boolOrInputs (tableDb [.int 1, .null, .int 2]) sub [],
        v = Datum.bool true ∨ v = Datum.bool false) ∧
      (∀ v ∈ boolOrInputs (tableDb [.int 1, .null, .int 2]) sub [], v ≠ Datum.null) ∧
      evalRel (tableDb [.int 1, .null, .int 2]) groupBy [] =
        [[(((cacheAnyScalar exampleHoister (tableConst 1)).2.c.md.cols.length : Int) + 2,
          boolOrAgg (boolOrInputs (tableDb [.int 1, .null, .int 2]) sub []))]] ∧
      (boolOrAgg (boolOrInputs (tableDb [.int 1, .null, .int 2]) sub []) = Datum.null ↔
        ((evalRel (tableDb [.int 1, .null, .int 2]) tableRel []).map
            (fun row => row.get (tableRel.Logical.OutputCols.Next 0).1)).filter
          (fun x => (tableDb [.int 1, .null, .int 2]).scalar (.OtherScalarOp 0) .none
            [.int 1, x] != Datum.bool false) = []) :=
  constructGroupByAny_boolOr_inputs (tableDb [.int 1, .null, .int 2]) exampleHoister
    (tableConst 1) 0 tableRel [] (.int 1)
    (by decide)
    (by decide)
    (by
      intro row _
      have h1 : (cacheAnyScalar exampleHoister (tableConst 1)).1 = tableConst 1 := by decide
      rw [h1]
      simp only [tableConst, memoize]
      rw [evalScalar_op _ _ _ _ _ _ (by decide) (by decide)]
      rfl)

/-- C27: for every scalar tree that `hoistAll` walks among scalars, whatever
the side effects of its `Case` and `When` branches, and every hoister with a
consistent rule cache, the tree `hoistAll` returns contains no hoistable
subquery: `HasHoistableSubquery` evaluated with an empty cache on the result is
false, and false on each of its children; and the number of variables that
stand in the place of a subquery equals the number of apply joins added on top
of the hoister's input. -/
theorem hoistAll_leaves_no_hoistable (r : subqueryHoister) (e e1 input1 : Expr)
    (hcons : r.c.rule.Consistent) (hwalk : ScalarWalk e)
    (hroot : (hoistAll r e).root = some e1)
    (hinput : (hoistAll r e).hoistedInput = some input1) :
    (HasHoistableSubquery RuleCache.empty e1).1 = false ∧
    (∀ c ∈ e1.children, (HasHoistableSubquery RuleCache.empty c).1 = false) ∧
    substitutions e e1 = joinsAbove r.hoisted input1 := by
  cases h : hoistAll r e with
  | panic msg => rw [h] at hroot; cases hroot
  | ok p =>
    obtain ⟨e2, r1⟩ := p
    rw [h] at hroot hinput
    simp only [Result.root, Result.hoistedInput, Option.some.injEq] at hroot hinput
    subst hroot
    subst hinput
    obtain ⟨h1, h2, _⟩ := hoistAll_clean r r1 e e2 hcons hwalk h
    obtain ⟨h3, _⟩ := hoistAll_substitutions r r1 e e2 hcons h
    obtain ⟨subs, h4, h5⟩ := hoistAll_joins r r1 e e2 hcons h
    refine ⟨?_, ?_, ?_⟩
    · rw [(HasHoistableSubquery_consistent RuleCache.empty e2 RuleCache.empty_consistent).1]
      exact h1
    · intro c hc
      rw [(HasHoistableSubquery_consistent RuleCache.empty c RuleCache.empty_consistent).1]
      exact h2 c hc
    · rw [h3, h5.joinsAbove_eq, h4]

/-- Witness of C27: `exampleCase` hoisted from the example input with an empty
rule cache: two variables stand in the place of its two subqueries, and two
apply joins are added to the input. -/
theorem hoistAll_leaves_no_hoistable_witness :
    ScalarWalk exampleCase ∧
    (hoistAll exampleHoister exampleCase).root =
      some (memoize .CaseOp
        [ConstructTrue,
         memoize .WhenOp [ConstructVariable 10, ConstructVariable 20] .none,
         ConstructNull Typ.Unknown] .none) ∧
    (hoistAll exampleHoister exampleCase).hoistedInput =
      some (ConstructInnerJoinApply
        (ConstructLeftJoinApply exampleInput exampleRel1 ConstructTrue)
        exampleRel2 ConstructTrue) ∧
    joinsAbove exampleHoister.hoisted (ConstructInnerJoinApply
        (ConstructLeftJoinApply exampleInput exampleRel1 ConstructTrue)
        exampleRel2 ConstructTrue) = 2 ∧
    ((HasHoistableSubquery RuleCache.empty (memoize .CaseOp
        [ConstructTrue,
         memoize .WhenOp [ConstructVariable 10, ConstructVariable 20] .none,
         ConstructNull Typ.Unknown] .none)).1 = false ∧
      (∀ c ∈ (memoize .CaseOp
        [ConstructTrue,
         memoize .WhenOp [ConstructVariable 10, ConstructVariable 20] .none,
         ConstructNull Typ.Unknown] .none).children,
        (HasHoistableSubquery RuleCache.empty c).1 = false) ∧
      substitutions exampleCase (memoize .CaseOp
        [ConstructTrue,
         memoize .WhenOp [ConstructVariable 10, ConstructVariable 20] .none,
         ConstructNull Typ.Unknown] .none) =
        joinsAbove exampleHoister.hoisted (ConstructInnerJoinApply
          (ConstructLeftJoinApply exampleInput exampleRel1 ConstructTrue)
          exampleRel2 ConstructTrue)) :=
  ⟨exampleCase_scalarWalk, by decide, by decide, by decide,
    hoistAll_leaves_no_hoistable exampleHoister exampleCase _ _ RuleCache.empty_consistent
      exampleCase_scalarWalk (by decide) (by decide)⟩

end Decorrelate
